import Mathlib

/-!
Hologram lip-sync pipeline: a shallow embedding.

Embedding of `apps/backend/modules/lip-sync.mjs` (with the parts of
`sarvamTTS.mjs` and `utils/files.mjs` it calls, and the streaming branch of
`server.js` that consumes it) as pure functions.

External collaborators (the speech provider, the Rhubarb process, the file
system) are oracles: every call is answered by a value of the `World` the run
is given, per index (and per attempt for the synthesis call), whatever the
state the call is made in.  A promise is represented by the outcome it settles
with; the orchestrator's own control flow (launch, await, map write, yield) is
recorded in order in a trace of `Action`s.  A generator is run until it is
exhausted.  Wall-clock time, the interleaving of pending calls and the host's
handling of a rejection nobody awaits are outside the embedding.
-/

set_option autoImplicit false

namespace Hologram

/-! ## Errors and constants -/

/-- An error value as the orchestrator inspects it: `error.message`,
`error.statusCode`, `error.status` (`none` = the property is absent). -/
structure JsError where
  message : String
  statusCode : Option Nat
  status : Option Nat
deriving DecidableEq, Repr

/-- The value `new Error(msg)`: a message and no status property. -/
def JsError.plain (msg : String) : JsError := ⟨msg, none, none⟩

/-- Settled outcome of an asynchronous call: it threw, or it returned a value. -/
inductive Settled (α : Type) where
  | threw (e : JsError)
  | returned (a : α)
deriving DecidableEq, Repr

def MAX_RETRIES : Nat := 10
def RETRY_DELAY : Nat := 2000
def TTS_CONCURRENCY : Nat := 2
def INITIAL_DELAY : Nat := 100

/-! ## sarvamTTS.mjs: convertTextToSpeech -/

/-- What `fetch` and the reads of the response body give on one request.
`audios` is `responseData.audios` when it is an array, `none` otherwise. -/
inductive FetchOutcome where
  | rejected (e : JsError)
  | response (status : Nat) (errorText : String)
      (json : Settled (Option (List String)))
deriving DecidableEq, Repr

/-- The Fetch standard's `response.ok`: the status is in 200..299. -/
def responseOk (status : Nat) : Bool := decide (200 ≤ status) && decide (status ≤ 299)

/-- The function `convertTextToSpeech`: on success the value is the audio that
`writeFileSync` stores; every failure is re-thrown unchanged by its `catch`. -/
def convertTextToSpeech (o : FetchOutcome) : Settled String :=
  match o with
  | .rejected e => .threw e
  | .response status errorText json =>
    if !responseOk status then
      .threw (JsError.plain ("Sarvam TTS API error: " ++ toString status ++ " - " ++ errorText))
    else
      match json with
      | .threw e => .threw e
      | .returned none => .threw (JsError.plain "Sarvam TTS API returned invalid response format")
      | .returned (some []) =>
        .threw (JsError.plain "Sarvam TTS API returned invalid response format")
      | .returned (some (base64Audio :: _)) => .returned base64Audio

/-! ## lip-sync.mjs: processTTSWithRetry -/

/-- One attempt as `processTTSWithRetry` sees it: `convertTextToSpeech` threw,
or it returned and the two `existsSync` checks gave these answers. -/
inductive CallResult where
  | threw (e : JsError)
  | returned (existsRelative existsResolved : Bool)
deriving DecidableEq, Repr

/-- An attempt built from a provider answer and the two existence checks. -/
def attemptOf (o : FetchOutcome) (existsRelative existsResolved : Bool) : CallResult :=
  match convertTextToSpeech o with
  | .threw e => .threw e
  | .returned _ => .returned existsRelative existsResolved

/-- Observable steps of one `processTTSWithRetry` run. -/
inductive Effect where
  | attempt (n : Nat)
  | wait (ms : Nat)
deriving DecidableEq, Repr

/-- Result and steps of one `processTTSWithRetry` run. -/
structure RetryRun where
  result : Settled Bool
  effects : List Effect
deriving DecidableEq, Repr

/-- The test `error.statusCode === 401 || error.status === 401`. -/
def isAuthError (error : JsError) : Bool :=
  error.statusCode == some 401 || error.status == some 401

/-- The test `error.statusCode === 429 || error.status === 429`. -/
def isRateLimitError (error : JsError) : Bool :=
  error.statusCode == some 429 || error.status == some 429

/-- Body of the `try` block of one attempt: the call, then the existence check
that throws `File ... was not created` when both checks are false. -/
def attemptBody (fileName : String) (c : CallResult) : Settled Unit :=
  match c with
  | .threw e => .threw e
  | .returned existsRelative existsResolved =>
    if existsRelative || existsResolved then .returned ()
    else .threw (JsError.plain ("File " ++ fileName ++ " was not created"))

/-- The `for (attempt = 0; attempt < MAX_RETRIES; attempt++)` loop; `fuel` is
the number of iterations left, `MAX_RETRIES - attempt`. -/
def processTTSWithRetryLoop (call : Nat → CallResult) (fileName : String) :
    Nat → Nat → RetryRun
  | 0, _ => ⟨.returned false, []⟩
  | fuel + 1, attempt =>
    match attemptBody fileName (call attempt) with
    | .returned _ => ⟨.returned true, [.attempt attempt]⟩
    | .threw error =>
      if isAuthError error then ⟨.threw error, [.attempt attempt]⟩
      else if isRateLimitError error && decide (attempt < MAX_RETRIES - 1) then
        let waitTime := RETRY_DELAY * (attempt + 1)
        let rest := processTTSWithRetryLoop call fileName fuel (attempt + 1)
        ⟨rest.result, .attempt attempt :: .wait waitTime :: rest.effects⟩
      else if attempt = MAX_RETRIES - 1 then ⟨.threw error, [.attempt attempt]⟩
      else
        let rest := processTTSWithRetryLoop call fileName fuel (attempt + 1)
        ⟨rest.result, .attempt attempt :: rest.effects⟩

/-- The function `processTTSWithRetry({ text, fileName, index })`. -/
def processTTSWithRetry (call : Nat → CallResult) (fileName : String) : RetryRun :=
  processTTSWithRetryLoop call fileName MAX_RETRIES 0

/-- Attempt numbers on which the synthesis call was made, in order. -/
def attemptsMade (r : RetryRun) : List Nat :=
  r.effects.filterMap fun e => match e with
    | .attempt n => some n
    | .wait _ => none

/-- Total of the `delay(waitTime)` waits of a run, in milliseconds. -/
def totalDelay (r : RetryRun) : Nat :=
  (r.effects.filterMap fun e => match e with
    | .attempt _ => none
    | .wait ms => some ms).sum

/-- How the `catch` block of `processTTSWithRetry` treats a failure, in the
order of its tests. -/
inductive FailureKind where
  | auth
  | rateLimit
  | other
deriving DecidableEq, Repr

def classify (error : JsError) : FailureKind :=
  if isAuthError error then .auth
  else if isRateLimitError error then .rateLimit
  else .other

/-! ## lip-sync.mjs: processMessageComplete -/

/-- A message record: the three fields the language model supplies and the two
the pipeline adds (`none` = the property is absent). -/
structure Message where
  text : String
  facialExpression : String
  animation : String
  audio : Option String
  lipsync : Option String
deriving DecidableEq, Repr, Inhabited

/-- Answers of the collaborators to one `processMessageComplete` call:
`getPhonemes`, the two pairs of `existsSync` checks and the two file reads. -/
structure ExtractEnv where
  getPhonemes : Settled Unit
  wavExistsRelative : Bool
  wavExistsResolved : Bool
  audioFileToBase64 : Settled String
  jsonExistsRelative : Bool
  jsonExistsResolved : Bool
  readJsonTranscript : Settled String
deriving DecidableEq, Repr

/-- The function `processMessageComplete(message, index)`.  The first component
is the message object after the call (it is mutated in place, so a write made
before a later throw stays); the second is how the promise settles. -/
def processMessageComplete (env : ExtractEnv) (message : Message) : Message × Settled Unit :=
  match env.getPhonemes with
  | .threw error => (message, .threw error)
  | .returned _ =>
    if env.wavExistsRelative || env.wavExistsResolved then
      match env.audioFileToBase64 with
      | .threw error => (message, .threw error)
      | .returned audio =>
        let message1 := { message with audio := some audio }
        if env.jsonExistsRelative || env.jsonExistsResolved then
          match env.readJsonTranscript with
          | .threw error => (message1, .threw error)
          | .returned lipsync => ({ message1 with lipsync := some lipsync }, .returned ())
        else (message1, .returned ())
    else
      if env.jsonExistsRelative || env.jsonExistsResolved then
        match env.readJsonTranscript with
        | .threw error => (message, .threw error)
        | .returned lipsync => ({ message with lipsync := some lipsync }, .returned ())
      else (message, .returned ())

/-! ## lip-sync.mjs: lipSyncStream -/

/-- An event yielded by `lipSyncStream`; `message` is the state of the message
object at the moment of the `yield`. -/
structure OrderedEvent where
  index : Nat
  message : Message
  done : Bool
  error : Option String
deriving DecidableEq, Repr

/-- Steps of the orchestrator's control flow, in program order. -/
inductive Action where
  | launchTTS (index : Nat)
  | launchExtract (index : Nat)
  | awaitTTS (index : Nat)
  | awaitExtract (index : Nat)
  | setTTSPromise (index : Nat)
  | deleteTTSPromise (index : Nat)
  | setLipSyncPromise (index : Nat)
  | deleteLipSyncPromise (index : Nat)
  | emit (event : OrderedEvent)
deriving DecidableEq, Repr

/-- The collaborators' answers for one run: per index and attempt number the
outcome of the synthesis call, per index the answers to the extraction stage. -/
structure World where
  synthesis : Nat → Nat → CallResult
  extraction : Nat → ExtractEnv

/-- A JavaScript `Map` from index to promise, a promise being its outcome. -/
abbrev PromiseMap (α : Type) := Nat → Option (Settled α)

def PromiseMap.empty {α : Type} : PromiseMap α := fun _ => none

def PromiseMap.set {α : Type} (m : PromiseMap α) (key : Nat) (p : Settled α) : PromiseMap α :=
  fun k => if k = key then some p else m k

def PromiseMap.delete {α : Type} (m : PromiseMap α) (key : Nat) : PromiseMap α :=
  fun k => if k = key then none else m k

/-- The mutable state of a `lipSyncStream` call: the message objects and the
two maps `ttsPromises` and `lipSyncPromises`. -/
structure PipelineState where
  messages : List Message
  ttsPromises : PromiseMap Bool
  lipSyncPromises : PromiseMap Unit

/-- Trace and final state of a run (or of a part of one). -/
structure StreamRun where
  trace : List Action
  final : PipelineState

/-- The artifact slot name of an index. -/
def wavFileName (index : Nat) : String := "audios/message_" ++ toString index ++ ".wav"

/-- The promise `processTTSWithRetry({ text, fileName, index })` of an index. -/
def ttsStage (w : World) (index : Nat) : Settled Bool :=
  (processTTSWithRetry (w.synthesis index) (wavFileName index)).result

/-- The element `messages[index]`, read only for an index in range. -/
def messageAt (s : PipelineState) (index : Nat) : Message := s.messages.getD index default

/-- The call `processMessageComplete(messages[index], index)`: the promise and
the state with the message object as the call leaves it. -/
def extractStage (w : World) (index : Nat) (s : PipelineState) : Settled Unit × PipelineState :=
  let r := processMessageComplete (w.extraction index) (messageAt s index)
  (r.2, { s with messages := s.messages.set index r.1 })

/-- The lookup `lipSyncPromises.get(index)` with its fallback: when no promise
is recorded, `processMessageComplete(currentMessage, index)` is called now.
Gives the steps taken, the promise and the state. -/
def lookupLipSync (w : World) (index : Nat) (s : PipelineState) :
    List Action × Settled Unit × PipelineState :=
  match s.lipSyncPromises index with
  | some lipSyncPromise => ([], lipSyncPromise, s)
  | none =>
    let r := extractStage w index s
    ([.launchExtract index], r.1, r.2)

/-- The lookup `ttsPromises.get(nextIndex)` with its fallback: when no promise
is recorded, `processTTSWithRetry` is called now and recorded. -/
def lookupTTS (w : World) (nextIndex : Nat) (s : PipelineState) :
    List Action × Settled Bool × PipelineState :=
  match s.ttsPromises nextIndex with
  | some nextTTSPromise => ([], nextTTSPromise, s)
  | none =>
    let nextTTSPromise := ttsStage w nextIndex
    ([.launchTTS nextIndex, .setTTSPromise nextIndex], nextTTSPromise,
      { s with ttsPromises := s.ttsPromises.set nextIndex nextTTSPromise })

/-- One turn of the loop `for (index = 1; index < messages.length; index++)`:
the `try` block and its `catch`, which yields an error event for `index`. -/
def advanceStep (w : World) (length index : Nat) (s : PipelineState) : StreamRun :=
  let done := decide (index = length - 1)
  let found := lookupLipSync w index s
  let s1 := found.2.2
  match found.2.1 with
  | .threw error =>
    ⟨found.1 ++ [.awaitExtract index,
        .emit ⟨index, messageAt s1 index, done, some error.message⟩], s1⟩
  | .returned _ =>
    let s2 := { s1 with lipSyncPromises := s1.lipSyncPromises.delete index }
    let head : List Action := found.1 ++ [.awaitExtract index, .deleteLipSyncPromise index,
        .emit ⟨index, messageAt s2 index, done, none⟩]
    if index < length - 1 then
      let nextIndex := index + 1
      let next := lookupTTS w nextIndex s2
      let s3 := next.2.2
      match next.2.1 with
      | .threw error =>
        ⟨head ++ next.1 ++ [.awaitTTS nextIndex,
            .emit ⟨index, messageAt s3 index, done, some error.message⟩], s3⟩
      | .returned _ =>
        let s4 := { s3 with ttsPromises := s3.ttsPromises.delete nextIndex }
        let r := extractStage w nextIndex s4
        let s5 := { r.2 with lipSyncPromises := r.2.lipSyncPromises.set nextIndex r.1 }
        ⟨head ++ next.1 ++ [.awaitTTS nextIndex, .deleteTTSPromise nextIndex,
            .launchExtract nextIndex, .setLipSyncPromise nextIndex], s5⟩
    else ⟨head, s2⟩

/-- The loop `for (index = 1; index < messages.length; index++)`; `fuel` is the
number of turns left, `messages.length - index`. -/
def advanceLoop (w : World) (length : Nat) : Nat → Nat → PipelineState → StreamRun
  | 0, _, s => ⟨[], s⟩
  | fuel + 1, index, s =>
    let turn := advanceStep w length index s
    let rest := advanceLoop w length fuel (index + 1) turn.final
    ⟨turn.trace ++ rest.trace, rest.final⟩

/-- The generator `lipSyncStream({ messages })`, run until it is exhausted. -/
def lipSyncStream (w : World) (messages : List Message) : StreamRun :=
  let s0 : PipelineState := ⟨messages, PromiseMap.empty, PromiseMap.empty⟩
  if messages.length = 0 then ⟨[], s0⟩
  else
    match ttsStage w 0 with
    | .threw error =>
      ⟨[.launchTTS 0, .awaitTTS 0, .emit ⟨0, messageAt s0 0, true, some error.message⟩], s0⟩
    | .returned _ =>
      if messages.length > 1 then
        let l0 := extractStage w 0 s0
        let tts1Promise := ttsStage w 1
        let s1 := { l0.2 with ttsPromises := l0.2.ttsPromises.set 1 tts1Promise }
        let head : List Action := [.launchTTS 0, .awaitTTS 0, .launchExtract 0, .launchTTS 1,
          .setTTSPromise 1, .awaitExtract 0]
        match l0.1 with
        | .threw error =>
          ⟨head ++ [.emit ⟨0, messageAt s1 0, true, some error.message⟩], s1⟩
        | .returned _ =>
          let first : Action := .emit ⟨0, messageAt s1 0, false, none⟩
          match tts1Promise with
          | .threw error =>
            ⟨head ++ [first, .awaitTTS 1,
                .emit ⟨0, messageAt s1 0, true, some error.message⟩], s1⟩
          | .returned _ =>
            let s2 := { s1 with ttsPromises := s1.ttsPromises.delete 1 }
            let l1 := extractStage w 1 s2
            let s3 := { l1.2 with lipSyncPromises := l1.2.lipSyncPromises.set 1 l1.1 }
            let rest := advanceLoop w messages.length (messages.length - 1) 1 s3
            ⟨head ++ [first, .awaitTTS 1, .deleteTTSPromise 1, .launchExtract 1,
                .setLipSyncPromise 1] ++ rest.trace, rest.final⟩
      else
        let l0 := extractStage w 0 s0
        match l0.1 with
        | .threw error =>
          ⟨[.launchTTS 0, .awaitTTS 0, .launchExtract 0, .awaitExtract 0,
              .emit ⟨0, messageAt l0.2 0, true, some error.message⟩], l0.2⟩
        | .returned _ =>
          ⟨[.launchTTS 0, .awaitTTS 0, .launchExtract 0, .awaitExtract 0,
              .emit ⟨0, messageAt l0.2 0, true, none⟩], l0.2⟩

/-- Events among the steps of a trace, in order. -/
def eventsOf (t : List Action) : List OrderedEvent :=
  t.filterMap fun a => match a with
    | .emit e => some e
    | _ => none

/-- Indices whose synthesis stage is launched in a trace, in launch order. -/
def ttsLaunchesOf (t : List Action) : List Nat :=
  t.filterMap fun a => match a with
    | .launchTTS i => some i
    | _ => none

/-- Indices whose extraction stage is launched in a trace, in launch order. -/
def extractLaunchesOf (t : List Action) : List Nat :=
  t.filterMap fun a => match a with
    | .launchExtract i => some i
    | _ => none

/-- Events yielded by a run, in order. -/
def events (r : StreamRun) : List OrderedEvent := eventsOf r.trace

/-- Indices whose synthesis stage was launched in a run, in launch order. -/
def ttsLaunches (r : StreamRun) : List Nat := ttsLaunchesOf r.trace

/-- Indices whose extraction stage was launched in a run, in launch order. -/
def extractLaunches (r : StreamRun) : List Nat := extractLaunchesOf r.trace

/-- Map writes among the steps of a trace: every `set` and `delete` on
`ttsPromises` or `lipSyncPromises`, in order. -/
def mapWritesOf (t : List Action) : List Action :=
  t.filter fun a => match a with
    | .setTTSPromise _ => true
    | .deleteTTSPromise _ => true
    | .setLipSyncPromise _ => true
    | .deleteLipSyncPromise _ => true
    | _ => false

/-! ## lip-sync.mjs: processTTSInParallel and lipSync -/

/-- Steps of batch mode, in program order: the pause between groups, the call
of `processTTSWithRetry` for a member (with the index and the message it is
given), the moment that call settles, and the same two moments for
`processMessageComplete`. -/
inductive BatchStep where
  | delay (ms : Nat)
  | startTTS (index : Nat) (message : Message)
  | settleTTS (index : Nat)
  | startExtract (index : Nat)
  | settleExtract (index : Nat)
deriving DecidableEq, Repr

/-- A value of the `results` map: `{ success, fileName, error }`. -/
structure ConversionResult where
  success : Bool
  fileName : String
  error : Option JsError
deriving DecidableEq, Repr

/-- The state `processTTSInParallel` builds: the set `successfulConversions`
(in insertion order, the order `Array.from` reads it in), the map `results`,
the value of `batch` in each turn of its loop, and the steps taken. -/
structure ParallelRun where
  successfulConversions : List Nat
  results : Nat → Option ConversionResult
  batches : List (List Message)
  steps : List BatchStep

/-- The method `Set.prototype.add`: an element already present is not added. -/
def setAdd (s : List Nat) (x : Nat) : List Nat := if x ∈ s then s else s ++ [x]

/-- The part of a member's callback that runs when `processTTSWithRetry`
settles: the `if (success)` branches and the `catch`. -/
def recordConversion (w : World) (acc : ParallelRun) (index : Nat) : ParallelRun :=
  let fileName := wavFileName index
  match ttsStage w index with
  | .returned success =>
    if success then
      { acc with
        successfulConversions := setAdd acc.successfulConversions index
        results := fun k => if k = index then some ⟨true, fileName, none⟩ else acc.results k }
    else
      { acc with
        results := fun k => if k = index then some ⟨false, fileName, none⟩ else acc.results k }
  | .threw error =>
    { acc with
      results := fun k => if k = index then some ⟨false, fileName, some error⟩ else acc.results k }

/-- One turn of the loop of `processTTSInParallel`, its counter being `i`: the
slice, the pause before every group but the first, the launch of the members in
order and their settling.  `settleReversed i` tells whether the members of the
group that starts at `i` settle in the reverse of the launch order (the only
timing the result depends on). -/
def parallelTurn (w : World) (settleReversed : Nat → Bool) (messages : List Message)
    (i : Nat) (acc : ParallelRun) : ParallelRun :=
  let batch := (messages.drop i).take TTS_CONCURRENCY
  let pause : List BatchStep := if i > 0 then [.delay INITIAL_DELAY] else []
  let launches : List BatchStep := batch.enum.map fun m => .startTTS (i + m.1) m.2
  let indices : List Nat := batch.enum.map fun m => i + m.1
  let order := if settleReversed i then indices.reverse else indices
  let settled := order.foldl (recordConversion w) acc
  { settled with
    batches := acc.batches ++ [batch]
    steps := acc.steps ++ pause ++ launches ++ order.map .settleTTS }

/-- The loop `for (let i = 0; i < messages.length; i += TTS_CONCURRENCY)`;
`fuel` bounds the number of turns. -/
def processTTSInParallelLoop (w : World) (settleReversed : Nat → Bool)
    (messages : List Message) : Nat → Nat → ParallelRun → ParallelRun
  | 0, _, acc => acc
  | fuel + 1, i, acc =>
    if i < messages.length then
      processTTSInParallelLoop w settleReversed messages fuel (i + TTS_CONCURRENCY)
        (parallelTurn w settleReversed messages i acc)
    else acc

/-- The function `processTTSInParallel(messages)`; one turn per message is more
than the loop can take. -/
def processTTSInParallel (w : World) (settleReversed : Nat → Bool) (messages : List Message) :
    ParallelRun :=
  processTTSInParallelLoop w settleReversed messages messages.length 0
    ⟨[], fun _ => none, [], []⟩

/-- Result of `lipSync`: the array it returns and the steps taken. -/
structure BatchRun where
  messages : List Message
  steps : List BatchStep

/-- One callback of the `Promise.all` of `lipSync`:
`processMessageComplete(messages[index], index)` mutates the message object;
its failure is caught and logged. -/
def extractInPlace (w : World) (messages : List Message) (index : Nat) : List Message :=
  messages.set index (processMessageComplete (w.extraction index) (messages.getD index default)).1

/-- The function `lipSync({ messages })`.  The extraction callbacks are launched
in the order of `Array.from(successfulConversions)`; each touches only its own
message object, so the order in which they settle is not part of the result. -/
def lipSync (w : World) (settleReversed : Nat → Bool) (messages : List Message) : BatchRun :=
  let p := processTTSInParallel w settleReversed messages
  if p.successfulConversions.length = 0 then ⟨messages, p.steps⟩
  else
    ⟨p.successfulConversions.foldl (extractInPlace w) messages,
      p.steps ++ p.successfulConversions.map .startExtract
        ++ p.successfulConversions.map .settleExtract⟩

/-- Indices and messages given to `processTTSWithRetry` in batch mode, in
launch order. -/
def batchTTSLaunches (steps : List BatchStep) : List (Nat × Message) :=
  steps.filterMap fun a => match a with
    | .startTTS i m => some (i, m)
    | _ => none

/-- Indices given to `processMessageComplete` in batch mode, in launch order. -/
def batchExtractLaunches (steps : List BatchStep) : List Nat :=
  steps.filterMap fun a => match a with
    | .startExtract i => some i
    | _ => none

/-! ## server.js: the streaming branch of `/tts` and `/sts` -/

/-- The assignment `allMessages[index] = message` on the array of slots: a slot
is `true` once it was assigned, and an assignment past the end leaves holes. -/
def assignSlot (slots : List Bool) (index : Nat) : List Bool :=
  if index < slots.length then slots.set index true
  else slots ++ List.replicate (index - slots.length) false ++ [true]

/-- What the streaming branch writes: the per-index events, in order, and the
`messages` array of the `{ messages, complete: true }` event when it is sent
(a hole of `allMessages` is `none`). -/
structure ServerRun where
  written : List OrderedEvent
  complete : Option (List (Option Message))

/-- The loop `for await (const { index, message, done, error } of stream)`.  The
`message` of an event of index `i` is the object `messages[i]`, so an assigned
slot `i` is read as that object's state when the final event is serialised;
the loop leaves at the first `done` event, and the generator then stands at
that `yield`, in the state `final`. -/
def serverLoop (final : PipelineState) :
    List OrderedEvent → List Bool → List OrderedEvent → ServerRun
  | [], _, written => ⟨written, none⟩
  | e :: rest, slots, written =>
    let slots1 := assignSlot slots e.index
    if e.done then
      ⟨written ++ [e],
        some (slots1.enum.map fun m => if m.2 then some (messageAt final m.1) else none)⟩
    else serverLoop final rest slots1 (written ++ [e])

/-- The streaming branch of the `/tts` handler run on `lipSyncStream`. -/
def serverStream (w : World) (messages : List Message) : ServerRun :=
  serverLoop (lipSyncStream w messages).final (events (lipSyncStream w messages)) [] []

/-! ## Vocabulary of the statements -/

/-- The message object of index `i` as `processMessageComplete` leaves it when
it is called on the message the caller passed in. -/
def enriched (w : World) (messages : List Message) (i : Nat) : Message :=
  (processMessageComplete (w.extraction i) (messages.getD i default)).1

/-- How the extraction stage of index `i` settles. -/
def extractionOutcome (w : World) (messages : List Message) (i : Nat) : Settled Unit :=
  (processMessageComplete (w.extraction i) (messages.getD i default)).2

/-- The `error` field an event gets from a stage outcome: `error.message` when
the stage threw, `null` otherwise. -/
def errorOf {α : Type} (o : Settled α) : Option String :=
  match o with
  | .threw e => some e.message
  | .returned _ => none

/-- The state in which the loop of `lipSyncStream` takes its turn for `index`:
earlier messages are as their extraction left them, later indices are
untouched, and the extraction of `index` either is recorded in
`lipSyncPromises` and has run on its message, or is not recorded and has not
run. -/
structure AdvanceInv (w : World) (messages : List Message) (index : Nat)
    (s : PipelineState) : Prop where
  length_eq : s.messages.length = messages.length
  earlier_messages : ∀ j, j < index → messageAt s j = enriched w messages j
  later_messages : ∀ j, index < j → messageAt s j = messages.getD j default
  later_lip : ∀ j, index < j → s.lipSyncPromises j = none
  later_tts : ∀ j, index < j → s.ttsPromises j = none
  current :
    (s.lipSyncPromises index = none ∧ messageAt s index = messages.getD index default) ∨
    (s.lipSyncPromises index = some (extractionOutcome w messages index) ∧
      messageAt s index = enriched w messages index)

/-! ## Sample inputs -/

/-- A provider error carrying `statusCode: 429`. -/
def sampleRateLimited : JsError := ⟨"Too Many Requests", some 429, none⟩

/-- A provider error carrying `status: 401`. -/
def sampleUnauthorized : JsError := ⟨"Unauthorized", none, some 401⟩

/-- Attempts 0..2 are rate limited, every later attempt creates the file. -/
def sampleCallsThenOk : Nat → CallResult :=
  fun n => if n < 3 then .threw sampleRateLimited else .returned false true

/-- Attempts 0 and 1 are rate limited, every later attempt is an auth failure. -/
def sampleCallsThenAuth : Nat → CallResult :=
  fun n => if n < 2 then .threw sampleRateLimited else .threw sampleUnauthorized

/-- Every attempt returns without error and leaves no file at either path. -/
def sampleCallsNoFile : Nat → CallResult := fun _ => .returned false false

/-- Answers of an extraction stage that succeeds and finds both files. -/
def sampleExtractOk (i : Nat) : ExtractEnv :=
  ⟨.returned (), false, true, .returned ("wav" ++ toString i), false, true,
    .returned ("visemes" ++ toString i)⟩

/-- Answers of an extraction stage whose Rhubarb process exits with an error. -/
def sampleExtractFail : ExtractEnv :=
  ⟨.threw (JsError.plain "Process exited with code 1"), false, false,
    .threw (JsError.plain "ENOENT"), false, false, .threw (JsError.plain "ENOENT")⟩

/-- Every synthesis attempt creates the file. -/
def sampleCallsOk : Nat → CallResult := fun _ => .returned false true

/-- A list of `n` messages as the language model supplies them. -/
def sampleMessages (n : Nat) : List Message :=
  (List.range n).map fun i => ⟨"text" ++ toString i, "smile", "TalkingOne", none, none⟩

/-- No stage fails. -/
def sampleWorldOk : World := ⟨fun _ => sampleCallsOk, sampleExtractOk⟩

/-- Extraction fails for index `j` and for no other; no synthesis fails. -/
def sampleWorldExtractFails (j : Nat) : World :=
  ⟨fun _ => sampleCallsOk, fun i => if i = j then sampleExtractFail else sampleExtractOk i⟩

/-- Synthesis fails for index `j` (ten plain failures) and for no other; no
extraction fails. -/
def sampleWorldSynthesisFails (j : Nat) : World :=
  ⟨fun i => if i = j then (fun _ => .threw (JsError.plain "fetch failed")) else sampleCallsOk,
    sampleExtractOk⟩

/-- Answers of an extraction stage whose Rhubarb call succeeds and whose audio
file exists but cannot be read. -/
def sampleExtractAudioReadFails : ExtractEnv :=
  ⟨.returned (), false, true, .threw (JsError.plain "ENOENT: no such file or directory"),
    false, true, .returned "visemes"⟩

/-- Answers of an extraction stage whose Rhubarb call succeeds, whose audio is
read, and whose viseme file exists but cannot be parsed. -/
def sampleExtractJsonReadFails : ExtractEnv :=
  ⟨.returned (), true, false, .returned "wav", true, false,
    .threw (JsError.plain "Unexpected end of JSON input")⟩

/-- Answers of an extraction stage whose Rhubarb call succeeds and that finds
the audio file but no viseme file. -/
def sampleExtractNoJson : ExtractEnv :=
  ⟨.returned (), true, false, .returned "wav", false, false, .threw (JsError.plain "ENOENT")⟩

/-- The value `processTTSInParallel` stores in `results` for an index: success
with the file name, or failure with the error that was caught. -/
def conversionOf (w : World) (index : Nat) : ConversionResult :=
  match ttsStage w index with
  | .returned success => ⟨success, wavFileName index, none⟩
  | .threw error => ⟨false, wavFileName index, some error⟩

/-- The state in which the loop of `processTTSInParallel` starts the turn in
which its counter is `i`: the messages before `i` have been launched in order
with their positions as indices and have settled, every launch came after the
settling of all members of earlier groups, and the set and the map hold the
outcomes of exactly these messages. -/
structure ParallelInv (w : World) (messages : List Message) (i : Nat) (acc : ParallelRun) :
    Prop where
  even : i % 2 = 0
  launches : batchTTSLaunches acc.steps = (messages.take i).enum
  settles : ∀ k, BatchStep.settleTTS k ∈ acc.steps ↔ (k < i ∧ k < messages.length)
  order : ∀ pre post b m a, acc.steps = pre ++ BatchStep.startTTS b m :: post →
    a / 2 < b / 2 → BatchStep.settleTTS a ∈ pre
  batches_flatten : acc.batches.flatten = messages.take i
  batches_len : ∀ b, b ∈ acc.batches → 1 ≤ b.length ∧ b.length ≤ 2
  batches_full : i ≤ messages.length → ∀ b, b ∈ acc.batches → b.length = 2
  batches_init : ∀ b, b ∈ acc.batches.dropLast → b.length = 2
  no_extract : batchExtractLaunches acc.steps = []
  succ_nodup : acc.successfulConversions.Nodup
  succ_mem : ∀ k, k ∈ acc.successfulConversions ↔
    (k < i ∧ k < messages.length ∧ ttsStage w k = .returned true)
  results_eq : ∀ k, acc.results k
    = if k < i ∧ k < messages.length then some (conversionOf w k) else none

/-- Extraction fails for index 1 and synthesis fails for index 3 (ten plain
failures); no other stage fails. -/
def sampleWorldMixedFailures : World :=
  ⟨fun i => if i = 3 then (fun _ => .threw (JsError.plain "fetch failed")) else sampleCallsOk,
    fun i => if i = 1 then sampleExtractFail else sampleExtractOk i⟩

/-- Event sequences made of one group of events per index, the indices going
up by one from `start`: the group of an index is one event, or an event with
`error = null` followed by an event with `error` set. -/
inductive GroupedFrom : Nat → List OrderedEvent → Prop where
  | nil (start : Nat) : GroupedFrom start []
  | one (start : Nat) (e : OrderedEvent) (rest : List OrderedEvent) :
      e.index = start → GroupedFrom (start + 1) rest → GroupedFrom start (e :: rest)
  | two (start : Nat) (e1 e2 : OrderedEvent) (rest : List OrderedEvent) :
      e1.index = start → e1.error = none → e2.index = start → e2.error.isSome = true →
      GroupedFrom (start + 1) rest → GroupedFrom start (e1 :: e2 :: rest)

/-! # Theorems -/

/-! ## Lemmas on the retry loop -/

theorem attemptsMade_cons_attempt (res : Settled Bool) (n : Nat) (es : List Effect) :
    attemptsMade ⟨res, .attempt n :: es⟩ = n :: attemptsMade ⟨res, es⟩ := by
  simp [attemptsMade]

theorem attemptsMade_cons_wait (res : Settled Bool) (ms : Nat) (es : List Effect) :
    attemptsMade ⟨res, .wait ms :: es⟩ = attemptsMade ⟨res, es⟩ := by
  simp [attemptsMade]

theorem attemptsMade_congr (r : RetryRun) (res : Settled Bool) :
    attemptsMade ⟨res, r.effects⟩ = attemptsMade r := rfl

/-- The attempts made from `attempt` on are `attempt, attempt + 1, ...`: at
least one when an iteration is left, at most as many as iterations are left. -/
theorem loop_attempts_range (call : Nat → CallResult) (fileName : String) :
    ∀ fuel attempt, ∃ m, m ≤ fuel ∧ (fuel ≠ 0 → 0 < m) ∧
      attemptsMade (processTTSWithRetryLoop call fileName fuel attempt) = List.range' attempt m := by
  intro fuel
  induction fuel with
  | zero => intro attempt; exact ⟨0, le_refl _, by simp, by simp [processTTSWithRetryLoop, attemptsMade]⟩
  | succ fuel ih =>
    intro attempt
    obtain ⟨m, hm, _, hrange⟩ := ih (attempt + 1)
    unfold processTTSWithRetryLoop
    cases hbody : attemptBody fileName (call attempt) with
    | returned u => exact ⟨1, by omega, by simp, by simp [attemptsMade]⟩
    | threw error =>
      simp only
      split_ifs
      · exact ⟨1, by omega, by simp, by simp [attemptsMade]⟩
      · refine ⟨m + 1, by omega, by simp, ?_⟩
        rw [attemptsMade_cons_attempt, attemptsMade_cons_wait, attemptsMade_congr, hrange]
        simp [List.range'_succ]
      · exact ⟨1, by omega, by simp, by simp [attemptsMade]⟩
      · refine ⟨m + 1, by omega, by simp, ?_⟩
        rw [attemptsMade_cons_attempt, attemptsMade_congr, hrange]
        simp [List.range'_succ]

theorem totalDelay_cons_attempt (res : Settled Bool) (n : Nat) (es : List Effect) :
    totalDelay ⟨res, .attempt n :: es⟩ = totalDelay ⟨res, es⟩ := by
  simp [totalDelay]

theorem totalDelay_cons_wait (res : Settled Bool) (ms : Nat) (es : List Effect) :
    totalDelay ⟨res, .wait ms :: es⟩ = ms + totalDelay ⟨res, es⟩ := by
  simp [totalDelay]

theorem totalDelay_congr (r : RetryRun) (res : Settled Bool) :
    totalDelay ⟨res, r.effects⟩ = totalDelay r := rfl

/-- An attempt whose `try` block completes ends the loop with `true`. -/
theorem loop_succ_returned (call : Nat → CallResult) (fileName : String) (fuel attempt : Nat)
    (u : Unit) (h : attemptBody fileName (call attempt) = .returned u) :
    processTTSWithRetryLoop call fileName (fuel + 1) attempt
      = ⟨.returned true, [.attempt attempt]⟩ := by
  rw [processTTSWithRetryLoop, h]

/-- An auth failure ends the loop with that error. -/
theorem loop_succ_auth (call : Nat → CallResult) (fileName : String) (fuel attempt : Nat)
    (e : JsError) (h : attemptBody fileName (call attempt) = .threw e)
    (hauth : isAuthError e = true) :
    processTTSWithRetryLoop call fileName (fuel + 1) attempt
      = ⟨.threw e, [.attempt attempt]⟩ := by
  rw [processTTSWithRetryLoop, h]
  simp [hauth]

/-- A failure on the last attempt that is not an auth failure is thrown. -/
theorem loop_succ_last (call : Nat → CallResult) (fileName : String) (fuel : Nat)
    (e : JsError) (h : attemptBody fileName (call (MAX_RETRIES - 1)) = .threw e)
    (hauth : isAuthError e = false) :
    processTTSWithRetryLoop call fileName (fuel + 1) (MAX_RETRIES - 1)
      = ⟨.threw e, [.attempt (MAX_RETRIES - 1)]⟩ := by
  rw [processTTSWithRetryLoop, h]
  simp [hauth]

/-- A failure before the last attempt that is not an auth failure leads to the
next attempt, after a wait exactly when it is a rate-limit failure. -/
theorem loop_succ_retry (call : Nat → CallResult) (fileName : String) (fuel attempt : Nat)
    (e : JsError) (h : attemptBody fileName (call attempt) = .threw e)
    (hauth : isAuthError e = false) (hlt : attempt < MAX_RETRIES - 1) :
    processTTSWithRetryLoop call fileName (fuel + 1) attempt
      = ⟨(processTTSWithRetryLoop call fileName fuel (attempt + 1)).result,
          .attempt attempt ::
            ((if isRateLimitError e then [.wait (RETRY_DELAY * (attempt + 1))] else []) ++
              (processTTSWithRetryLoop call fileName fuel (attempt + 1)).effects)⟩ := by
  rw [processTTSWithRetryLoop, h]
  have hne : attempt ≠ MAX_RETRIES - 1 := Nat.ne_of_lt hlt
  cases hr : isRateLimitError e <;> simp [hauth, hr, hlt, hne]

/-- A made attempt that ends the loop (its `try` block completes, or it is an
auth failure) is the last step of the run and decides the result. -/
theorem loop_stops_at (call : Nat → CallResult) (fileName : String) :
    ∀ fuel attempt k, attempt + fuel = MAX_RETRIES →
      k ∈ attemptsMade (processTTSWithRetryLoop call fileName fuel attempt) →
      (attemptBody fileName (call k) = .returned () ∨
        ∃ e, attemptBody fileName (call k) = .threw e ∧ isAuthError e = true) →
      (processTTSWithRetryLoop call fileName fuel attempt).result
          = (match attemptBody fileName (call k) with
              | .returned _ => .returned true
              | .threw e => .threw e) ∧
      attemptsMade (processTTSWithRetryLoop call fileName fuel attempt)
          = List.range' attempt (k + 1 - attempt) ∧
      ∃ before, (processTTSWithRetryLoop call fileName fuel attempt).effects
          = before ++ [.attempt k] := by
  intro fuel
  induction fuel with
  | zero => intro attempt k _ hk; simp [processTTSWithRetryLoop, attemptsMade] at hk
  | succ fuel ih =>
    intro attempt k hsum hk hstop
    cases hbody : attemptBody fileName (call attempt) with
    | returned u =>
      rw [loop_succ_returned call fileName fuel attempt u hbody] at hk ⊢
      simp [attemptsMade] at hk
      subst hk
      exact ⟨by simp [hbody], by simp [attemptsMade], [], by simp⟩
    | threw error =>
      cases hauth : isAuthError error with
      | true =>
        rw [loop_succ_auth call fileName fuel attempt error hbody hauth] at hk ⊢
        simp [attemptsMade] at hk
        subst hk
        exact ⟨by simp [hbody], by simp [attemptsMade], [], by simp⟩
      | false =>
        have hne : k ≠ attempt := by
          rintro rfl
          rcases hstop with h | ⟨e, h, he⟩
          · rw [hbody] at h; cases h
          · rw [hbody] at h; cases h; rw [hauth] at he; cases he
        by_cases hlt : attempt < MAX_RETRIES - 1
        · rw [loop_succ_retry call fileName fuel attempt error hbody hauth hlt] at hk ⊢
          have hk2 : k ∈ attemptsMade (processTTSWithRetryLoop call fileName fuel (attempt + 1)) := by
            cases hr : isRateLimitError error <;>
              simp [hr, attemptsMade_cons_attempt, attemptsMade_cons_wait, attemptsMade_congr,
                hne] at hk <;> exact hk
          obtain ⟨m, _, _, hrange⟩ := loop_attempts_range call fileName fuel (attempt + 1)
          have hge : attempt + 1 ≤ k := by
            rw [hrange] at hk2
            simp [List.mem_range'] at hk2
            omega
          obtain ⟨h1, h2, before, h3⟩ := ih (attempt + 1) k (by omega) hk2 hstop
          refine ⟨h1, ?_, ?_⟩
          · have hlen : k + 1 - attempt = (k + 1 - (attempt + 1)) + 1 := by omega
            rw [hlen, List.range'_succ, ← h2]
            cases hr : isRateLimitError error <;>
              simp [attemptsMade_cons_attempt, attemptsMade_cons_wait, attemptsMade_congr]
          · cases hr : isRateLimitError error
            · exact ⟨.attempt attempt :: before, by simp [h3]⟩
            · exact ⟨.attempt attempt :: .wait (RETRY_DELAY * (attempt + 1)) :: before,
                by simp [h3]⟩
        · have h9 : attempt = MAX_RETRIES - 1 := by omega
          subst h9
          rw [loop_succ_last call fileName fuel error hbody hauth] at hk
          simp [attemptsMade] at hk
          exact absurd hk hne

/-- A run of non-auth failures before the last attempt is passed over: the loop
makes each of these attempts and goes on from the attempt after them. -/
theorem loop_prefix (call : Nat → CallResult) (fileName : String) :
    ∀ j attempt fuel, attempt + j ≤ MAX_RETRIES - 1 →
      (∀ i, attempt ≤ i → i < attempt + j →
        ∃ e, attemptBody fileName (call i) = .threw e ∧ isAuthError e = false) →
      (processTTSWithRetryLoop call fileName (fuel + j) attempt).result
          = (processTTSWithRetryLoop call fileName fuel (attempt + j)).result ∧
      attemptsMade (processTTSWithRetryLoop call fileName (fuel + j) attempt)
          = List.range' attempt j
              ++ attemptsMade (processTTSWithRetryLoop call fileName fuel (attempt + j)) := by
  intro j
  induction j with
  | zero => intro attempt fuel _ _; simp
  | succ j ih =>
    intro attempt fuel hle hfail
    obtain ⟨e, hbody, hauth⟩ := hfail attempt (le_refl _) (by omega)
    have hlt : attempt < MAX_RETRIES - 1 := by omega
    have hfuel : fuel + (j + 1) = (fuel + j) + 1 := by omega
    rw [hfuel, loop_succ_retry call fileName (fuel + j) attempt e hbody hauth hlt]
    obtain ⟨h1, h2⟩ := ih (attempt + 1) fuel (by omega)
      (fun i hi1 hi2 => hfail i (by omega) (by omega))
    have hidx : attempt + 1 + j = attempt + (j + 1) := by omega
    rw [hidx] at h1 h2
    refine ⟨h1, ?_⟩
    rw [List.range'_succ, List.cons_append, ← h2]
    cases hr : isRateLimitError e <;>
      simp [attemptsMade_cons_attempt, attemptsMade_cons_wait, attemptsMade_congr]

/-- A run of rate-limit failures before the last attempt adds the wait
`RETRY_DELAY * (attempt + 1)` after each of them. -/
theorem loop_prefix_delay (call : Nat → CallResult) (fileName : String) :
    ∀ j attempt fuel, attempt + j ≤ MAX_RETRIES - 1 →
      (∀ i, attempt ≤ i → i < attempt + j →
        ∃ e, call i = .threw e ∧ classify e = .rateLimit) →
      totalDelay (processTTSWithRetryLoop call fileName (fuel + j) attempt)
          = (∑ i ∈ Finset.range j, RETRY_DELAY * (attempt + i + 1))
              + totalDelay (processTTSWithRetryLoop call fileName fuel (attempt + j)) := by
  intro j
  induction j with
  | zero => intro attempt fuel _ _; simp
  | succ j ih =>
    intro attempt fuel hle hfail
    obtain ⟨e, hcall, hclass⟩ := hfail attempt (le_refl _) (by omega)
    have hauth : isAuthError e = false := by
      cases h : isAuthError e
      · rfl
      · simp [classify, h] at hclass
    have hrate : isRateLimitError e = true := by
      cases h : isRateLimitError e
      · simp [classify, h, hauth] at hclass
      · rfl
    have hbody : attemptBody fileName (call attempt) = .threw e := by simp [attemptBody, hcall]
    have hlt : attempt < MAX_RETRIES - 1 := by omega
    have hfuel : fuel + (j + 1) = (fuel + j) + 1 := by omega
    rw [hfuel, loop_succ_retry call fileName (fuel + j) attempt e hbody hauth hlt]
    have h := ih (attempt + 1) fuel (by omega) (fun i hi1 hi2 => hfail i (by omega) (by omega))
    have hidx : attempt + 1 + j = attempt + (j + 1) := by omega
    rw [hidx] at h
    simp only [hrate, if_true, List.singleton_append, totalDelay_cons_attempt,
      totalDelay_cons_wait, totalDelay_congr]
    rw [h, Finset.sum_range_succ']
    have hsum : ∑ i ∈ Finset.range j, RETRY_DELAY * (attempt + 1 + i + 1)
        = ∑ i ∈ Finset.range j, RETRY_DELAY * (attempt + (i + 1) + 1) :=
      Finset.sum_congr rfl (fun i _ => by ring)
    rw [hsum]
    simp only [Nat.add_zero]
    omega

theorem sum_range_eq_sum_Icc (k : Nat) :
    ∑ i ∈ Finset.range k, RETRY_DELAY * (0 + i + 1) = ∑ a ∈ Finset.Icc 1 k, RETRY_DELAY * a := by
  induction k with
  | zero => simp
  | succ k ih =>
    rw [Finset.sum_range_succ, ih, Finset.sum_Icc_succ_top (by omega)]
    simp

theorem sum_Icc_closed_form (k : Nat) :
    ∑ a ∈ Finset.Icc 1 k, RETRY_DELAY * a = 2000 * k * (k + 1) / 2 := by
  have h : ∀ n : Nat, ∑ a ∈ Finset.Icc 1 n, RETRY_DELAY * a = 1000 * (n * (n + 1)) := by
    intro n
    induction n with
    | zero => simp
    | succ n ih =>
      rw [Finset.sum_Icc_succ_top (by omega), ih]
      simp only [RETRY_DELAY]
      ring
  rw [h k]
  have h2 : 2000 * k * (k + 1) = 2 * (1000 * (k * (k + 1))) := by ring
  rw [h2, Nat.mul_div_cancel_left _ (by decide : 0 < 2)]

/-- A run that returns a value returns `true`, and its last attempt is one whose
`try` block completed. -/
theorem loop_returned (call : Nat → CallResult) (fileName : String) :
    ∀ fuel attempt (b : Bool), attempt + fuel = MAX_RETRIES → fuel ≠ 0 →
      (processTTSWithRetryLoop call fileName fuel attempt).result = .returned b →
      b = true ∧ ∃ k, attempt ≤ k ∧ attemptBody fileName (call k) = .returned () ∧
        attemptsMade (processTTSWithRetryLoop call fileName fuel attempt)
          = List.range' attempt (k + 1 - attempt) := by
  intro fuel
  induction fuel with
  | zero => intro attempt b _ h; exact absurd rfl h
  | succ fuel ih =>
    intro attempt b hsum _ hres
    cases hbody : attemptBody fileName (call attempt) with
    | returned u =>
      rw [loop_succ_returned call fileName fuel attempt u hbody] at hres ⊢
      refine ⟨by cases hres; rfl, attempt, le_refl _, hbody, by simp [attemptsMade]⟩
    | threw error =>
      cases hauth : isAuthError error with
      | true =>
        rw [loop_succ_auth call fileName fuel attempt error hbody hauth] at hres
        cases hres
      | false =>
        by_cases hlt : attempt < MAX_RETRIES - 1
        · rw [loop_succ_retry call fileName fuel attempt error hbody hauth hlt] at hres ⊢
          obtain ⟨hb, k, hk1, hk2, hk3⟩ := ih (attempt + 1) b (by omega)
            (by simp only [MAX_RETRIES] at hsum hlt; omega) hres
          refine ⟨hb, k, by omega, hk2, ?_⟩
          have hlen : k + 1 - attempt = (k + 1 - (attempt + 1)) + 1 := by omega
          rw [hlen, List.range'_succ, ← hk3]
          cases hr : isRateLimitError error <;>
            simp [attemptsMade_cons_attempt, attemptsMade_cons_wait, attemptsMade_congr]
        · have h9 : attempt = MAX_RETRIES - 1 := by omega
          subst h9
          rw [loop_succ_last call fileName fuel error hbody hauth] at hres
          cases hres

theorem attemptBody_returned_iff (fileName : String) (c : CallResult) :
    attemptBody fileName c = .returned () ↔ ∃ a b, c = .returned a b ∧ (a || b) = true := by
  cases c with
  | threw e => simp [attemptBody]
  | returned a b => cases a <;> cases b <;> simp [attemptBody]

/-- The first attempt whose `try` block completes, when only non-auth failures
come before it, gives `true` after exactly the attempts up to it. -/
theorem retry_first_success (call : Nat → CallResult) (fileName : String) (k : Nat)
    (hk : k < 10)
    (hfail : ∀ j, j < k →
      ∃ e, attemptBody fileName (call j) = .threw e ∧ isAuthError e = false)
    (hbody : attemptBody fileName (call k) = .returned ()) :
    (processTTSWithRetry call fileName).result = .returned true ∧
    attemptsMade (processTTSWithRetry call fileName) = List.range (k + 1) := by
  obtain ⟨h1, h2⟩ := loop_prefix call fileName k 0 (MAX_RETRIES - k)
    (by simp only [MAX_RETRIES]; omega) (fun i _ hi => hfail i (by omega))
  have hfuel : MAX_RETRIES - k + k = MAX_RETRIES := by simp only [MAX_RETRIES]; omega
  have hrest : MAX_RETRIES - k = (MAX_RETRIES - k - 1) + 1 := by
    simp only [MAX_RETRIES]; omega
  rw [hfuel, Nat.zero_add, hrest, loop_succ_returned call fileName _ k () hbody] at h1 h2
  refine ⟨h1, ?_⟩
  rw [processTTSWithRetry, h2]
  simp [attemptsMade, List.range_eq_range', List.range'_concat]

/-- Ten non-auth failures: all ten attempts are made and the last failure is
thrown. -/
theorem retry_all_fail (call : Nat → CallResult) (fileName : String)
    (hfail : ∀ k, k < 10 →
      ∃ e, attemptBody fileName (call k) = .threw e ∧ isAuthError e = false) :
    attemptsMade (processTTSWithRetry call fileName) = List.range 10 ∧
    ∀ e, attemptBody fileName (call 9) = .threw e →
      (processTTSWithRetry call fileName).result = .threw e := by
  obtain ⟨e9, hbody9, hauth9⟩ := hfail 9 (by omega)
  obtain ⟨h1, h2⟩ := loop_prefix call fileName 9 0 1 (by simp [MAX_RETRIES])
    (fun i _ hi => hfail i (by omega))
  have hlast := loop_succ_last call fileName 0 e9 hbody9 hauth9
  have h10 : (1 : Nat) + 9 = MAX_RETRIES := rfl
  have h9 : (0 : Nat) + 9 = MAX_RETRIES - 1 := rfl
  rw [h10, h9, hlast] at h1 h2
  refine ⟨?_, ?_⟩
  · rw [processTTSWithRetry, h2]
    simp [attemptsMade, MAX_RETRIES]
    decide
  · intro e he
    rw [hbody9] at he
    cases he
    exact h1

/-- C6: `processTTSWithRetry` makes at most 10 attempts whatever the attempts'
outcomes are; an attempt that is made and succeeds with the artifact present
gives the result `true` and is the last attempt; the first such attempt is
reached when only non-auth failures come before it; and when all 10 attempts
fail with non-auth failures, all 10 are made and the failure of the 10th is
thrown. -/
theorem processTTSWithRetry_attempt_bound (call : Nat → CallResult) (fileName : String) :
    (attemptsMade (processTTSWithRetry call fileName)).length ≤ 10 ∧
    (∀ k a b, k ∈ attemptsMade (processTTSWithRetry call fileName) →
        call k = .returned a b → (a || b) = true →
        (processTTSWithRetry call fileName).result = .returned true ∧
        attemptsMade (processTTSWithRetry call fileName) = List.range (k + 1)) ∧
    (∀ k a b, k < 10 →
        (∀ j, j < k → ∃ e, attemptBody fileName (call j) = .threw e ∧ isAuthError e = false) →
        call k = .returned a b → (a || b) = true →
        (processTTSWithRetry call fileName).result = .returned true ∧
        attemptsMade (processTTSWithRetry call fileName) = List.range (k + 1)) ∧
    ((∀ k, k < 10 → ∃ e, attemptBody fileName (call k) = .threw e ∧ isAuthError e = false) →
        attemptsMade (processTTSWithRetry call fileName) = List.range 10 ∧
        ∀ e, attemptBody fileName (call 9) = .threw e →
          (processTTSWithRetry call fileName).result = .threw e) := by
  refine ⟨?_, ?_, ?_, ?_⟩
  · obtain ⟨m, hm, _, hrange⟩ := loop_attempts_range call fileName MAX_RETRIES 0
    rw [processTTSWithRetry, hrange]
    simpa [MAX_RETRIES] using hm
  · intro k a b hk hcall hexists
    have hbody : attemptBody fileName (call k) = .returned () :=
      (attemptBody_returned_iff fileName (call k)).2 ⟨a, b, hcall, hexists⟩
    obtain ⟨h1, h2, _⟩ := loop_stops_at call fileName MAX_RETRIES 0 k (by simp) hk (Or.inl hbody)
    rw [hbody] at h1
    exact ⟨h1, by rw [processTTSWithRetry, h2]; simp [List.range_eq_range']⟩
  · intro k a b hk hfail hcall hexists
    exact retry_first_success call fileName k hk hfail
      ((attemptBody_returned_iff fileName (call k)).2 ⟨a, b, hcall, hexists⟩)
  · exact retry_all_fail call fileName

/-- C6, on a sample: three rate-limited attempts and a fourth that creates the
file give `true` after exactly the attempts 0..3. -/
theorem processTTSWithRetry_attempt_bound_witness :
    3 ∈ attemptsMade (processTTSWithRetry sampleCallsThenOk "audios/message_0.wav") ∧
    sampleCallsThenOk 3 = .returned false true ∧
    (processTTSWithRetry sampleCallsThenOk "audios/message_0.wav").result = .returned true ∧
    attemptsMade (processTTSWithRetry sampleCallsThenOk "audios/message_0.wav")
      = List.range (3 + 1) :=
  ⟨by decide, rfl,
   (processTTSWithRetry_attempt_bound sampleCallsThenOk "audios/message_0.wav").2.1
      3 false true (by decide) rfl rfl⟩

/-- C7: an attempt of `processTTSWithRetry` that is made and fails with an auth
failure (status 401) ends the run: its error is the result, it is the last step
(no wait and no attempt follows), and when it is the first attempt the run
consists of that one attempt. -/
theorem processTTSWithRetry_auth_short_circuit (call : Nat → CallResult) (fileName : String)
    (k : Nat) (e : JsError)
    (hmade : k ∈ attemptsMade (processTTSWithRetry call fileName))
    (hfail : call k = .threw e)
    (hauth : e.statusCode = some 401 ∨ e.status = some 401) :
    (processTTSWithRetry call fileName).result = .threw e ∧
    (∃ before, (processTTSWithRetry call fileName).effects = before ++ [.attempt k]) ∧
    attemptsMade (processTTSWithRetry call fileName) = List.range (k + 1) ∧
    (k = 0 → (processTTSWithRetry call fileName).effects = [.attempt 0]) := by
  have hbody : attemptBody fileName (call k) = .threw e := by simp [attemptBody, hfail]
  have hisAuth : isAuthError e = true := by
    rcases hauth with h | h <;> simp [isAuthError, h]
  obtain ⟨h1, h2, h3⟩ := loop_stops_at call fileName MAX_RETRIES 0 k (by simp) hmade
    (Or.inr ⟨e, hbody, hisAuth⟩)
  rw [hbody] at h1
  refine ⟨h1, h3, by rw [processTTSWithRetry, h2]; simp [List.range_eq_range'], ?_⟩
  rintro rfl
  have h := loop_succ_auth call fileName 9 0 e hbody hisAuth
  rw [processTTSWithRetry]
  have h10 : MAX_RETRIES = 9 + 1 := rfl
  rw [h10, h]

/-- C7, on a sample: two rate-limited attempts, then an auth failure on the
third attempt, which is thrown after exactly the attempts 0..2. -/
theorem processTTSWithRetry_auth_short_circuit_witness :
    2 ∈ attemptsMade (processTTSWithRetry sampleCallsThenAuth "audios/message_0.wav") ∧
    sampleCallsThenAuth 2 = .threw sampleUnauthorized ∧
    (sampleUnauthorized.statusCode = some 401 ∨ sampleUnauthorized.status = some 401) ∧
    (processTTSWithRetry sampleCallsThenAuth "audios/message_0.wav").result
      = .threw sampleUnauthorized ∧
    (∃ before, (processTTSWithRetry sampleCallsThenAuth "audios/message_0.wav").effects
      = before ++ [.attempt 2]) ∧
    attemptsMade (processTTSWithRetry sampleCallsThenAuth "audios/message_0.wav")
      = List.range (2 + 1) ∧
    (2 = 0 → (processTTSWithRetry sampleCallsThenAuth "audios/message_0.wav").effects
      = [.attempt 0]) :=
  ⟨by decide, rfl, Or.inr rfl,
    processTTSWithRetry_auth_short_circuit sampleCallsThenAuth "audios/message_0.wav" 2
      sampleUnauthorized (by decide) rfl (Or.inr rfl)⟩

/-- C8: for `k < 10`, when the synthesis call fails with a rate-limit failure
on the first `k` attempts and succeeds with the artifact present on the next
one, `processTTSWithRetry` returns `true` and the total of its waits is the sum
over `a = 1..k` of `RETRY_DELAY * a`, which is `2000 * k * (k + 1) / 2`. -/
theorem processTTSWithRetry_backoff_total (call : Nat → CallResult) (fileName : String)
    (k : Nat) (a b : Bool) (hk : k < 10)
    (hfail : ∀ i, i < k → ∃ e, call i = .threw e ∧ classify e = .rateLimit)
    (hok : call k = .returned a b) (hexists : (a || b) = true) :
    (processTTSWithRetry call fileName).result = .returned true ∧
    totalDelay (processTTSWithRetry call fileName) = ∑ n ∈ Finset.Icc 1 k, RETRY_DELAY * n ∧
    totalDelay (processTTSWithRetry call fileName) = 2000 * k * (k + 1) / 2 := by
  have hbody : attemptBody fileName (call k) = .returned () :=
    (attemptBody_returned_iff fileName (call k)).2 ⟨a, b, hok, hexists⟩
  have hnonauth : ∀ j, j < k →
      ∃ e, attemptBody fileName (call j) = .threw e ∧ isAuthError e = false := by
    intro j hj
    obtain ⟨e, hcall, hclass⟩ := hfail j hj
    refine ⟨e, by simp [attemptBody, hcall], ?_⟩
    cases h : isAuthError e
    · rfl
    · simp [classify, h] at hclass
  have hres := (retry_first_success call fileName k hk hnonauth hbody).1
  have hdelay := loop_prefix_delay call fileName k 0 (MAX_RETRIES - k)
    (by simp only [MAX_RETRIES]; omega) (fun i _ hi => hfail i (by omega))
  have hfuel : MAX_RETRIES - k + k = MAX_RETRIES := by simp only [MAX_RETRIES]; omega
  have hrest : MAX_RETRIES - k = (MAX_RETRIES - k - 1) + 1 := by
    simp only [MAX_RETRIES]; omega
  rw [hfuel, Nat.zero_add, hrest, loop_succ_returned call fileName _ k () hbody,
    sum_range_eq_sum_Icc] at hdelay
  have htotal : totalDelay (processTTSWithRetry call fileName)
      = ∑ n ∈ Finset.Icc 1 k, RETRY_DELAY * n := by
    rw [processTTSWithRetry, hdelay]
    simp [totalDelay]
  exact ⟨hres, htotal, by rw [htotal, sum_Icc_closed_form]⟩

/-- C8, on a sample: three rate-limited attempts then success wait
2000 + 4000 + 6000 milliseconds in all. -/
theorem processTTSWithRetry_backoff_total_witness :
    (∀ i, i < 3 → ∃ e, sampleCallsThenOk i = .threw e ∧ classify e = .rateLimit) ∧
    sampleCallsThenOk 3 = .returned false true ∧
    (processTTSWithRetry sampleCallsThenOk "audios/message_0.wav").result = .returned true ∧
    totalDelay (processTTSWithRetry sampleCallsThenOk "audios/message_0.wav")
      = ∑ n ∈ Finset.Icc 1 3, RETRY_DELAY * n ∧
    totalDelay (processTTSWithRetry sampleCallsThenOk "audios/message_0.wav")
      = 2000 * 3 * (3 + 1) / 2 :=
  ⟨fun i hi => ⟨sampleRateLimited, by simp [sampleCallsThenOk, hi], by decide⟩, rfl,
    processTTSWithRetry_backoff_total sampleCallsThenOk "audios/message_0.wav" 3 false true
      (by decide)
      (fun i hi => ⟨sampleRateLimited, by simp [sampleCallsThenOk, hi], by decide⟩)
      rfl rfl⟩

/-- C9, as the code runs: the error `convertTextToSpeech` raises for a response
that is not ok carries the status only inside its message, so the `catch` block
of `processTTSWithRetry` classifies it as neither auth nor rate-limit; a
provider that answers 401 every time is asked 10 times, and one that answers
429 every time is asked 10 times with no wait in between. -/
theorem convertTextToSpeech_status_not_classified (errorText fileName : String)
    (json : Settled (Option (List String))) (a b : Bool) :
    convertTextToSpeech (.response 401 errorText json)
      = .threw ⟨"Sarvam TTS API error: " ++ toString 401 ++ " - " ++ errorText, none, none⟩ ∧
    convertTextToSpeech (.response 429 errorText json)
      = .threw ⟨"Sarvam TTS API error: " ++ toString 429 ++ " - " ++ errorText, none, none⟩ ∧
    (∀ msg, classify ⟨msg, none, none⟩ = .other) ∧
    attemptsMade (processTTSWithRetry
      (fun _ => attemptOf (.response 401 errorText json) a b) fileName) = List.range 10 ∧
    (processTTSWithRetry
      (fun _ => attemptOf (.response 429 errorText json) a b) fileName).effects
      = (List.range 10).map Effect.attempt := by
  refine ⟨by simp [convertTextToSpeech, responseOk, JsError.plain],
    by simp [convertTextToSpeech, responseOk, JsError.plain],
    fun msg => by simp [classify, isAuthError, isRateLimitError], ?_, ?_⟩
  · simp [processTTSWithRetry, processTTSWithRetryLoop, attemptOf, convertTextToSpeech,
      responseOk, JsError.plain, attemptBody, isAuthError, isRateLimitError, MAX_RETRIES,
      attemptsMade]
    decide
  · simp [processTTSWithRetry, processTTSWithRetryLoop, attemptOf, convertTextToSpeech,
      responseOk, JsError.plain, attemptBody, isAuthError, isRateLimitError, MAX_RETRIES]
    decide

/-- C10: `processTTSWithRetry` returns `true` only from an attempt whose call
returned and whose existence check passed, that attempt being its last; it
never returns `false`; an attempt whose call returns while the artifact exists
at neither path counts as a failure `File ... was not created`; and when every
attempt is of that kind the run makes all 10 attempts and throws that error. -/
theorem processTTSWithRetry_success_needs_artifact (call : Nat → CallResult)
    (fileName : String) :
    ((processTTSWithRetry call fileName).result = .returned true →
        ∃ k a b, attemptsMade (processTTSWithRetry call fileName) = List.range (k + 1) ∧
          call k = .returned a b ∧ (a || b) = true) ∧
    (processTTSWithRetry call fileName).result ≠ .returned false ∧
    attemptBody fileName (.returned false false)
      = .threw (JsError.plain ("File " ++ fileName ++ " was not created")) ∧
    ((∀ k, k < 10 → call k = .returned false false) →
        (processTTSWithRetry call fileName).result
          = .threw (JsError.plain ("File " ++ fileName ++ " was not created")) ∧
        attemptsMade (processTTSWithRetry call fileName) = List.range 10) := by
  refine ⟨?_, ?_, by simp [attemptBody], ?_⟩
  · intro hres
    obtain ⟨_, k, _, hbody, hrange⟩ :=
      loop_returned call fileName MAX_RETRIES 0 true (by simp) (by decide) hres
    obtain ⟨a, b, hcall, hexists⟩ := (attemptBody_returned_iff fileName (call k)).1 hbody
    exact ⟨k, a, b, by rw [processTTSWithRetry, hrange]; simp [List.range_eq_range'],
      hcall, hexists⟩
  · intro hres
    have h := (loop_returned call fileName MAX_RETRIES 0 false (by simp) (by decide) hres).1
    cases h
  · intro hall
    have hfail : ∀ k, k < 10 →
        ∃ e, attemptBody fileName (call k) = .threw e ∧ isAuthError e = false := by
      intro k hk
      exact ⟨JsError.plain ("File " ++ fileName ++ " was not created"),
        by simp [hall k hk, attemptBody], by simp [isAuthError, JsError.plain]⟩
    obtain ⟨h1, h2⟩ := retry_all_fail call fileName hfail
    exact ⟨h2 _ (by simp [hall 9 (by omega), attemptBody]), h1⟩

/-- C10, on a sample: ten attempts that each return without creating the file
end in the error `File audios/message_0.wav was not created`. -/
theorem processTTSWithRetry_success_needs_artifact_witness :
    (∀ k, k < 10 → sampleCallsNoFile k = .returned false false) ∧
    (processTTSWithRetry sampleCallsNoFile "audios/message_0.wav").result
      = .threw (JsError.plain ("File " ++ "audios/message_0.wav" ++ " was not created")) ∧
    attemptsMade (processTTSWithRetry sampleCallsNoFile "audios/message_0.wav")
      = List.range 10 :=
  ⟨fun _ _ => rfl,
    (processTTSWithRetry_success_needs_artifact sampleCallsNoFile "audios/message_0.wav").2.2.2
      (fun _ _ => rfl)⟩

/-! ## Lemmas on the message store and the extraction stage -/

theorem messageAt_set_self (s : PipelineState) (i : Nat) (m : Message)
    (h : i < s.messages.length) :
    messageAt { s with messages := s.messages.set i m } i = m := by
  simp [messageAt, List.getD_eq_getElem?_getD, h]

theorem messageAt_set_ne (s : PipelineState) (i j : Nat) (m : Message) (h : j ≠ i) :
    messageAt { s with messages := s.messages.set i m } j = messageAt s j := by
  simp [messageAt, List.getD_eq_getElem?_getD, List.getElem?_set_ne (Ne.symm h)]

theorem extractStage_outcome (w : World) (i : Nat) (s : PipelineState) :
    (extractStage w i s).1 = (processMessageComplete (w.extraction i) (messageAt s i)).2 := rfl

theorem extractStage_messageAt_self (w : World) (i : Nat) (s : PipelineState)
    (h : i < s.messages.length) :
    messageAt (extractStage w i s).2 i
      = (processMessageComplete (w.extraction i) (messageAt s i)).1 :=
  messageAt_set_self s i _ h

theorem extractStage_messageAt_ne (w : World) (i j : Nat) (s : PipelineState) (h : j ≠ i) :
    messageAt (extractStage w i s).2 j = messageAt s j :=
  messageAt_set_ne s i j _ h

theorem extractStage_length (w : World) (i : Nat) (s : PipelineState) :
    (extractStage w i s).2.messages.length = s.messages.length := by
  simp [extractStage]

theorem extractStage_lip (w : World) (i : Nat) (s : PipelineState) :
    (extractStage w i s).2.lipSyncPromises = s.lipSyncPromises := rfl

theorem extractStage_tts (w : World) (i : Nat) (s : PipelineState) :
    (extractStage w i s).2.ttsPromises = s.ttsPromises := rfl

theorem eventsOf_append (t u : List Action) : eventsOf (t ++ u) = eventsOf t ++ eventsOf u := by
  simp [eventsOf]

theorem ttsLaunchesOf_append (t u : List Action) :
    ttsLaunchesOf (t ++ u) = ttsLaunchesOf t ++ ttsLaunchesOf u := by
  simp [ttsLaunchesOf]

theorem extractLaunchesOf_append (t u : List Action) :
    extractLaunchesOf (t ++ u) = extractLaunchesOf t ++ extractLaunchesOf u := by
  simp [extractLaunchesOf]

theorem eventsOf_nil : eventsOf [] = [] := rfl

theorem eventsOf_cons (a : Action) (t : List Action) :
    eventsOf (a :: t) = (match a with | .emit e => [e] | _ => []) ++ eventsOf t := by
  cases a <;> simp [eventsOf]

theorem ttsLaunchesOf_nil : ttsLaunchesOf [] = [] := rfl

theorem ttsLaunchesOf_cons (a : Action) (t : List Action) :
    ttsLaunchesOf (a :: t) = (match a with | .launchTTS i => [i] | _ => []) ++ ttsLaunchesOf t := by
  cases a <;> simp [ttsLaunchesOf]

theorem extractLaunchesOf_nil : extractLaunchesOf [] = [] := rfl

theorem extractLaunchesOf_cons (a : Action) (t : List Action) :
    extractLaunchesOf (a :: t)
      = (match a with | .launchExtract i => [i] | _ => []) ++ extractLaunchesOf t := by
  cases a <;> simp [extractLaunchesOf]

/-! ## The advance loop when no synthesis fails -/

/-- The lookup of `lipSyncPromises` from a state satisfying `AdvanceInv`: with
or without the fallback, the promise is the extraction of `index` run on the
caller's message, and nothing else changed. -/
theorem lookupLipSync_inv (w : World) (messages : List Message) (index : Nat)
    (s : PipelineState) (hinv : AdvanceInv w messages index s)
    (hlt : index < messages.length) :
    eventsOf (lookupLipSync w index s).1 = [] ∧
    (lookupLipSync w index s).2.1 = extractionOutcome w messages index ∧
    messageAt (lookupLipSync w index s).2.2 index = enriched w messages index ∧
    (∀ j, j ≠ index → messageAt (lookupLipSync w index s).2.2 j = messageAt s j) ∧
    (lookupLipSync w index s).2.2.messages.length = messages.length ∧
    (∀ j, index < j → (lookupLipSync w index s).2.2.lipSyncPromises j = none) ∧
    (lookupLipSync w index s).2.2.ttsPromises = s.ttsPromises := by
  obtain ⟨hlen, -, hmsgs, hlip, htts, hcur⟩ := hinv
  have hlt2 : index < s.messages.length := by omega
  rcases hcur with ⟨hnone, hmsg⟩ | ⟨hsome, hmsg⟩
  · have h : lookupLipSync w index s
        = ([.launchExtract index], (extractStage w index s).1, (extractStage w index s).2) := by
      simp [lookupLipSync, hnone]
    rw [h]
    refine ⟨by simp [eventsOf], ?_, ?_, ?_, ?_, ?_, rfl⟩
    · rw [extractStage_outcome, hmsg]; rfl
    · rw [extractStage_messageAt_self w index s hlt2, hmsg]; rfl
    · intro j hj; exact extractStage_messageAt_ne w index j s hj
    · rw [extractStage_length, hlen]
    · intro j hj; rw [extractStage_lip]; exact hlip j hj
  · have h : lookupLipSync w index s = ([], extractionOutcome w messages index, s) := by
      simp [lookupLipSync, hsome]
    rw [h]
    exact ⟨by simp [eventsOf], rfl, hmsg, fun j _ => rfl, hlen, hlip, rfl⟩

/-- One turn of the loop from a state satisfying `AdvanceInv`, the synthesis of
the next index succeeding: the turn yields one event for `index`, carrying the
message as its extraction left it and that extraction's error, and leaves a
state satisfying `AdvanceInv` for `index + 1`. -/
theorem advanceStep_synthesis_ok (w : World) (messages : List Message) (index : Nat)
    (s : PipelineState) (hinv : AdvanceInv w messages index s)
    (hlt : index < messages.length)
    (hsyn : index + 1 < messages.length → ∃ b, ttsStage w (index + 1) = .returned b) :
    eventsOf (advanceStep w messages.length index s).trace
      = [⟨index, enriched w messages index, decide (index = messages.length - 1),
          errorOf (extractionOutcome w messages index)⟩] ∧
    AdvanceInv w messages (index + 1) (advanceStep w messages.length index s).final := by
  obtain ⟨hev, hout, hself, hne, hlen1, hlip1, htts1⟩ :=
    lookupLipSync_inv w messages index s hinv hlt
  obtain ⟨hlen, hearly, hmsgs, hlip, htts, -⟩ := hinv
  unfold advanceStep
  generalize lookupLipSync w index s = found at hev hout hself hne hlen1 hlip1 htts1
  obtain ⟨t1, p, s1⟩ := found
  simp only at hev hout hself hne hlen1 hlip1 htts1 ⊢
  subst hout
  have hearly1 : ∀ j, j < index + 1 → messageAt s1 j = enriched w messages j := by
    intro j hj
    by_cases hji : j = index
    · rw [hji]; exact hself
    · rw [hne j hji]; exact hearly j (by omega)
  cases hp : extractionOutcome w messages index with
  | threw error =>
    simp only []
    refine ⟨by simp [eventsOf_append, eventsOf_cons, eventsOf_nil, hev, hself, errorOf], ?_⟩
    exact ⟨hlen1, hearly1, fun j hj => (hne j (by omega)).trans (hmsgs j (by omega)),
      fun j hj => hlip1 j (by omega), fun j hj => by rw [htts1]; exact htts j (by omega),
      Or.inl ⟨hlip1 _ (by omega), (hne _ (by omega)).trans (hmsgs _ (by omega))⟩⟩
  | returned u =>
    simp only []
    have hself2 : messageAt { s1 with lipSyncPromises := s1.lipSyncPromises.delete index } index
        = enriched w messages index := hself
    by_cases hnext : index < messages.length - 1
    · obtain ⟨b, hb⟩ := hsyn (by omega)
      have hlook : lookupTTS w (index + 1)
            { s1 with lipSyncPromises := s1.lipSyncPromises.delete index }
          = ([.launchTTS (index + 1), .setTTSPromise (index + 1)], ttsStage w (index + 1),
              { s1 with lipSyncPromises := s1.lipSyncPromises.delete index,
                        ttsPromises := s1.ttsPromises.set (index + 1) (ttsStage w (index + 1)) }) := by
        have : s1.ttsPromises (index + 1) = none := by rw [htts1]; exact htts _ (by omega)
        simp [lookupTTS, this]
      rw [if_pos hnext]
      simp only [hlook, hb]
      refine ⟨by simp [eventsOf_append, eventsOf_cons, eventsOf_nil, hev, hself2, errorOf], ?_⟩
      have hnextmsg : messageAt s1 (index + 1) = messages.getD (index + 1) default :=
        (hne _ (by omega)).trans (hmsgs _ (by omega))
      refine ⟨?_, ?_, ?_, ?_, ?_, Or.inr ⟨?_, ?_⟩⟩
      · simp [extractStage, hlen1]
      · intro j hj
        have h1 : j ≠ index + 1 := by omega
        show messageAt (extractStage w (index + 1) _).2 j = _
        rw [extractStage_messageAt_ne w (index + 1) j _ h1]
        exact hearly1 j hj
      · intro j hj
        have h1 : j ≠ index + 1 := by omega
        show messageAt (extractStage w (index + 1) _).2 j = _
        rw [extractStage_messageAt_ne w (index + 1) j _ h1]
        exact (hne j (by omega)).trans (hmsgs j (by omega))
      · intro j hj
        have h1 : j ≠ index + 1 := by omega
        have h2 : j ≠ index := by omega
        simp [extractStage, PromiseMap.set, PromiseMap.delete, h1, h2, hlip1 j (by omega)]
      · intro j hj
        have h1 : j ≠ index + 1 := by omega
        simp [extractStage, PromiseMap.set, PromiseMap.delete, h1, htts1, htts j (by omega)]
      · simp only [PromiseMap.set, if_true, extractStage_outcome]
        congr 1
        show (processMessageComplete (w.extraction (index + 1)) (messageAt s1 (index + 1))).2 = _
        rw [hnextmsg]; rfl
      · show messageAt (extractStage w (index + 1) _).2 (index + 1) = _
        rw [extractStage_messageAt_self _ _ _ (by simp only [hlen1]; omega)]
        show (processMessageComplete (w.extraction (index + 1)) (messageAt s1 (index + 1))).1 = _
        rw [hnextmsg]; rfl
    · rw [if_neg hnext]
      refine ⟨by simp [eventsOf_append, eventsOf_cons, eventsOf_nil, hev, hself2, errorOf], ?_⟩
      exact ⟨hlen1, hearly1, fun j hj => (hne j (by omega)).trans (hmsgs j (by omega)),
        fun j hj => by
          have h2 : j ≠ index := by omega
          simp [PromiseMap.delete, h2, hlip1 j (by omega)],
        fun j hj => by rw [htts1]; exact htts j (by omega),
        Or.inl ⟨by simp [PromiseMap.delete, hlip1 (index + 1) (by omega)],
          (hne _ (by omega)).trans (hmsgs _ (by omega))⟩⟩

/-- The loop from a state satisfying `AdvanceInv`, no synthesis failing: one
event per remaining index, in order. -/
theorem advanceLoop_synthesis_ok (w : World) (messages : List Message)
    (hsyn : ∀ i, i < messages.length → ∃ b, ttsStage w i = .returned b) :
    ∀ fuel index s, index + fuel = messages.length → AdvanceInv w messages index s →
      eventsOf (advanceLoop w messages.length fuel index s).trace
        = ((List.range' index fuel).map fun i =>
            ⟨i, enriched w messages i, decide (i = messages.length - 1),
              errorOf (extractionOutcome w messages i)⟩) ∧
      AdvanceInv w messages messages.length (advanceLoop w messages.length fuel index s).final := by
  intro fuel
  induction fuel with
  | zero =>
    intro index s hsum hinv
    have hidx : index = messages.length := by omega
    subst hidx
    exact ⟨by simp [advanceLoop, eventsOf_nil], hinv⟩
  | succ fuel ih =>
    intro index s hsum hinv
    obtain ⟨hev, hinv2⟩ := advanceStep_synthesis_ok w messages index s hinv (by omega)
      (fun h => hsyn _ h)
    obtain ⟨h1, h2⟩ := ih (index + 1) _ (by omega) hinv2
    exact ⟨by simp only [advanceLoop, eventsOf_append, hev, h1, List.range'_succ, List.map_cons,
      List.singleton_append], h2⟩

/-- The state in which `lipSyncStream` enters its loop satisfies `AdvanceInv`
for index 1. -/
theorem bootstrap_inv (w : World) (messages : List Message) (b1 : Bool)
    (h1 : 1 < messages.length) :
    let s0 : PipelineState := ⟨messages, PromiseMap.empty, PromiseMap.empty⟩
    let l0 := extractStage w 0 s0
    let s1 : PipelineState := { l0.2 with ttsPromises := l0.2.ttsPromises.set 1 (.returned b1) }
    let s2 : PipelineState := { s1 with ttsPromises := s1.ttsPromises.delete 1 }
    let l1 := extractStage w 1 s2
    let s3 : PipelineState := { l1.2 with lipSyncPromises := l1.2.lipSyncPromises.set 1 l1.1 }
    AdvanceInv w messages 1 s3 := by
  intro s0 l0 s1 s2 l1 s3
  have hm1 : messageAt s2 1 = messages.getD 1 default :=
    extractStage_messageAt_ne w 0 1 s0 (by omega)
  refine ⟨by simp [s3, l1, s2, s1, l0, s0, extractStage], ?_, ?_, ?_, ?_, Or.inr ⟨?_, ?_⟩⟩
  · intro j hj
    have hj0 : j = 0 := by omega
    subst hj0
    show messageAt l1.2 0 = _
    rw [extractStage_messageAt_ne w 1 0 s2 (by omega)]
    exact extractStage_messageAt_self w 0 s0 (by simp only [s0]; omega)
  · intro j hj
    show messageAt l1.2 j = _
    rw [extractStage_messageAt_ne w 1 j s2 (by omega)]
    exact extractStage_messageAt_ne w 0 j s0 (by omega)
  · intro j hj
    have hj1 : j ≠ 1 := by omega
    simp [s3, l1, s2, s1, l0, s0, extractStage, PromiseMap.set, PromiseMap.empty, hj1]
  · intro j hj
    have hj1 : j ≠ 1 := by omega
    simp [s3, l1, s2, s1, l0, s0, extractStage, PromiseMap.set, PromiseMap.delete,
      PromiseMap.empty, hj1]
  · show (l1.2.lipSyncPromises.set 1 l1.1) 1 = _
    simp only [PromiseMap.set, if_true]
    congr 1
    show (processMessageComplete (w.extraction 1) (messageAt s2 1)).2 = _
    rw [hm1]; rfl
  · show messageAt l1.2 1 = _
    rw [extractStage_messageAt_self w 1 s2 (by simp [s2, s1, l0, s0, extractStage]; omega)]
    show (processMessageComplete (w.extraction 1) (messageAt s2 1)).1 = _
    rw [hm1]; rfl

/-- When no synthesis stage fails and, for two or more messages, the extraction
of index 0 succeeds, `lipSyncStream` yields one event per index, in order: the
message as its extraction left it, `done` on the last index only, and the error
of that index's extraction; and every message object ends as its extraction
left it. -/
theorem events_of_synthesis_ok (w : World) (messages : List Message)
    (hsyn : ∀ i, i < messages.length → ∃ b, ttsStage w i = .returned b)
    (hext0 : 2 ≤ messages.length → extractionOutcome w messages 0 = .returned ()) :
    events (lipSyncStream w messages)
      = ((List.range messages.length).map fun i =>
          ⟨i, enriched w messages i, decide (i = messages.length - 1),
            errorOf (extractionOutcome w messages i)⟩) ∧
    ∀ i, i < messages.length →
      messageAt (lipSyncStream w messages).final i = enriched w messages i := by
  unfold lipSyncStream events
  by_cases h0 : messages.length = 0
  · simp [h0, eventsOf_nil]
  · obtain ⟨b0, hb0⟩ := hsyn 0 (by omega)
    simp only [h0, if_false, hb0]
    have hself0 : messageAt (extractStage w 0 ⟨messages, PromiseMap.empty, PromiseMap.empty⟩).2 0
        = enriched w messages 0 :=
      extractStage_messageAt_self w 0 _ (by simp only []; omega)
    have hout0 : (extractStage w 0 ⟨messages, PromiseMap.empty, PromiseMap.empty⟩).1
        = extractionOutcome w messages 0 := rfl
    by_cases h1 : messages.length > 1
    · obtain ⟨b1, hb1⟩ := hsyn 1 (by omega)
      have he0 := hext0 (by omega)
      rw [if_pos h1]
      simp only [hout0, he0, hb1]
      obtain ⟨hloop, hfinal⟩ := advanceLoop_synthesis_ok w messages hsyn (messages.length - 1) 1 _
        (by omega) (bootstrap_inv w messages b1 h1)
      simp only [] at hloop hfinal
      refine ⟨?_, fun i hi => hfinal.earlier_messages i hi⟩
      simp only [eventsOf_append, eventsOf_cons, eventsOf_nil, hloop]
      have hrange : List.range messages.length = 0 :: List.range' 1 (messages.length - 1) := by
        have hl : messages.length = (messages.length - 1) + 1 := by omega
        rw [List.range_eq_range', hl, List.range'_succ]
        simp
      have hdone : decide (0 = messages.length - 1) = false := by
        simp only [decide_eq_false_iff_not]; omega
      rw [hrange]
      simp only [List.map_cons, List.nil_append, List.singleton_append, he0, errorOf, hdone]
      congr 2
    · have hlen : messages.length = 1 := by omega
      rw [if_neg h1]
      rw [hout0]
      have hfin : ∀ i, i < messages.length →
          messageAt (extractStage w 0 ⟨messages, PromiseMap.empty, PromiseMap.empty⟩).2 i
            = enriched w messages i := by
        intro i hi
        have hi0 : i = 0 := by omega
        rw [hi0]; exact hself0
      cases hout : extractionOutcome w messages 0 <;>
        exact ⟨by simp [eventsOf_cons, eventsOf_nil, hlen, hself0, errorOf, hout,
          List.range_succ], hfin⟩

/-- With two or more messages, synthesis of index 0 succeeding and extraction
of index 0 failing, the run yields the single event `{0, done: true, error}`. -/
theorem events_of_extraction0_failure (w : World) (messages : List Message) (e : JsError)
    (hlen : 2 ≤ messages.length) (hsyn0 : ∃ b, ttsStage w 0 = .returned b)
    (hfail : extractionOutcome w messages 0 = .threw e) :
    events (lipSyncStream w messages) = [⟨0, enriched w messages 0, true, some e.message⟩] := by
  obtain ⟨b0, hb0⟩ := hsyn0
  have h0 : ¬ messages.length = 0 := by omega
  have h1 : messages.length > 1 := by omega
  have hout0 : (extractStage w 0 ⟨messages, PromiseMap.empty, PromiseMap.empty⟩).1
      = extractionOutcome w messages 0 := rfl
  have hself0 : messageAt (extractStage w 0 ⟨messages, PromiseMap.empty, PromiseMap.empty⟩).2 0
      = enriched w messages 0 :=
    extractStage_messageAt_self w 0 _ (by simp only []; omega)
  unfold lipSyncStream events
  simp only [h0, if_false, hb0, if_pos h1, hout0, hfail, eventsOf_append, eventsOf_cons,
    eventsOf_nil, List.nil_append, List.append_nil]
  congr 2

theorem map_index_events (w : World) (messages : List Message) (n : Nat) :
    ((List.range n).map fun i =>
        (⟨i, enriched w messages i, decide (i = messages.length - 1),
          errorOf (extractionOutcome w messages i)⟩ : OrderedEvent)).map (fun e => e.index)
      = List.range n := by
  simp [List.map_map, Function.comp_def]

/-- C1: when no synthesis and no extraction stage fails, `lipSyncStream` yields
exactly one event per index 0..N-1, in that order; the event of index `i`
carries the message object `messages[i]` (as its extraction left it, which is
also its state when the run ends), `error = null`, and `done = true` exactly
when `i = N - 1`; for N = 0 nothing is yielded. -/
theorem lipSyncStream_no_failure_events (w : World) (messages : List Message)
    (hsyn : ∀ i, i < messages.length → ∃ b, ttsStage w i = .returned b)
    (hext : ∀ i, i < messages.length → extractionOutcome w messages i = .returned ()) :
    events (lipSyncStream w messages)
      = ((List.range messages.length).map fun i =>
          ⟨i, enriched w messages i, decide (i = messages.length - 1), none⟩) ∧
    (events (lipSyncStream w messages)).map (fun e => e.index) = List.range messages.length ∧
    (∀ e, e ∈ events (lipSyncStream w messages) →
      e.message = messageAt (lipSyncStream w messages).final e.index) ∧
    (messages.length = 0 → events (lipSyncStream w messages) = []) := by
  obtain ⟨hev, hfinal⟩ := events_of_synthesis_ok w messages hsyn (fun h => hext 0 (by omega))
  have hev2 : events (lipSyncStream w messages)
      = ((List.range messages.length).map fun i =>
          ⟨i, enriched w messages i, decide (i = messages.length - 1), none⟩) := by
    rw [hev]
    apply List.map_congr_left
    intro i hi
    rw [hext i (List.mem_range.1 hi)]
    rfl
  refine ⟨hev2, by rw [hev, map_index_events], ?_, ?_⟩
  · intro e he
    rw [hev2] at he
    obtain ⟨i, hi, rfl⟩ := List.mem_map.1 he
    exact (hfinal i (List.mem_range.1 hi)).symm
  · intro h0
    rw [hev2, h0]
    rfl

/-- C1, on a sample: three messages, no failure. -/
theorem lipSyncStream_no_failure_events_witness :
    (∀ i, i < (sampleMessages 3).length → ∃ b, ttsStage sampleWorldOk i = .returned b) ∧
    (∀ i, i < (sampleMessages 3).length →
      extractionOutcome sampleWorldOk (sampleMessages 3) i = .returned ()) ∧
    events (lipSyncStream sampleWorldOk (sampleMessages 3))
      = ((List.range (sampleMessages 3).length).map fun i =>
          ⟨i, enriched sampleWorldOk (sampleMessages 3) i,
            decide (i = (sampleMessages 3).length - 1), none⟩) :=
  ⟨by decide, by decide,
    (lipSyncStream_no_failure_events sampleWorldOk (sampleMessages 3)
      (by decide) (by decide)).1⟩

/-- C2, refuted as stated: with two messages, synthesis of index 0 succeeding
and extraction of index 0 failing, the run yields one event, of index 0, and
index 1 is never yielded; with three messages and synthesis of index 2 failing,
index 1 is yielded twice, the second time with the error of index 2. -/
theorem lipSyncStream_index_skipped :
    (ttsStage (sampleWorldExtractFails 0) 0 = .returned true ∧
      (events (lipSyncStream (sampleWorldExtractFails 0) (sampleMessages 2))).map
        (fun e => (e.index, e.done, e.error))
          = [(0, true, some "Process exited with code 1")] ∧
      ((events (lipSyncStream (sampleWorldExtractFails 0) (sampleMessages 2))).map
        (fun e => e.index)).count 1 = 0) ∧
    (ttsStage (sampleWorldSynthesisFails 2) 0 = .returned true ∧
      (events (lipSyncStream (sampleWorldSynthesisFails 2) (sampleMessages 3))).map
        (fun e => (e.index, e.done, e.error))
          = [(0, false, none), (1, false, none), (1, false, some "fetch failed"),
              (2, true, none)]) := by
  decide

/-- C2, amended: when no synthesis stage fails, `lipSyncStream` does one of two
things.  If there is one message, or the extraction of index 0 succeeds, it
yields the indices 0,1,...,N-1 in strictly increasing order, each exactly once,
and the event of index `i` carries in `error` the failure of the extraction of
`i` (`null` when it succeeded).  If there are two or more messages and the
extraction of index 0 fails, it yields the single event
`{index: 0, done: true, error}` and no other index. -/
theorem lipSyncStream_each_index_once (w : World) (messages : List Message)
    (hsyn : ∀ i, i < messages.length → ∃ b, ttsStage w i = .returned b) :
    ((2 ≤ messages.length → extractionOutcome w messages 0 = .returned ()) →
      (events (lipSyncStream w messages)).map (fun e => e.index)
          = List.range messages.length ∧
      List.Pairwise (fun a b => a < b)
        ((events (lipSyncStream w messages)).map (fun e => e.index)) ∧
      (∀ i, i < messages.length →
        ((events (lipSyncStream w messages)).map (fun e => e.index)).count i = 1) ∧
      (∀ e, e ∈ events (lipSyncStream w messages) →
        e.error = errorOf (extractionOutcome w messages e.index))) ∧
    (∀ err, 2 ≤ messages.length → extractionOutcome w messages 0 = .threw err →
      events (lipSyncStream w messages)
        = [⟨0, enriched w messages 0, true, some err.message⟩]) := by
  refine ⟨fun hext0 => ?_, fun err hlen hfail =>
    events_of_extraction0_failure w messages err hlen (hsyn 0 (by omega)) hfail⟩
  obtain ⟨hev, -⟩ := events_of_synthesis_ok w messages hsyn hext0
  have hidx : (events (lipSyncStream w messages)).map (fun e => e.index)
      = List.range messages.length := by rw [hev, map_index_events]
  refine ⟨hidx, by rw [hidx]; exact List.pairwise_lt_range _, ?_, ?_⟩
  · intro i hi
    rw [hidx]
    exact List.count_eq_one_of_mem (List.nodup_range _) (List.mem_range.2 hi)
  · intro e he
    rw [hev] at he
    obtain ⟨i, -, rfl⟩ := List.mem_map.1 he
    rfl

/-- C2 amended, on a sample: four messages, extraction failing for index 2. -/
theorem lipSyncStream_each_index_once_witness :
    (∀ i, i < (sampleMessages 4).length →
      ∃ b, ttsStage (sampleWorldExtractFails 2) i = .returned b) ∧
    (2 ≤ (sampleMessages 4).length →
      extractionOutcome (sampleWorldExtractFails 2) (sampleMessages 4) 0 = .returned ()) ∧
    extractionOutcome (sampleWorldExtractFails 2) (sampleMessages 4) 2
      = .threw (JsError.plain "Process exited with code 1") ∧
    (events (lipSyncStream (sampleWorldExtractFails 2) (sampleMessages 4))).map
      (fun e => e.index) = List.range (sampleMessages 4).length :=
  ⟨by decide, by decide, by decide,
    ((lipSyncStream_each_index_once (sampleWorldExtractFails 2) (sampleMessages 4)
      (by decide)).1 (by decide)).1⟩

/-! ## Launches of the advance loop, whatever the stage outcomes -/

theorem lookupLipSync_launches (w : World) (index : Nat) (s : PipelineState) :
    ttsLaunchesOf (lookupLipSync w index s).1 = [] ∧
    (extractLaunchesOf (lookupLipSync w index s).1 = [] ∨
      (extractLaunchesOf (lookupLipSync w index s).1 = [index] ∧
        s.lipSyncPromises index = none)) ∧
    (lookupLipSync w index s).2.2.lipSyncPromises = s.lipSyncPromises := by
  unfold lookupLipSync
  cases h : s.lipSyncPromises index with
  | none =>
    exact ⟨by simp [ttsLaunchesOf], Or.inr ⟨by simp [extractLaunchesOf], rfl⟩, rfl⟩
  | some p => exact ⟨rfl, Or.inl rfl, rfl⟩

theorem lookupTTS_launches (w : World) (nextIndex : Nat) (s : PipelineState) :
    extractLaunchesOf (lookupTTS w nextIndex s).1 = [] ∧
    (ttsLaunchesOf (lookupTTS w nextIndex s).1 = [] ∨
      ttsLaunchesOf (lookupTTS w nextIndex s).1 = [nextIndex]) := by
  unfold lookupTTS
  cases h : s.ttsPromises nextIndex with
  | none => exact ⟨by simp [extractLaunchesOf], Or.inr (by simp [ttsLaunchesOf])⟩
  | some p => exact ⟨rfl, Or.inl rfl⟩

/-- One turn of the loop launches the synthesis of `index + 1` at most once and
no other synthesis; it launches the extraction of `index` only when no promise
is recorded for it, and the extraction of `index + 1` only while recording its
promise. -/
theorem advanceStep_launches (w : World) (length index : Nat) (s : PipelineState) :
    (ttsLaunchesOf (advanceStep w length index s).trace = [] ∨
      ttsLaunchesOf (advanceStep w length index s).trace = [index + 1]) ∧
    ∃ pre post, extractLaunchesOf (advanceStep w length index s).trace = pre ++ post ∧
      (pre = [] ∨ (pre = [index] ∧ s.lipSyncPromises index = none)) ∧
      (post = [] ∨ (post = [index + 1] ∧
        ((advanceStep w length index s).final.lipSyncPromises (index + 1)).isSome = true)) := by
  obtain ⟨hf1, hf2, -⟩ := lookupLipSync_launches w index s
  unfold advanceStep
  generalize lookupLipSync w index s = found at hf1 hf2
  obtain ⟨t1, p, s1⟩ := found
  simp only at hf1 hf2 ⊢
  cases p with
  | threw error =>
    simp only []
    refine ⟨Or.inl (by simp [ttsLaunchesOf_append, ttsLaunchesOf_cons, ttsLaunchesOf_nil, hf1]),
      extractLaunchesOf t1, [], ?_, hf2, Or.inl rfl⟩
    simp [extractLaunchesOf_append, extractLaunchesOf_cons, extractLaunchesOf_nil]
  | returned u =>
    simp only []
    by_cases hnext : index < length - 1
    · rw [if_pos hnext]
      obtain ⟨hn1, hn2⟩ := lookupTTS_launches w (index + 1)
        { s1 with lipSyncPromises := s1.lipSyncPromises.delete index }
      generalize lookupTTS w (index + 1)
        { s1 with lipSyncPromises := s1.lipSyncPromises.delete index } = next at hn1 hn2
      obtain ⟨t2, q, s3⟩ := next
      simp only at hn1 hn2 ⊢
      cases q with
      | threw error =>
        simp only []
        refine ⟨?_, extractLaunchesOf t1, [], ?_, hf2, Or.inl rfl⟩
        · rcases hn2 with h | h <;>
            simp [ttsLaunchesOf_append, ttsLaunchesOf_cons, ttsLaunchesOf_nil, hf1, h]
        · simp [extractLaunchesOf_append, extractLaunchesOf_cons, extractLaunchesOf_nil, hn1]
      | returned b =>
        simp only []
        refine ⟨?_, extractLaunchesOf t1, [index + 1], ?_, hf2, Or.inr ⟨rfl, ?_⟩⟩
        · rcases hn2 with h | h <;>
            simp [ttsLaunchesOf_append, ttsLaunchesOf_cons, ttsLaunchesOf_nil, hf1, h]
        · simp [extractLaunchesOf_append, extractLaunchesOf_cons, extractLaunchesOf_nil, hn1]
        · simp [PromiseMap.set]
    · rw [if_neg hnext]
      refine ⟨Or.inl (by simp [ttsLaunchesOf_append, ttsLaunchesOf_cons, ttsLaunchesOf_nil, hf1]),
        extractLaunchesOf t1, [], ?_, hf2, Or.inl rfl⟩
      simp [extractLaunchesOf_append, extractLaunchesOf_cons, extractLaunchesOf_nil]

/-- The loop launches each synthesis and each extraction at most once, in
increasing order of index, and does not launch the extraction of its first
index when a promise is recorded for it. -/
theorem advanceLoop_launches (w : World) (length : Nat) :
    ∀ fuel index s,
      List.Sublist (ttsLaunchesOf (advanceLoop w length fuel index s).trace)
        (List.range' (index + 1) fuel) ∧
      List.Sublist (extractLaunchesOf (advanceLoop w length fuel index s).trace)
        (List.range' index (fuel + 1)) ∧
      ((s.lipSyncPromises index).isSome = true →
        List.Sublist (extractLaunchesOf (advanceLoop w length fuel index s).trace)
          (List.range' (index + 1) fuel)) := by
  intro fuel
  induction fuel with
  | zero =>
    intro index s
    simp [advanceLoop, ttsLaunchesOf_nil, extractLaunchesOf_nil]
  | succ fuel ih =>
    intro index s
    obtain ⟨htts, pre, post, hext, hpre, hpost⟩ := advanceStep_launches w length index s
    obtain ⟨ih1, ih2, ih3⟩ := ih (index + 1) (advanceStep w length index s).final
    simp only [advanceLoop, ttsLaunchesOf_append, extractLaunchesOf_append, hext]
    have hrest : List.Sublist
        (post ++ extractLaunchesOf
          (advanceLoop w length fuel (index + 1) (advanceStep w length index s).final).trace)
        (List.range' (index + 1) (fuel + 1)) := by
      rcases hpost with rfl | ⟨rfl, hsome⟩
      · simpa using ih2
      · rw [List.range'_succ]
        exact List.Sublist.cons₂ _ (ih3 hsome)
    refine ⟨?_, ?_, ?_⟩
    · rw [List.range'_succ]
      rcases htts with h | h <;> rw [h]
      · exact List.Sublist.cons _ ih1
      · exact List.Sublist.cons₂ _ ih1
    · rw [List.range'_succ, List.append_assoc]
      rcases hpre with rfl | ⟨rfl, -⟩
      · exact List.Sublist.cons _ hrest
      · exact List.Sublist.cons₂ _ hrest
    · intro hsome
      rw [List.append_assoc]
      rcases hpre with rfl | ⟨-, hnone⟩
      · exact hrest
      · rw [hnone] at hsome; cases hsome

/-- The launches of a whole run, whatever the stage outcomes: synthesis and
extraction launches each form a sublist of `0, 1, 2, ...`. -/
theorem lipSyncStream_launches_sublist (w : World) (messages : List Message) :
    List.Sublist (ttsLaunches (lipSyncStream w messages)) (List.range' 0 (messages.length + 1)) ∧
    List.Sublist (extractLaunches (lipSyncStream w messages))
      (List.range' 0 (messages.length + 1)) := by
  unfold lipSyncStream ttsLaunches extractLaunches
  by_cases h0 : messages.length = 0
  · simp [h0, ttsLaunchesOf_nil, extractLaunchesOf_nil]
  · simp only [h0, if_false]
    have hone : List.Sublist [0] (List.range' 0 (messages.length + 1)) := by
      rw [List.range'_succ]
      exact List.Sublist.cons₂ _ (List.nil_sublist _)
    cases ttsStage w 0 with
    | threw error =>
      simp only [ttsLaunchesOf_cons, ttsLaunchesOf_nil, extractLaunchesOf_cons,
        extractLaunchesOf_nil, List.append_nil, List.nil_append]
      exact ⟨hone, List.nil_sublist _⟩
    | returned b0 =>
      simp only []
      by_cases h1 : messages.length > 1
      · rw [if_pos h1]
        have hlen : messages.length + 1 = (messages.length - 1) + 1 + 1 := by omega
        have htwo : ∀ l : List Nat, List.Sublist l (List.range' 2 (messages.length - 1)) →
            List.Sublist (0 :: 1 :: l) (List.range' 0 (messages.length + 1)) := by
          intro l hl
          rw [hlen, List.range'_succ, List.range'_succ]
          exact List.Sublist.cons₂ _ (List.Sublist.cons₂ _ hl)
        have hzero : List.Sublist [0] (List.range' 0 (messages.length + 1)) := hone
        cases (extractStage w 0 ⟨messages, PromiseMap.empty, PromiseMap.empty⟩).1 with
        | threw error =>
          simp only [ttsLaunchesOf_append, ttsLaunchesOf_cons, ttsLaunchesOf_nil,
            extractLaunchesOf_append, extractLaunchesOf_cons, extractLaunchesOf_nil,
            List.append_nil, List.nil_append, List.singleton_append]
          exact ⟨htwo [] (List.nil_sublist _), hzero⟩
        | returned u =>
          simp only []
          cases ttsStage w 1 with
          | threw error =>
            simp only [ttsLaunchesOf_append, ttsLaunchesOf_cons, ttsLaunchesOf_nil,
              extractLaunchesOf_append, extractLaunchesOf_cons, extractLaunchesOf_nil,
              List.append_nil, List.nil_append, List.singleton_append]
            exact ⟨htwo [] (List.nil_sublist _), hzero⟩
          | returned b1 =>
            simp only [ttsLaunchesOf_append, ttsLaunchesOf_cons, ttsLaunchesOf_nil,
              extractLaunchesOf_append, extractLaunchesOf_cons, extractLaunchesOf_nil,
              List.append_nil, List.nil_append, List.singleton_append]
            have key : ∀ s : PipelineState, (s.lipSyncPromises 1).isSome = true →
                List.Sublist
                  (0 :: 1 :: ttsLaunchesOf
                    (advanceLoop w messages.length (messages.length - 1) 1 s).trace)
                  (List.range' 0 (messages.length + 1)) ∧
                List.Sublist
                  (0 :: 1 :: extractLaunchesOf
                    (advanceLoop w messages.length (messages.length - 1) 1 s).trace)
                  (List.range' 0 (messages.length + 1)) := by
              intro s hs
              obtain ⟨hl1, -, hl3⟩ := advanceLoop_launches w messages.length
                (messages.length - 1) 1 s
              exact ⟨htwo _ hl1, htwo _ (hl3 hs)⟩
            exact key _ (by simp [PromiseMap.set])
      · rw [if_neg h1]
        cases (extractStage w 0 ⟨messages, PromiseMap.empty, PromiseMap.empty⟩).1 <;>
          simp only [ttsLaunchesOf_append, ttsLaunchesOf_cons, ttsLaunchesOf_nil,
            extractLaunchesOf_append, extractLaunchesOf_cons, extractLaunchesOf_nil,
            List.append_nil, List.nil_append, List.singleton_append] <;>
          exact ⟨hone, hone⟩

/-- C3: in a full run of `lipSyncStream`, whatever the stage outcomes, the
synthesis stage is launched at most once per index and the extraction stage is
launched at most once per index. -/
theorem lipSyncStream_no_duplicate_launch (w : World) (messages : List Message) (i : Nat) :
    (ttsLaunches (lipSyncStream w messages)).count i ≤ 1 ∧
    (extractLaunches (lipSyncStream w messages)).count i ≤ 1 := by
  obtain ⟨h1, h2⟩ := lipSyncStream_launches_sublist w messages
  exact ⟨List.nodup_iff_count_le_one.1 (h1.nodup (List.nodup_range' _ _)) i,
    List.nodup_iff_count_le_one.1 (h2.nodup (List.nodup_range' _ _)) i⟩

/-! ## Launches when no synthesis fails -/

/-- One turn of the loop from a state satisfying `AdvanceInv`, the synthesis of
the next index succeeding: the synthesis and the extraction of `index + 1` are
launched exactly when the extraction of `index` succeeded and `index` is not
the last index; the extraction of `index` is launched on demand exactly when no
promise was recorded for it. -/
theorem advanceStep_launches_synthesis_ok (w : World) (messages : List Message) (index : Nat)
    (s : PipelineState) (hinv : AdvanceInv w messages index s)
    (hlt : index < messages.length)
    (hsyn : index + 1 < messages.length → ∃ b, ttsStage w (index + 1) = .returned b) :
    ttsLaunchesOf (advanceStep w messages.length index s).trace
      = (if extractionOutcome w messages index = .returned () ∧ index + 1 < messages.length
          then [index + 1] else []) ∧
    extractLaunchesOf (advanceStep w messages.length index s).trace
      = (if s.lipSyncPromises index = none then [index] else []) ++
        (if extractionOutcome w messages index = .returned () ∧ index + 1 < messages.length
          then [index + 1] else []) ∧
    ((advanceStep w messages.length index s).final.lipSyncPromises (index + 1) = none ↔
      ¬ (extractionOutcome w messages index = .returned () ∧ index + 1 < messages.length)) := by
  obtain ⟨-, hout, -, -, -, hlip1, htts1⟩ := lookupLipSync_inv w messages index s hinv hlt
  obtain ⟨hf1, hf2, -⟩ := lookupLipSync_launches w index s
  have hf3 : extractLaunchesOf (lookupLipSync w index s).1
      = if s.lipSyncPromises index = none then [index] else [] := by
    unfold lookupLipSync
    cases h : s.lipSyncPromises index <;> simp [extractLaunchesOf]
  have htts := hinv.later_tts
  unfold advanceStep
  generalize lookupLipSync w index s = found at hout hlip1 htts1 hf1 hf3
  obtain ⟨t1, p, s1⟩ := found
  simp only at hout hlip1 htts1 hf1 hf3 ⊢
  subst hout
  cases hp : extractionOutcome w messages index with
  | threw error =>
    simp only []
    refine ⟨?_, ?_, ?_⟩
    · simp [ttsLaunchesOf_append, ttsLaunchesOf_cons, ttsLaunchesOf_nil, hf1]
    · simp [extractLaunchesOf_append, extractLaunchesOf_cons, extractLaunchesOf_nil, hf3]
    · simp [hlip1 (index + 1) (by omega)]
  | returned u =>
    simp only []
    by_cases hnext : index < messages.length - 1
    · have hnext2 : index + 1 < messages.length := by omega
      obtain ⟨b, hb⟩ := hsyn hnext2
      have hlook : lookupTTS w (index + 1)
            { s1 with lipSyncPromises := s1.lipSyncPromises.delete index }
          = ([.launchTTS (index + 1), .setTTSPromise (index + 1)], ttsStage w (index + 1),
              { s1 with lipSyncPromises := s1.lipSyncPromises.delete index,
                        ttsPromises := s1.ttsPromises.set (index + 1) (ttsStage w (index + 1)) }) := by
        have : s1.ttsPromises (index + 1) = none := by rw [htts1]; exact htts _ (by omega)
        simp [lookupTTS, this]
      rw [if_pos hnext]
      simp only [hlook, hb]
      refine ⟨?_, ?_, ?_⟩
      · simp [ttsLaunchesOf_append, ttsLaunchesOf_cons, ttsLaunchesOf_nil, hf1, hnext2]
      · simp [extractLaunchesOf_append, extractLaunchesOf_cons, extractLaunchesOf_nil, hf3,
          hnext2]
      · simp [PromiseMap.set, hnext2]
    · have hnext2 : ¬ index + 1 < messages.length := by omega
      rw [if_neg hnext]
      refine ⟨?_, ?_, ?_⟩
      · simp [ttsLaunchesOf_append, ttsLaunchesOf_cons, ttsLaunchesOf_nil, hf1, hnext2]
      · simp [extractLaunchesOf_append, extractLaunchesOf_cons, extractLaunchesOf_nil, hf3,
          hnext2]
      · simp [PromiseMap.delete, hlip1 (index + 1) (by omega), hnext2]

/-- The loop from a state satisfying `AdvanceInv`, no synthesis failing: the
extraction of every remaining index is launched once (that of the first index
unless a promise is recorded for it), and the synthesis of an index is launched
exactly when the extraction of the index before it succeeded. -/
theorem advanceLoop_launches_synthesis_ok (w : World) (messages : List Message)
    (hsyn : ∀ i, i < messages.length → ∃ b, ttsStage w i = .returned b) :
    ∀ fuel index s, index + fuel = messages.length → AdvanceInv w messages index s →
      extractLaunchesOf (advanceLoop w messages.length fuel index s).trace
        = (if s.lipSyncPromises index = none then List.range' index fuel
            else List.range' (index + 1) (fuel - 1)) ∧
      ∀ k, k ∈ ttsLaunchesOf (advanceLoop w messages.length fuel index s).trace ↔
        (index < k ∧ k < messages.length ∧
          extractionOutcome w messages (k - 1) = .returned ()) := by
  intro fuel
  induction fuel with
  | zero =>
    intro index s hsum _
    refine ⟨by simp [advanceLoop, extractLaunchesOf_nil], fun k => ?_⟩
    simp only [advanceLoop, ttsLaunchesOf_nil, List.not_mem_nil, false_iff]
    omega
  | succ fuel ih =>
    intro index s hsum hinv
    obtain ⟨-, hinv2⟩ := advanceStep_synthesis_ok w messages index s hinv (by omega)
      (fun h => hsyn _ h)
    obtain ⟨ht, he, hl⟩ := advanceStep_launches_synthesis_ok w messages index s hinv (by omega)
      (fun h => hsyn _ h)
    obtain ⟨ih1, ih2⟩ := ih (index + 1) _ (by omega) hinv2
    simp only [advanceLoop, ttsLaunchesOf_append, extractLaunchesOf_append, he, ih1, ht]
    refine ⟨?_, fun k => ?_⟩
    · have hrest : (if extractionOutcome w messages index = .returned () ∧
            index + 1 < messages.length then [index + 1] else []) ++
          (if (advanceStep w messages.length index s).final.lipSyncPromises (index + 1) = none
            then List.range' (index + 1) fuel else List.range' (index + 1 + 1) (fuel - 1))
          = List.range' (index + 1) fuel := by
        by_cases hc : extractionOutcome w messages index = .returned () ∧
            index + 1 < messages.length
        · have hfuel : fuel = (fuel - 1) + 1 := by omega
          rw [if_pos hc, if_neg (fun h => (hl.1 h) hc)]
          conv_rhs => rw [hfuel, List.range'_succ]
          rfl
        · rw [if_neg hc, if_pos (hl.2 hc)]
          rfl
      rw [List.append_assoc, hrest]
      by_cases hn : s.lipSyncPromises index = none
      · simp [hn, List.range'_succ]
      · simp [hn]
    · rw [List.mem_append, ih2 k]
      by_cases hc : extractionOutcome w messages index = .returned () ∧
          index + 1 < messages.length
      · rw [if_pos hc, List.mem_singleton]
        constructor
        · rintro (rfl | ⟨h1, h2, h3⟩)
          · exact ⟨by omega, hc.2, by simpa using hc.1⟩
          · exact ⟨by omega, h2, h3⟩
        · rintro ⟨h1, h2, h3⟩
          by_cases hk : k = index + 1
          · exact Or.inl hk
          · exact Or.inr ⟨by omega, h2, h3⟩
      · rw [if_neg hc]
        simp only [List.not_mem_nil, false_or]
        constructor
        · rintro ⟨h1, h2, h3⟩
          exact ⟨by omega, h2, h3⟩
        · rintro ⟨h1, h2, h3⟩
          refine ⟨?_, h2, h3⟩
          by_contra hk
          have hk2 : k = index + 1 := by omega
          subst hk2
          exact hc ⟨by simpa using h3, h2⟩

/-- When no synthesis stage fails and, for two or more messages, the extraction
of index 0 succeeds: the extraction of every index is launched once, in order,
and the synthesis of an index `k >= 2` is launched exactly when the extraction
of index `k - 1` succeeded. -/
theorem launches_of_synthesis_ok (w : World) (messages : List Message)
    (hsyn : ∀ i, i < messages.length → ∃ b, ttsStage w i = .returned b)
    (hext0 : 2 ≤ messages.length → extractionOutcome w messages 0 = .returned ()) :
    extractLaunches (lipSyncStream w messages) = List.range messages.length ∧
    ∀ k, k ∈ ttsLaunches (lipSyncStream w messages) ↔
      (k < messages.length ∧
        (k ≤ 1 ∨ extractionOutcome w messages (k - 1) = .returned ())) := by
  unfold lipSyncStream ttsLaunches extractLaunches
  by_cases h0 : messages.length = 0
  · simp [h0, ttsLaunchesOf_nil, extractLaunchesOf_nil]
  · obtain ⟨b0, hb0⟩ := hsyn 0 (by omega)
    simp only [h0, if_false, hb0]
    have hout0 : (extractStage w 0 ⟨messages, PromiseMap.empty, PromiseMap.empty⟩).1
        = extractionOutcome w messages 0 := rfl
    by_cases h1 : messages.length > 1
    · obtain ⟨b1, hb1⟩ := hsyn 1 (by omega)
      have he0 := hext0 (by omega)
      rw [if_pos h1]
      simp only [hout0, he0, hb1]
      simp only [ttsLaunchesOf_append, ttsLaunchesOf_cons, ttsLaunchesOf_nil,
        extractLaunchesOf_append, extractLaunchesOf_cons, extractLaunchesOf_nil,
        List.append_nil, List.nil_append, List.singleton_append, List.cons_append]
      have key : ∀ s : PipelineState, AdvanceInv w messages 1 s →
          ¬ s.lipSyncPromises 1 = none →
          (0 :: 1 :: extractLaunchesOf
              (advanceLoop w messages.length (messages.length - 1) 1 s).trace
            = List.range messages.length) ∧
          ∀ k, k ∈ 0 :: 1 :: ttsLaunchesOf
              (advanceLoop w messages.length (messages.length - 1) 1 s).trace ↔
            (k < messages.length ∧
              (k ≤ 1 ∨ extractionOutcome w messages (k - 1) = .returned ())) := by
        intro s hinv hsome
        obtain ⟨hle, hlt⟩ := advanceLoop_launches_synthesis_ok w messages hsyn
          (messages.length - 1) 1 s (by omega) hinv
        rw [if_neg hsome] at hle
        refine ⟨?_, fun k => ?_⟩
        · have hl : messages.length = (messages.length - 1 - 1) + 1 + 1 := by omega
          rw [hle]
          conv_rhs => rw [List.range_eq_range', hl, List.range'_succ, List.range'_succ]
        · rw [List.mem_cons, List.mem_cons, hlt k]
          constructor
          · rintro (rfl | rfl | ⟨h2, h3, h4⟩)
            · exact ⟨by omega, Or.inl (by omega)⟩
            · exact ⟨by omega, Or.inl (by omega)⟩
            · exact ⟨h3, Or.inr h4⟩
          · rintro ⟨h2, h3 | h3⟩
            · rcases Nat.lt_or_ge k 1 with h | h
              · exact Or.inl (by omega)
              · exact Or.inr (Or.inl (by omega))
            · by_cases hk : k ≤ 1
              · rcases Nat.lt_or_ge k 1 with h | h
                · exact Or.inl (by omega)
                · exact Or.inr (Or.inl (by omega))
              · exact Or.inr (Or.inr ⟨by omega, h2, h3⟩)
      exact key _ (bootstrap_inv w messages b1 h1) (by simp [PromiseMap.set])
    · have hlen : messages.length = 1 := by omega
      rw [if_neg h1]
      cases (extractStage w 0 ⟨messages, PromiseMap.empty, PromiseMap.empty⟩).1 <;>
        simp only [ttsLaunchesOf_append, ttsLaunchesOf_cons, ttsLaunchesOf_nil,
          extractLaunchesOf_append, extractLaunchesOf_cons, extractLaunchesOf_nil,
          List.append_nil, List.nil_append, List.singleton_append, hlen] <;>
        exact ⟨rfl, fun k => by simp only [List.mem_singleton]; omega⟩

/-- C4, as the code runs: when no synthesis fails and extraction fails for
exactly one index `j` with `1 <= j` and `j + 1 < N`, every index is yielded
once, index `j` with `error` set and every other index with `error = null`;
but the turn of index `j` ends in its `catch` before the synthesis of `j + 1`
is launched, and the turn of `j + 1` launches the extraction of `j + 1` on
demand: index `j + 1` is yielded with `error = null` although no synthesis of
this run was launched for it. -/
theorem lipSyncStream_extract_failure_skips_next_synthesis (w : World)
    (messages : List Message) (j : Nat) (err : JsError)
    (hsyn : ∀ i, i < messages.length → ∃ b, ttsStage w i = .returned b)
    (hj : 1 ≤ j) (hjN : j + 1 < messages.length)
    (hfail : extractionOutcome w messages j = .threw err)
    (hothers : ∀ i, i < messages.length → i ≠ j →
      extractionOutcome w messages i = .returned ()) :
    (events (lipSyncStream w messages)).map (fun e => (e.index, e.error))
      = ((List.range messages.length).map fun i =>
          (i, if i = j then some err.message else none)) ∧
    (j + 1) ∈ extractLaunches (lipSyncStream w messages) ∧
    (j + 1) ∉ ttsLaunches (lipSyncStream w messages) := by
  have hext0 : 2 ≤ messages.length → extractionOutcome w messages 0 = .returned () :=
    fun _ => hothers 0 (by omega) (by omega)
  obtain ⟨hev, -⟩ := events_of_synthesis_ok w messages hsyn hext0
  obtain ⟨hle, hlt⟩ := launches_of_synthesis_ok w messages hsyn hext0
  refine ⟨?_, by rw [hle]; exact List.mem_range.2 hjN, ?_⟩
  · rw [hev, List.map_map]
    apply List.map_congr_left
    intro i hi
    by_cases hij : i = j
    · subst hij
      simp [hfail, errorOf]
    · simp [hothers i (List.mem_range.1 hi) hij, errorOf, hij]
  · intro hmem
    obtain ⟨-, h | h⟩ := (hlt (j + 1)).1 hmem
    · omega
    · rw [Nat.add_sub_cancel, hfail] at h
      cases h

/-- C4, on the input of the specification: four messages, extraction failing
for index 2 only.  Synthesis runs for 0, 1, 2 only, extraction for 0, 1, 2, 3. -/
theorem lipSyncStream_extract_failure_skips_next_synthesis_witness :
    (∀ i, i < (sampleMessages 4).length →
      ∃ b, ttsStage (sampleWorldExtractFails 2) i = .returned b) ∧
    extractionOutcome (sampleWorldExtractFails 2) (sampleMessages 4) 2
      = .threw (JsError.plain "Process exited with code 1") ∧
    (∀ i, i < (sampleMessages 4).length → i ≠ 2 →
      extractionOutcome (sampleWorldExtractFails 2) (sampleMessages 4) i = .returned ()) ∧
    ttsLaunches (lipSyncStream (sampleWorldExtractFails 2) (sampleMessages 4)) = [0, 1, 2] ∧
    extractLaunches (lipSyncStream (sampleWorldExtractFails 2) (sampleMessages 4))
      = [0, 1, 2, 3] ∧
    ((events (lipSyncStream (sampleWorldExtractFails 2) (sampleMessages 4))).map
        (fun e => (e.index, e.error))
      = ((List.range (sampleMessages 4).length).map fun i =>
          (i, if i = 2 then some (JsError.plain "Process exited with code 1").message
            else none)) ∧
    (2 + 1) ∈ extractLaunches (lipSyncStream (sampleWorldExtractFails 2) (sampleMessages 4)) ∧
    (2 + 1) ∉ ttsLaunches (lipSyncStream (sampleWorldExtractFails 2) (sampleMessages 4))) :=
  ⟨by decide, by decide, by decide, by decide, by decide,
    lipSyncStream_extract_failure_skips_next_synthesis (sampleWorldExtractFails 2)
      (sampleMessages 4) 2 (JsError.plain "Process exited with code 1")
      (by decide) (by decide) (by decide) (by decide) (by decide)⟩

/-- C5, as the code runs: when no synthesis fails, the extraction of index 0
succeeds and the extraction of an index `i` with `1 <= i` and `i + 1 < N`
fails, the extraction of index `i + 1` is launched (on demand, in the turn of
`i + 1`) although the synthesis of index `i + 1` is never launched. -/
theorem lipSyncStream_extraction_without_synthesis (w : World) (messages : List Message)
    (i : Nat) (err : JsError)
    (hsyn : ∀ k, k < messages.length → ∃ b, ttsStage w k = .returned b)
    (hext0 : extractionOutcome w messages 0 = .returned ())
    (hi : 1 ≤ i) (hiN : i + 1 < messages.length)
    (hfail : extractionOutcome w messages i = .threw err) :
    (i + 1) ∈ extractLaunches (lipSyncStream w messages) ∧
    (i + 1) ∉ ttsLaunches (lipSyncStream w messages) := by
  obtain ⟨hle, hlt⟩ := launches_of_synthesis_ok w messages hsyn (fun _ => hext0)
  refine ⟨by rw [hle]; exact List.mem_range.2 hiN, ?_⟩
  intro hmem
  obtain ⟨-, h | h⟩ := (hlt (i + 1)).1 hmem
  · omega
  · rw [Nat.add_sub_cancel, hfail] at h
    cases h

/-- C5, on samples: three messages, extraction failing for index 1, launch
synthesis for 0, 1 and extraction for 0, 1, 2; and three messages, synthesis
failing for index 2, launch the extraction of index 2 after that failure. -/
theorem lipSyncStream_extraction_without_synthesis_witness :
    (∀ k, k < (sampleMessages 3).length →
      ∃ b, ttsStage (sampleWorldExtractFails 1) k = .returned b) ∧
    extractionOutcome (sampleWorldExtractFails 1) (sampleMessages 3) 0 = .returned () ∧
    extractionOutcome (sampleWorldExtractFails 1) (sampleMessages 3) 1
      = .threw (JsError.plain "Process exited with code 1") ∧
    ttsLaunches (lipSyncStream (sampleWorldExtractFails 1) (sampleMessages 3)) = [0, 1] ∧
    extractLaunches (lipSyncStream (sampleWorldExtractFails 1) (sampleMessages 3))
      = [0, 1, 2] ∧
    ((1 + 1) ∈ extractLaunches (lipSyncStream (sampleWorldExtractFails 1) (sampleMessages 3)) ∧
      (1 + 1) ∉ ttsLaunches (lipSyncStream (sampleWorldExtractFails 1) (sampleMessages 3))) ∧
    ttsStage (sampleWorldSynthesisFails 2) 2 = .threw (JsError.plain "fetch failed") ∧
    (lipSyncStream (sampleWorldSynthesisFails 2) (sampleMessages 3)).trace.drop 14
      = [.launchTTS 2, .setTTSPromise 2, .awaitTTS 2,
          .emit ⟨1, enriched (sampleWorldSynthesisFails 2) (sampleMessages 3) 1, false,
            some "fetch failed"⟩,
          .launchExtract 2, .awaitExtract 2, .deleteLipSyncPromise 2,
          .emit ⟨2, enriched (sampleWorldSynthesisFails 2) (sampleMessages 3) 2, true,
            none⟩] :=
  ⟨by decide, by decide, by decide, by decide, by decide,
    lipSyncStream_extraction_without_synthesis (sampleWorldExtractFails 1) (sampleMessages 3)
      1 (JsError.plain "Process exited with code 1")
      (by decide) (by decide) (by decide) (by decide) (by decide),
    by decide, by decide⟩

/-! ## The bootstrap paths of `lipSyncStream` -/

/-- With one or more messages and synthesis of index 0 failing, the run is the
launch of that synthesis, its await and the terminal event. -/
theorem lipSyncStream_trace_of_synthesis0_failure (w : World) (messages : List Message)
    (err : JsError) (hlen : 1 ≤ messages.length) (hfail : ttsStage w 0 = .threw err) :
    lipSyncStream w messages
      = ⟨[.launchTTS 0, .awaitTTS 0,
            .emit ⟨0, messages.getD 0 default, true, some err.message⟩],
          ⟨messages, PromiseMap.empty, PromiseMap.empty⟩⟩ := by
  have h0 : ¬ messages.length = 0 := by omega
  unfold lipSyncStream
  simp only [h0, if_false, hfail]
  rfl

/-- With exactly one message and synthesis of index 0 succeeding, the run is the
two stages of index 0, awaited in turn, and one event; no map is touched. -/
theorem lipSyncStream_trace_of_single (w : World) (messages : List Message)
    (hlen : messages.length = 1) (hsyn : ∃ b, ttsStage w 0 = .returned b) :
    lipSyncStream w messages
      = ⟨[.launchTTS 0, .awaitTTS 0, .launchExtract 0, .awaitExtract 0,
            .emit ⟨0, enriched w messages 0, true, errorOf (extractionOutcome w messages 0)⟩],
          ⟨messages.set 0 (enriched w messages 0), PromiseMap.empty, PromiseMap.empty⟩⟩ := by
  obtain ⟨b0, hb0⟩ := hsyn
  have h0 : ¬ messages.length = 0 := by omega
  have h1 : ¬ messages.length > 1 := by omega
  have hself0 : messageAt (extractStage w 0 ⟨messages, PromiseMap.empty, PromiseMap.empty⟩).2 0
      = enriched w messages 0 :=
    extractStage_messageAt_self w 0 _ (by simp only []; omega)
  have hout0 : (extractStage w 0 ⟨messages, PromiseMap.empty, PromiseMap.empty⟩).1
      = extractionOutcome w messages 0 := rfl
  have hst : (extractStage w 0 ⟨messages, PromiseMap.empty, PromiseMap.empty⟩).2
      = ⟨messages.set 0 (enriched w messages 0), PromiseMap.empty, PromiseMap.empty⟩ := rfl
  have hself1 : messageAt
      ⟨messages.set 0 (enriched w messages 0), PromiseMap.empty, PromiseMap.empty⟩ 0
      = enriched w messages 0 := hself0
  unfold lipSyncStream
  simp only [h0, if_false, hb0, if_neg h1, hout0, hst]
  cases hout : extractionOutcome w messages 0 <;> simp [errorOf, hself1]

/-- C11: for one or more messages, when the synthesis stage of index 0 fails,
`lipSyncStream` yields exactly one event,
`{index: 0, message: messages[0], done: true, error: the failure's message}`,
launches no extraction stage and no synthesis stage other than that of index
0, leaves the messages and both maps untouched, and ends. -/
theorem lipSyncStream_synthesis0_failure (w : World) (messages : List Message)
    (err : JsError) (hlen : 1 ≤ messages.length) (hfail : ttsStage w 0 = .threw err) :
    events (lipSyncStream w messages)
      = [⟨0, messages.getD 0 default, true, some err.message⟩] ∧
    extractLaunches (lipSyncStream w messages) = [] ∧
    ttsLaunches (lipSyncStream w messages) = [0] ∧
    (lipSyncStream w messages).trace
      = [.launchTTS 0, .awaitTTS 0,
          .emit ⟨0, messages.getD 0 default, true, some err.message⟩] ∧
    (lipSyncStream w messages).final.messages = messages := by
  rw [lipSyncStream_trace_of_synthesis0_failure w messages err hlen hfail]
  simp [events, extractLaunches, ttsLaunches, eventsOf, extractLaunchesOf, ttsLaunchesOf]

/-- C11, on a sample: two messages, synthesis of index 0 failing on all ten
attempts. -/
theorem lipSyncStream_synthesis0_failure_witness :
    1 ≤ (sampleMessages 2).length ∧
    ttsStage (sampleWorldSynthesisFails 0) 0 = .threw (JsError.plain "fetch failed") ∧
    events (lipSyncStream (sampleWorldSynthesisFails 0) (sampleMessages 2))
      = [⟨0, (sampleMessages 2).getD 0 default, true,
          some (JsError.plain "fetch failed").message⟩] :=
  ⟨by decide, by decide,
    (lipSyncStream_synthesis0_failure (sampleWorldSynthesisFails 0) (sampleMessages 2)
      (JsError.plain "fetch failed") (by decide) (by decide)).1⟩

/-- C12, refuted as stated: with one message, synthesis succeeding and
extraction failing, the event carries the extraction's error, not `null`. -/
theorem lipSyncStream_single_extraction_failure_sets_error :
    (sampleMessages 1).length = 1 ∧
    ttsStage (sampleWorldExtractFails 0) 0 = .returned true ∧
    extractionOutcome (sampleWorldExtractFails 0) (sampleMessages 1) 0
      = .threw (JsError.plain "Process exited with code 1") ∧
    (events (lipSyncStream (sampleWorldExtractFails 0) (sampleMessages 1))).map
        (fun e => (e.index, e.done, e.error))
      = [(0, true, some "Process exited with code 1")] := by
  decide

/-- C12, amended: for a single message whose synthesis succeeds,
`lipSyncStream` yields exactly one event, of index 0 and with `done = true`;
its `error` is `null` when the extraction of index 0 succeeds and is the
message of the extraction's failure when it fails. -/
theorem lipSyncStream_single_event_error (w : World) (messages : List Message)
    (hlen : messages.length = 1) (hsyn : ∃ b, ttsStage w 0 = .returned b) :
    events (lipSyncStream w messages)
      = [⟨0, enriched w messages 0, true, errorOf (extractionOutcome w messages 0)⟩] ∧
    (extractionOutcome w messages 0 = .returned () →
      (events (lipSyncStream w messages)).map (fun e => e.error) = [none]) ∧
    (∀ err, extractionOutcome w messages 0 = .threw err →
      (events (lipSyncStream w messages)).map (fun e => e.error) = [some err.message]) := by
  rw [lipSyncStream_trace_of_single w messages hlen hsyn]
  refine ⟨by simp [events, eventsOf], fun h => ?_, fun err h => ?_⟩ <;>
    simp [events, eventsOf, h, errorOf]

/-- C12 amended, on a sample: one message, extraction failing. -/
theorem lipSyncStream_single_event_error_witness :
    (sampleMessages 1).length = 1 ∧
    (∃ b, ttsStage (sampleWorldExtractFails 0) 0 = .returned b) ∧
    events (lipSyncStream (sampleWorldExtractFails 0) (sampleMessages 1))
      = [⟨0, enriched (sampleWorldExtractFails 0) (sampleMessages 1) 0, true,
          errorOf (extractionOutcome (sampleWorldExtractFails 0) (sampleMessages 1) 0)⟩] :=
  ⟨by decide, by decide,
    (lipSyncStream_single_event_error (sampleWorldExtractFails 0) (sampleMessages 1)
      (by decide) (by decide)).1⟩

/-- C13: for a single message whose synthesis succeeds, `lipSyncStream` launches
the synthesis stage once and the extraction stage once, both for index 0 and
for no other index, writes neither `ttsPromises` nor `lipSyncPromises`, and
yields exactly one event, which has index 0 and `done = true`. -/
theorem lipSyncStream_single_path (w : World) (messages : List Message)
    (hlen : messages.length = 1) (hsyn : ∃ b, ttsStage w 0 = .returned b) :
    ttsLaunches (lipSyncStream w messages) = [0] ∧
    extractLaunches (lipSyncStream w messages) = [0] ∧
    mapWritesOf (lipSyncStream w messages).trace = [] ∧
    (lipSyncStream w messages).final.ttsPromises = PromiseMap.empty ∧
    (lipSyncStream w messages).final.lipSyncPromises = PromiseMap.empty ∧
    (events (lipSyncStream w messages)).map (fun e => (e.index, e.done)) = [(0, true)] := by
  rw [lipSyncStream_trace_of_single w messages hlen hsyn]
  simp [events, extractLaunches, ttsLaunches, eventsOf, extractLaunchesOf, ttsLaunchesOf,
    mapWritesOf]

/-- C13, on a sample: one message, no failure. -/
theorem lipSyncStream_single_path_witness :
    (sampleMessages 1).length = 1 ∧
    (∃ b, ttsStage sampleWorldOk 0 = .returned b) ∧
    ttsLaunches (lipSyncStream sampleWorldOk (sampleMessages 1)) = [0] ∧
    extractLaunches (lipSyncStream sampleWorldOk (sampleMessages 1)) = [0] :=
  ⟨by decide, by decide,
    (lipSyncStream_single_path sampleWorldOk (sampleMessages 1) (by decide) (by decide)).1,
    (lipSyncStream_single_path sampleWorldOk (sampleMessages 1) (by decide) (by decide)).2.1⟩

/-! ## processMessageComplete -/

/-- The function `processMessageComplete` writes no field other than `audio`
and `lipsync`. -/
theorem processMessageComplete_keeps_fields (env : ExtractEnv) (message : Message) :
    (processMessageComplete env message).1.text = message.text ∧
    (processMessageComplete env message).1.facialExpression = message.facialExpression ∧
    (processMessageComplete env message).1.animation = message.animation := by
  unfold processMessageComplete
  cases env.getPhonemes <;> cases env.audioFileToBase64 <;> cases env.readJsonTranscript <;>
    cases env.wavExistsRelative || env.wavExistsResolved <;>
    cases env.jsonExistsRelative || env.jsonExistsResolved <;> simp

/-- C19, refuted as stated: when the extraction call succeeds and the read of
the audio bytes fails, the stage fails with the read's error (and sets no
field); when the audio is read and the read of the viseme track fails, the
stage fails as well, the `audio` field staying set. -/
theorem processMessageComplete_read_failure_fails :
    processMessageComplete sampleExtractAudioReadFails ⟨"text0", "smile", "Idle", none, none⟩
      = (⟨"text0", "smile", "Idle", none, none⟩,
          .threw (JsError.plain "ENOENT: no such file or directory")) ∧
    processMessageComplete sampleExtractJsonReadFails ⟨"text0", "smile", "Idle", none, none⟩
      = (⟨"text0", "smile", "Idle", some "wav", none⟩,
          .threw (JsError.plain "Unexpected end of JSON input")) := by
  decide

/-- C19, amended: in `processMessageComplete`, when the viseme-extraction call
succeeds, a file that the existence check does not find is skipped, and when
every read that is attempted succeeds the stage returns the message with
`audio` set exactly when the audio file was found and `lipsync` set exactly
when the viseme file was found; when an attempted read fails, the stage fails
with that read's error, the message keeping `audio` when it was set before. -/
theorem processMessageComplete_reads (env : ExtractEnv) (message : Message)
    (hphon : env.getPhonemes = .returned ()) :
    (∀ audio lipsync,
      env.audioFileToBase64 = .returned audio → env.readJsonTranscript = .returned lipsync →
      processMessageComplete env message
        = ({ message with
              audio := if env.wavExistsRelative || env.wavExistsResolved
                then some audio else message.audio
              lipsync := if env.jsonExistsRelative || env.jsonExistsResolved
                then some lipsync else message.lipsync }, .returned ())) ∧
    ((env.wavExistsRelative || env.wavExistsResolved) = false →
      (env.jsonExistsRelative || env.jsonExistsResolved) = false →
      processMessageComplete env message = (message, .returned ())) ∧
    (∀ err, (env.wavExistsRelative || env.wavExistsResolved) = true →
      env.audioFileToBase64 = .threw err →
      processMessageComplete env message = (message, .threw err)) ∧
    (∀ err audio, (env.wavExistsRelative || env.wavExistsResolved) = true →
      env.audioFileToBase64 = .returned audio →
      (env.jsonExistsRelative || env.jsonExistsResolved) = true →
      env.readJsonTranscript = .threw err →
      processMessageComplete env message
        = ({ message with audio := some audio }, .threw err)) ∧
    (∀ err, (env.wavExistsRelative || env.wavExistsResolved) = false →
      (env.jsonExistsRelative || env.jsonExistsResolved) = true →
      env.readJsonTranscript = .threw err →
      processMessageComplete env message = (message, .threw err)) := by
  refine ⟨?_, ?_, ?_, ?_, ?_⟩
  · intro audio lipsync ha hl
    unfold processMessageComplete
    cases hw : env.wavExistsRelative || env.wavExistsResolved <;>
      cases hj : env.jsonExistsRelative || env.jsonExistsResolved <;>
      simp [hphon, ha, hl]
  · intro hw hj
    unfold processMessageComplete
    simp [hphon, hw, hj]
  · intro err hw ha
    unfold processMessageComplete
    simp [hphon, hw, ha]
  · intro err audio hw ha hj hl
    unfold processMessageComplete
    simp [hphon, hw, ha, hj, hl]
  · intro err hw hj hl
    unfold processMessageComplete
    simp [hphon, hw, hj, hl]

/-- C19 amended, on samples: a missing viseme file is skipped and the stage
returns; a failing read of the audio file makes the stage fail. -/
theorem processMessageComplete_reads_witness :
    sampleExtractNoJson.getPhonemes = .returned () ∧
    processMessageComplete sampleExtractNoJson ⟨"text0", "smile", "Idle", none, none⟩
      = (⟨"text0", "smile", "Idle", some "wav", none⟩, .returned ()) ∧
    processMessageComplete sampleExtractAudioReadFails ⟨"text0", "smile", "Idle", none, none⟩
      = (⟨"text0", "smile", "Idle", none, none⟩,
          .threw (JsError.plain "ENOENT: no such file or directory")) :=
  ⟨rfl, by decide,
    (processMessageComplete_reads sampleExtractAudioReadFails
      ⟨"text0", "smile", "Idle", none, none⟩ rfl).2.2.1 _ rfl rfl⟩

/-! ## Events of the advance loop, whatever the stage outcomes -/

theorem lookupLipSync_events (w : World) (index : Nat) (s : PipelineState) :
    eventsOf (lookupLipSync w index s).1 = [] := by
  unfold lookupLipSync
  cases s.lipSyncPromises index <;> simp [eventsOf]

theorem lookupTTS_events (w : World) (nextIndex : Nat) (s : PipelineState) :
    eventsOf (lookupTTS w nextIndex s).1 = [] := by
  unfold lookupTTS
  cases s.ttsPromises nextIndex <;> simp [eventsOf]

/-- One turn of the loop yields one event for `index`, or, when `index` is not
the last index, an event with `error = null` followed by an event with `error`
set, both for `index`; `done` is `index === messages.length - 1` on each. -/
theorem advanceStep_events_shape (w : World) (length index : Nat) (s : PipelineState) :
    ∃ e1 : OrderedEvent, e1.index = index ∧ e1.done = decide (index = length - 1) ∧
      (eventsOf (advanceStep w length index s).trace = [e1] ∨
        (index < length - 1 ∧ e1.error = none ∧
          ∃ e2 : OrderedEvent, e2.index = index ∧ e2.done = decide (index = length - 1) ∧
            e2.error.isSome = true ∧
            eventsOf (advanceStep w length index s).trace = [e1, e2])) := by
  have hf := lookupLipSync_events w index s
  unfold advanceStep
  generalize lookupLipSync w index s = found at hf
  obtain ⟨t1, p, s1⟩ := found
  simp only at hf ⊢
  cases p with
  | threw error =>
    exact ⟨⟨index, messageAt s1 index, decide (index = length - 1), some error.message⟩,
      rfl, rfl, Or.inl (by simp [eventsOf_append, eventsOf_cons, eventsOf_nil, hf])⟩
  | returned u =>
    simp only []
    by_cases hnext : index < length - 1
    · rw [if_pos hnext]
      have hn := lookupTTS_events w (index + 1)
        { s1 with lipSyncPromises := s1.lipSyncPromises.delete index }
      generalize lookupTTS w (index + 1)
        { s1 with lipSyncPromises := s1.lipSyncPromises.delete index } = next at hn
      obtain ⟨t2, q, s3⟩ := next
      simp only at hn ⊢
      cases q with
      | threw error =>
        exact ⟨⟨index, messageAt { s1 with lipSyncPromises := s1.lipSyncPromises.delete index }
            index, decide (index = length - 1), none⟩, rfl, rfl,
          Or.inr ⟨hnext, rfl, ⟨index, messageAt s3 index, decide (index = length - 1),
            some error.message⟩, rfl, rfl, rfl,
            by simp [eventsOf_append, eventsOf_cons, eventsOf_nil, hf, hn]⟩⟩
      | returned b =>
        exact ⟨⟨index, messageAt { s1 with lipSyncPromises := s1.lipSyncPromises.delete index }
            index, decide (index = length - 1), none⟩, rfl, rfl,
          Or.inl (by simp [eventsOf_append, eventsOf_cons, eventsOf_nil, hf, hn])⟩
    · rw [if_neg hnext]
      exact ⟨⟨index, messageAt { s1 with lipSyncPromises := s1.lipSyncPromises.delete index }
          index, decide (index = length - 1), none⟩, rfl, rfl,
        Or.inl (by simp [eventsOf_append, eventsOf_cons, eventsOf_nil, hf])⟩

/-- The turn of the last index ends with its only event. -/
theorem advanceStep_last_turn (w : World) (length index : Nat) (s : PipelineState)
    (hlast : ¬ index < length - 1) :
    ∃ t e, (advanceStep w length index s).trace = t ++ [.emit e] ∧ eventsOf t = [] ∧
      e.index = index ∧ e.done = decide (index = length - 1) := by
  have hf := lookupLipSync_events w index s
  unfold advanceStep
  generalize lookupLipSync w index s = found at hf
  obtain ⟨t1, p, s1⟩ := found
  simp only at hf ⊢
  cases p with
  | threw error =>
    exact ⟨t1 ++ [.awaitExtract index],
      ⟨index, messageAt s1 index, decide (index = length - 1), some error.message⟩,
      by simp, by simp [eventsOf_append, eventsOf_cons, eventsOf_nil, hf], rfl, rfl⟩
  | returned u =>
    simp only [if_neg hlast]
    exact ⟨t1 ++ [.awaitExtract index, .deleteLipSyncPromise index],
      ⟨index, messageAt { s1 with lipSyncPromises := s1.lipSyncPromises.delete index } index,
        decide (index = length - 1), none⟩,
      by simp, by simp [eventsOf_append, eventsOf_cons, eventsOf_nil, hf], rfl, rfl⟩

/-- The loop, entered with at least one turn left, ends with the event of the
last index, which has `done = true`; no event before it has. -/
theorem advanceLoop_done_last (w : World) (length : Nat) :
    ∀ fuel index s, index + fuel + 1 = length →
      ∃ t last, (advanceLoop w length (fuel + 1) index s).trace = t ++ [.emit last] ∧
        (∀ e, e ∈ eventsOf t → e.done = false) ∧ last.done = true ∧
        last.index = length - 1 := by
  intro fuel
  induction fuel with
  | zero =>
    intro index s hsum
    obtain ⟨t, e, ht, hev, hi, hd⟩ := advanceStep_last_turn w length index s (by omega)
    refine ⟨t, e, by simp [advanceLoop, ht], by simp [hev], ?_, by omega⟩
    rw [hd]; simp; omega
  | succ fuel ih =>
    intro index s hsum
    obtain ⟨t, last, ht, hpre, hd, hi⟩ := ih (index + 1) (advanceStep w length index s).final
      (by omega)
    obtain ⟨e1, -, hd1, hshape⟩ := advanceStep_events_shape w length index s
    have hfalse : decide (index = length - 1) = false := by
      simp only [decide_eq_false_iff_not]; omega
    refine ⟨(advanceStep w length index s).trace ++ t, last, ?_, ?_, hd, hi⟩
    · rw [advanceLoop]
      simp only [ht, List.append_assoc]
    · intro e he
      rw [eventsOf_append, List.mem_append] at he
      rcases he with he | he
      · rcases hshape with h | ⟨-, -, e2, -, hd2, -, h⟩
        · rw [h, List.mem_singleton] at he
          rw [he, hd1, hfalse]
        · rw [h] at he
          simp only [List.mem_cons, List.mem_singleton, List.not_mem_nil, or_false] at he
          rcases he with he | he
          · rw [he, hd1, hfalse]
          · rw [he, hd2, hfalse]
      · exact hpre e he

/-- Every run over one or more messages ends with an event that has
`done = true`, the only one that has: the event of the last index, or an event
of index 0 whose `error` is the failure of synthesis 0, extraction 0 or
synthesis 1. -/
theorem lipSyncStream_done_last (w : World) (messages : List Message)
    (hlen : 1 ≤ messages.length) :
    ∃ t last, (lipSyncStream w messages).trace = t ++ [.emit last] ∧
      (∀ e, e ∈ eventsOf t → e.done = false) ∧ last.done = true ∧
      (last.index = messages.length - 1 ∨
        (last.index = 0 ∧ ∃ msg, last.error = some msg ∧
          (errorOf (ttsStage w 0) = some msg ∨
            errorOf (extractionOutcome w messages 0) = some msg ∨
            errorOf (ttsStage w 1) = some msg))) := by
  have h0 : ¬ messages.length = 0 := by omega
  have hout0 : (extractStage w 0 ⟨messages, PromiseMap.empty, PromiseMap.empty⟩).1
      = extractionOutcome w messages 0 := rfl
  unfold lipSyncStream
  simp only [h0, if_false]
  cases hs0 : ttsStage w 0 with
  | threw error =>
    exact ⟨[.launchTTS 0, .awaitTTS 0], _, rfl, by simp [eventsOf], rfl,
      Or.inr ⟨rfl, error.message, rfl, Or.inl rfl⟩⟩
  | returned b0 =>
    simp only []
    by_cases h1 : messages.length > 1
    · rw [if_pos h1]
      simp only [hout0]
      cases he0 : extractionOutcome w messages 0 with
      | threw error =>
        exact ⟨_, _, rfl, by simp [eventsOf], rfl,
          Or.inr ⟨rfl, error.message, rfl, Or.inr (Or.inl rfl)⟩⟩
      | returned u =>
        simp only []
        cases hs1 : ttsStage w 1 with
        | threw error =>
          simp only [messageAt]
          refine ⟨[.launchTTS 0, .awaitTTS 0, .launchExtract 0, .launchTTS 1,
              .setTTSPromise 1, .awaitExtract 0] ++
              [.emit ⟨0, (extractStage w 0
                ⟨messages, PromiseMap.empty, PromiseMap.empty⟩).2.messages.getD 0 default,
                false, none⟩, .awaitTTS 1],
            ⟨0, (extractStage w 0
                ⟨messages, PromiseMap.empty, PromiseMap.empty⟩).2.messages.getD 0 default,
              true, some error.message⟩, by simp, ?_, rfl,
            Or.inr ⟨rfl, error.message, rfl, Or.inr (Or.inr rfl)⟩⟩
          intro e he
          simp [eventsOf] at he
          rw [he]
        | returned b1 =>
          simp only []
          have key : ∀ s : PipelineState, ∀ pre : List Action,
              (∀ e, e ∈ eventsOf pre → e.done = false) →
              ∃ t last,
                pre ++ (advanceLoop w messages.length (messages.length - 1) 1 s).trace
                  = t ++ [.emit last] ∧
                (∀ e, e ∈ eventsOf t → e.done = false) ∧ last.done = true ∧
                (last.index = messages.length - 1 ∨
                  (last.index = 0 ∧ ∃ msg, last.error = some msg ∧
                    (errorOf (Settled.returned b0 : Settled Bool) = some msg ∨
                      errorOf (Settled.returned u : Settled Unit) = some msg ∨
                      errorOf (Settled.returned b1 : Settled Bool) = some msg))) := by
            intro s pre hpre
            have hfuel : messages.length - 1 = (messages.length - 2) + 1 := by omega
            obtain ⟨t, last, ht, hev, hd, hi⟩ :=
              advanceLoop_done_last w messages.length (messages.length - 2) 1 s (by omega)
            rw [← hfuel] at ht
            refine ⟨pre ++ t, last, by rw [ht, List.append_assoc], ?_, hd, Or.inl hi⟩
            intro e he
            rw [eventsOf_append, List.mem_append] at he
            rcases he with he | he
            · exact hpre e he
            · exact hev e he
          refine key _ _ ?_
          intro e he
          simp [eventsOf] at he
          rw [he]
    · rw [if_neg h1]
      have hN : messages.length - 1 = 0 := by omega
      cases (extractStage w 0 ⟨messages, PromiseMap.empty, PromiseMap.empty⟩).1 with
      | threw error =>
        exact ⟨[.launchTTS 0, .awaitTTS 0, .launchExtract 0, .awaitExtract 0], _, rfl,
          by simp [eventsOf], rfl, Or.inl hN.symm⟩
      | returned u =>
        exact ⟨[.launchTTS 0, .awaitTTS 0, .launchExtract 0, .awaitExtract 0], _, rfl,
          by simp [eventsOf], rfl, Or.inl hN.symm⟩

/-- C20: for one or more messages and any stage outcomes, a run of
`lipSyncStream` yields at least one event; exactly one event has `done = true`;
it is the last event (and the last step of the run); and it is the event of
index N-1 or an event of index 0 whose `error` is set to the failure of
synthesis 0, extraction 0 or synthesis 1. -/
theorem lipSyncStream_done_exactly_once (w : World) (messages : List Message)
    (hlen : 1 ≤ messages.length) :
    events (lipSyncStream w messages) ≠ [] ∧
    ((events (lipSyncStream w messages)).filter fun e => e.done).length = 1 ∧
    ∃ last, (events (lipSyncStream w messages)).getLast? = some last ∧
      (lipSyncStream w messages).trace.getLast? = some (.emit last) ∧
      last.done = true ∧
      (∀ e, e ∈ (events (lipSyncStream w messages)).dropLast → e.done = false) ∧
      (last.index = messages.length - 1 ∨
        (last.index = 0 ∧ ∃ msg, last.error = some msg ∧
          (errorOf (ttsStage w 0) = some msg ∨
            errorOf (extractionOutcome w messages 0) = some msg ∨
            errorOf (ttsStage w 1) = some msg))) := by
  obtain ⟨t, last, ht, hpre, hd, hlast⟩ := lipSyncStream_done_last w messages hlen
  have hev : events (lipSyncStream w messages) = eventsOf t ++ [last] := by
    rw [events, ht, eventsOf_append, eventsOf_cons, eventsOf_nil]
    rfl
  have hfilter : (eventsOf t).filter (fun e => e.done) = [] := by
    rw [List.filter_eq_nil_iff]
    intro e he
    simp [hpre e he]
  refine ⟨by rw [hev]; simp, ?_, last, by rw [hev]; simp, by rw [ht]; simp, hd, ?_, hlast⟩
  · rw [hev, List.filter_append, hfilter]
    simp [hd]
  · intro e he
    rw [hev, List.dropLast_concat] at he
    exact hpre e he

/-- C20, on a sample: three messages, synthesis of index 1 failing; the run
yields index 0 twice and the second event is the only one with `done`. -/
theorem lipSyncStream_done_exactly_once_witness :
    1 ≤ (sampleMessages 3).length ∧
    (events (lipSyncStream (sampleWorldSynthesisFails 1) (sampleMessages 3))).map
        (fun e => (e.index, e.done, e.error))
      = [(0, false, none), (0, true, some "fetch failed")] ∧
    ((events (lipSyncStream (sampleWorldSynthesisFails 1) (sampleMessages 3))).filter
      fun e => e.done).length = 1 :=
  ⟨by decide, by decide,
    (lipSyncStream_done_exactly_once (sampleWorldSynthesisFails 1) (sampleMessages 3)
      (by decide)).2.1⟩

/-! ## Lemmas on batch mode -/

theorem mem_setAdd (s : List Nat) (x k : Nat) : k ∈ setAdd s x ↔ k ∈ s ∨ k = x := by
  unfold setAdd
  by_cases h : x ∈ s
  · rw [if_pos h]
    constructor
    · exact Or.inl
    · rintro (hk | rfl)
      · exact hk
      · exact h
  · rw [if_neg h]
    simp

theorem nodup_setAdd (s : List Nat) (x : Nat) (h : s.Nodup) : (setAdd s x).Nodup := by
  unfold setAdd
  by_cases hx : x ∈ s
  · rw [if_pos hx]; exact h
  · rw [if_neg hx]
    exact List.nodup_append.2 ⟨h, List.nodup_singleton x, by
      intro a ha hb
      rw [List.mem_singleton] at hb
      exact hx (hb ▸ ha)⟩

theorem recordConversion_results (w : World) (acc : ParallelRun) (index : Nat) :
    (recordConversion w acc index).results
      = fun k => if k = index then some (conversionOf w index) else acc.results k := by
  unfold recordConversion conversionOf
  cases ttsStage w index with
  | threw e => rfl
  | returned b => cases b <;> rfl

theorem recordConversion_succ (w : World) (acc : ParallelRun) (index : Nat) :
    (recordConversion w acc index).successfulConversions
      = if ttsStage w index = .returned true then setAdd acc.successfulConversions index
        else acc.successfulConversions := by
  unfold recordConversion
  cases ttsStage w index with
  | threw e => simp
  | returned b => cases b <;> simp

theorem recordConversion_batches (w : World) (acc : ParallelRun) (index : Nat) :
    (recordConversion w acc index).batches = acc.batches := by
  unfold recordConversion
  cases ttsStage w index with
  | threw e => rfl
  | returned b => cases b <;> rfl

theorem recordConversion_steps (w : World) (acc : ParallelRun) (index : Nat) :
    (recordConversion w acc index).steps = acc.steps := by
  unfold recordConversion
  cases ttsStage w index with
  | threw e => rfl
  | returned b => cases b <;> rfl

/-- The members of a group settling in any order: the map gets the outcome of
each, the set gets those that succeeded, and no element enters the set twice. -/
theorem foldl_recordConversion (w : World) (order : List Nat) :
    ∀ acc : ParallelRun,
      (∀ k, (order.foldl (recordConversion w) acc).results k
        = if k ∈ order then some (conversionOf w k) else acc.results k) ∧
      (∀ k, k ∈ (order.foldl (recordConversion w) acc).successfulConversions ↔
        (k ∈ acc.successfulConversions ∨ (k ∈ order ∧ ttsStage w k = .returned true))) ∧
      (acc.successfulConversions.Nodup →
        (order.foldl (recordConversion w) acc).successfulConversions.Nodup) := by
  induction order with
  | nil => intro acc; simp
  | cons x rest ih =>
    intro acc
    obtain ⟨h1, h2, h3⟩ := ih (recordConversion w acc x)
    simp only [List.foldl_cons]
    refine ⟨fun k => ?_, fun k => ?_, fun hnd => ?_⟩
    · rw [h1 k, recordConversion_results]
      by_cases hk : k ∈ rest
      · simp [hk]
      · by_cases hx : k = x
        · simp [hx]
        · simp [hk, hx]
    · rw [h2 k, recordConversion_succ]
      by_cases hs : ttsStage w x = .returned true
      · rw [if_pos hs, mem_setAdd]
        constructor
        · rintro ((h | h) | h)
          · exact Or.inl h
          · exact Or.inr ⟨by simp [h], h ▸ hs⟩
          · exact Or.inr ⟨by simp [h.1], h.2⟩
        · rintro (h | ⟨h, hk⟩)
          · exact Or.inl (Or.inl h)
          · rcases List.mem_cons.1 h with h | h
            · exact Or.inl (Or.inr h)
            · exact Or.inr ⟨h, hk⟩
      · rw [if_neg hs]
        constructor
        · rintro (h | h)
          · exact Or.inl h
          · exact Or.inr ⟨by simp [h.1], h.2⟩
        · rintro (h | ⟨h, hk⟩)
          · exact Or.inl h
          · rcases List.mem_cons.1 h with h | h
            · exact absurd (h ▸ hk) hs
            · exact Or.inr ⟨h, hk⟩
    · apply h3
      rw [recordConversion_succ]
      by_cases hs : ttsStage w x = .returned true
      · rw [if_pos hs]; exact nodup_setAdd _ _ hnd
      · rw [if_neg hs]; exact hnd

/-- The value of `messages.slice(i, i + TTS_CONCURRENCY)` for `i` in range: one
message when `i` is the last position, two otherwise. -/
theorem slice_shape (messages : List Message) (i : Nat) (hi : i < messages.length) :
    ((messages.drop i).take TTS_CONCURRENCY = [messages.getD i default] ∧
      i + 1 = messages.length) ∨
    ((messages.drop i).take TTS_CONCURRENCY
        = [messages.getD i default, messages.getD (i + 1) default] ∧
      i + 1 < messages.length) := by
  have h1 : messages.getD i default = messages[i] := by
    simp [List.getD_eq_getElem?_getD, hi]
  have hd1 : messages.drop i = messages[i] :: messages.drop (i + 1) :=
    List.drop_eq_getElem_cons hi
  by_cases h : i + 1 < messages.length
  · right
    have h2 : messages.getD (i + 1) default = messages[i + 1] := by
      simp [List.getD_eq_getElem?_getD, h]
    have hd2 : messages.drop (i + 1) = messages[i + 1] :: messages.drop (i + 1 + 1) :=
      List.drop_eq_getElem_cons h
    rw [hd1, hd2, h1, h2]
    exact ⟨rfl, h⟩
  · left
    have hd : messages.drop (i + 1) = [] := List.drop_eq_nil_of_le (by omega)
    rw [hd1, hd, h1]
    exact ⟨rfl, by omega⟩

theorem batchTTSLaunches_append (t u : List BatchStep) :
    batchTTSLaunches (t ++ u) = batchTTSLaunches t ++ batchTTSLaunches u := by
  simp [batchTTSLaunches]

theorem batchExtractLaunches_append (t u : List BatchStep) :
    batchExtractLaunches (t ++ u) = batchExtractLaunches t ++ batchExtractLaunches u := by
  simp [batchExtractLaunches]

/-- Where a step of `t ++ g` stands: inside `t`, or inside `g` after all of
`t`. -/
theorem split_append (t g pre post : List BatchStep) (x : BatchStep)
    (h : t ++ g = pre ++ x :: post) :
    (∃ c, t = pre ++ x :: c) ∨ (∃ p, pre = t ++ p ∧ g = p ++ x :: post) := by
  rcases List.append_eq_append_iff.1 h with ⟨a, ha, hg⟩ | ⟨c, hc, hx⟩
  · exact Or.inr ⟨a, ha, hg⟩
  · cases c with
    | nil =>
      right
      refine ⟨[], by simpa using hc.symm, by simpa using hx.symm⟩
    | cons y c =>
      left
      simp only [List.cons_append, List.cons.injEq] at hx
      exact ⟨c, by rw [hc, hx.1]⟩

theorem mem_batchTTSLaunches (t : List BatchStep) (b : Nat) (m : Message) :
    (b, m) ∈ batchTTSLaunches t ↔ BatchStep.startTTS b m ∈ t := by
  unfold batchTTSLaunches
  rw [List.mem_filterMap]
  constructor
  · rintro ⟨a, ha, h⟩
    cases a <;> simp at h
    obtain ⟨rfl, rfl⟩ := h
    exact ha
  · intro h
    exact ⟨_, h, rfl⟩

theorem batchTTSLaunches_settles (order : List Nat) :
    batchTTSLaunches (order.map BatchStep.settleTTS) = [] := by
  induction order with
  | nil => rfl
  | cons x rest ih =>
    simp only [List.map_cons]
    rw [← ih]
    rfl

theorem batchExtractLaunches_settles (order : List Nat) :
    batchExtractLaunches (order.map BatchStep.settleTTS) = [] := by
  induction order with
  | nil => rfl
  | cons x rest ih =>
    simp only [List.map_cons]
    rw [← ih]
    rfl

/-- One turn of the loop of `processTTSInParallel` keeps `ParallelInv`, whatever
the order in which the members of the group settle. -/
theorem turn_inv (w : World) (messages : List Message) (i : Nat) (acc : ParallelRun)
    (batch : List Message) (pause launchSteps : List BatchStep) (order : List Nat)
    (hinv : ParallelInv w messages i acc) (hi : i < messages.length)
    (hbatch : (messages.drop i).take 2 = batch)
    (hpause : ∀ a, a ∈ pause → ∃ ms, a = BatchStep.delay ms)
    (hlaunch : batchTTSLaunches launchSteps = batch.enumFrom i)
    (hnosettle : ∀ k, BatchStep.settleTTS k ∉ launchSteps)
    (hnoextract : batchExtractLaunches launchSteps = [])
    (horder : ∀ k, k ∈ order ↔ (i ≤ k ∧ k < i + batch.length)) :
    ParallelInv w messages (i + 2)
      { order.foldl (recordConversion w) acc with
        batches := acc.batches ++ [batch]
        steps := acc.steps ++ pause ++ launchSteps ++ order.map .settleTTS } := by
  obtain ⟨heven, hl, hs, ho, hbf, hbl, hbfull, hbinit, hne, hnd, hsm, hres⟩ := hinv
  obtain ⟨f1, f2, f3⟩ := foldl_recordConversion w order acc
  have hlen : batch.length = min 2 (messages.length - i) := by
    rw [← hbatch, List.length_take, List.length_drop]
  have hpl : batchTTSLaunches pause = [] := by
    unfold batchTTSLaunches
    rw [List.filterMap_eq_nil_iff]
    intro a ha
    obtain ⟨ms, rfl⟩ := hpause a ha
    rfl
  have hps : ∀ k, BatchStep.settleTTS k ∉ pause := by
    intro k hk
    obtain ⟨ms, h⟩ := hpause _ hk
    cases h
  have htake : messages.take (i + 2) = messages.take i ++ batch := by
    rw [List.take_add, hbatch]
  have htl : (messages.take i).length = i := by
    rw [List.length_take]; omega
  have hpe : batchExtractLaunches pause = [] := by
    unfold batchExtractLaunches
    rw [List.filterMap_eq_nil_iff]
    intro a ha
    obtain ⟨ms, rfl⟩ := hpause a ha
    rfl
  refine ⟨by omega, ?_, ?_, ?_, ?_, ?_, ?_, ?_, ?_, f3 hnd, ?_, ?_⟩
  · -- launches
    simp only [batchTTSLaunches_append, hl, hpl, hlaunch, batchTTSLaunches_settles,
      List.append_nil]
    rw [htake, List.enum_append, htl]
  · -- settles
    intro k
    simp only [List.mem_append, List.mem_map, hs k]
    constructor
    · rintro (((h | h) | h) | ⟨x, hx, hk⟩)
      · exact ⟨by omega, h.2⟩
      · exact absurd h (hps k)
      · exact absurd h (hnosettle k)
      · cases hk
        have := (horder k).1 hx
        omega
    · rintro ⟨h1, h2⟩
      by_cases hk : k < i
      · exact Or.inl (Or.inl (Or.inl ⟨hk, h2⟩))
      · exact Or.inr ⟨k, (horder k).2 (by omega), rfl⟩
  · -- order
    intro pre post b m a hsplit hab
    have hsplit2 : acc.steps ++ (pause ++ launchSteps ++ order.map BatchStep.settleTTS)
        = pre ++ BatchStep.startTTS b m :: post := by
      simpa [List.append_assoc] using hsplit
    rcases split_append _ _ _ _ _ hsplit2 with ⟨c, hc⟩ | ⟨p, hp, hg⟩
    · exact ho pre c b m a hc hab
    · have hmem : BatchStep.startTTS b m
          ∈ pause ++ launchSteps ++ order.map BatchStep.settleTTS := by
        rw [hg]; simp
      have hb : (b, m) ∈ batch.enumFrom i := by
        rw [← hlaunch, mem_batchTTSLaunches]
        simp only [List.mem_append, List.mem_map] at hmem
        rcases hmem with (h | h) | ⟨x, -, hx⟩
        · obtain ⟨ms, h2⟩ := hpause _ h
          cases h2
        · exact h
        · cases hx
      have hb2 := (List.mk_mem_enumFrom_iff_le_and_getElem?_sub.1 hb).1
      have hb3 : b < i + batch.length := by
        have := (List.mk_mem_enumFrom_iff_le_and_getElem?_sub.1 hb).2
        have hlt : b - i < batch.length := by
          by_contra hge
          rw [List.getElem?_eq_none (by omega)] at this
          cases this
        omega
      have ha : a < i := by omega
      rw [hp]
      exact List.mem_append_left _ ((hs a).2 ⟨ha, by omega⟩)
  · -- batches_flatten
    simp only [List.flatten_append, hbf, htake]
    simp
  · -- batches_len
    intro b hb
    rcases List.mem_append.1 hb with h | h
    · exact hbl b h
    · rw [List.mem_singleton] at h
      rw [h]; omega
  · -- batches_full
    intro hle b hb
    rcases List.mem_append.1 hb with h | h
    · exact hbfull (by omega) b h
    · rw [List.mem_singleton] at h
      rw [h]; omega
  · -- batches_init
    intro b hb
    rw [List.dropLast_concat] at hb
    exact hbfull (by omega) b hb
  · -- no_extract
    simp only [batchExtractLaunches_append, hne, hpe, hnoextract, batchExtractLaunches_settles,
      List.append_nil]
  · -- succ_mem
    intro k
    show k ∈ (order.foldl (recordConversion w) acc).successfulConversions ↔ _
    rw [f2 k, hsm k, horder k]
    constructor
    · rintro (⟨h1, h2, h3⟩ | ⟨⟨h1, h2⟩, h3⟩)
      · exact ⟨by omega, h2, h3⟩
      · exact ⟨by omega, by omega, h3⟩
    · rintro ⟨h1, h2, h3⟩
      by_cases hk : k < i
      · exact Or.inl ⟨hk, h2, h3⟩
      · exact Or.inr ⟨⟨by omega, by omega⟩, h3⟩
  · -- results
    intro k
    show (order.foldl (recordConversion w) acc).results k = _
    rw [f1 k, hres k]
    by_cases hk : k ∈ order
    · have := (horder k).1 hk
      rw [if_pos hk, if_pos (by omega)]
    · rw [if_neg hk]
      have hk2 : ¬ (i ≤ k ∧ k < i + batch.length) := fun h => hk ((horder k).2 h)
      by_cases hki : k < i ∧ k < messages.length
      · rw [if_pos hki, if_pos (by omega)]
      · rw [if_neg hki, if_neg (by omega)]

/-- One turn of the loop of `processTTSInParallel` keeps `ParallelInv`. -/
theorem parallelTurn_inv (w : World) (settleReversed : Nat → Bool) (messages : List Message)
    (i : Nat) (acc : ParallelRun) (hinv : ParallelInv w messages i acc)
    (hi : i < messages.length) :
    ParallelInv w messages (i + TTS_CONCURRENCY)
      (parallelTurn w settleReversed messages i acc) := by
  unfold parallelTurn
  refine turn_inv w messages i acc _ _ _ _ hinv hi rfl ?_ ?_ ?_ ?_ ?_
  · intro a ha
    by_cases h0 : i > 0
    · rw [if_pos h0, List.mem_singleton] at ha
      exact ⟨_, ha⟩
    · rw [if_neg h0] at ha
      cases ha
  · rcases slice_shape messages i hi with ⟨h, -⟩ | ⟨h, -⟩ <;>
      simp [h, batchTTSLaunches, List.enum, List.enumFrom]
  · intro k hk
    rw [List.mem_map] at hk
    obtain ⟨m, -, h⟩ := hk
    cases h
  · rcases slice_shape messages i hi with ⟨h, -⟩ | ⟨h, -⟩ <;>
      simp [h, batchExtractLaunches, List.enum, List.enumFrom]
  · intro k
    rcases slice_shape messages i hi with ⟨h, -⟩ | ⟨h, -⟩
    · cases hr : settleReversed i <;>
        simp [h, List.enum, List.enumFrom] <;> omega
    · cases hr : settleReversed i <;>
        simp [h, List.enum, List.enumFrom] <;> omega

/-- The loop of `processTTSInParallel` with enough fuel ends with its counter
past the last message and keeps `ParallelInv`. -/
theorem parallelLoop_inv (w : World) (settleReversed : Nat → Bool) (messages : List Message) :
    ∀ fuel i acc, ParallelInv w messages i acc → messages.length ≤ i + 2 * fuel →
      ∃ j, messages.length ≤ j ∧
        ParallelInv w messages j
          (processTTSInParallelLoop w settleReversed messages fuel i acc) := by
  intro fuel
  induction fuel with
  | zero =>
    intro i acc hinv hle
    exact ⟨i, by omega, hinv⟩
  | succ fuel ih =>
    intro i acc hinv hle
    rw [processTTSInParallelLoop]
    by_cases hi : i < messages.length
    · rw [if_pos hi]
      exact ih _ _ (parallelTurn_inv w settleReversed messages i acc hinv hi)
        (by simp only [TTS_CONCURRENCY]; omega)
    · rw [if_neg hi]
      exact ⟨i, by omega, hinv⟩

/-- The run of `processTTSInParallel` satisfies `ParallelInv` with the counter
past the last message. -/
theorem processTTSInParallel_inv (w : World) (settleReversed : Nat → Bool)
    (messages : List Message) :
    ∃ j, messages.length ≤ j ∧
      ParallelInv w messages j (processTTSInParallel w settleReversed messages) := by
  apply parallelLoop_inv w settleReversed messages messages.length 0 _ _ (by omega)
  refine ⟨rfl, rfl, by simp, ?_, rfl, by simp, by simp, by simp, rfl, List.nodup_nil,
    by simp, by simp⟩
  intro pre post b m a h
  simp at h

/-- C15: `processTTSInParallel` cuts the messages into consecutive groups taken
in order: the groups concatenated give the original list, every group has 1 or
2 members, and every group but the last has exactly `TTS_CONCURRENCY = 2`; the
members are launched in the order of the list, each with its position in the
list as index; and a member is launched only after every member of every
earlier group has settled. -/
theorem processTTSInParallel_groups (w : World) (settleReversed : Nat → Bool)
    (messages : List Message) :
    (processTTSInParallel w settleReversed messages).batches.flatten = messages ∧
    (∀ b, b ∈ (processTTSInParallel w settleReversed messages).batches →
      1 ≤ b.length ∧ b.length ≤ TTS_CONCURRENCY) ∧
    (∀ b, b ∈ (processTTSInParallel w settleReversed messages).batches.dropLast →
      b.length = TTS_CONCURRENCY) ∧
    batchTTSLaunches (processTTSInParallel w settleReversed messages).steps = messages.enum ∧
    (∀ pre post b m a,
      (processTTSInParallel w settleReversed messages).steps
        = pre ++ BatchStep.startTTS b m :: post →
      a / TTS_CONCURRENCY < b / TTS_CONCURRENCY → BatchStep.settleTTS a ∈ pre) := by
  obtain ⟨j, hj, hinv⟩ := processTTSInParallel_inv w settleReversed messages
  have htake : messages.take j = messages := List.take_of_length_le hj
  refine ⟨?_, hinv.batches_len, hinv.batches_init, ?_, hinv.order⟩
  · rw [hinv.batches_flatten, htake]
  · rw [hinv.launches, htake]

/-- C15, on a sample: five messages, the members of every group settling in
reverse order.  The groups are 2, 2 and 1 messages; index 2 is launched after
indices 1 and 0 have settled. -/
theorem processTTSInParallel_groups_witness :
    (processTTSInParallel sampleWorldOk (fun _ => true) (sampleMessages 5)).batches.map
      (fun b => b.map fun m => m.text)
      = [["text0", "text1"], ["text2", "text3"], ["text4"]] ∧
    (processTTSInParallel sampleWorldOk (fun _ => true) (sampleMessages 5)).steps.take 6
      = [.startTTS 0 ((sampleMessages 5).getD 0 default),
          .startTTS 1 ((sampleMessages 5).getD 1 default),
          .settleTTS 1, .settleTTS 0, .delay 100,
          .startTTS 2 ((sampleMessages 5).getD 2 default)] ∧
    BatchStep.settleTTS 1 ∈
      (processTTSInParallel sampleWorldOk (fun _ => true) (sampleMessages 5)).steps.take 5 :=
  ⟨by decide, by decide,
    (processTTSInParallel_groups sampleWorldOk (fun _ => true) (sampleMessages 5)).2.2.2.2
      ((processTTSInParallel sampleWorldOk (fun _ => true) (sampleMessages 5)).steps.take 5)
      ((processTTSInParallel sampleWorldOk (fun _ => true) (sampleMessages 5)).steps.drop 6)
      2 ((sampleMessages 5).getD 2 default) 1 (by decide) (by decide)⟩

/-- C16: for every list of messages and every pattern of synthesis outcomes,
`processTTSInParallel` (a total function: every failure of a member is caught
in its callback) launches the synthesis of every index 0..N-1, each of them
settles, `results` holds exactly one outcome for every index 0..N-1 and none
for any other, and `successfulConversions` holds, without repetition, exactly
the indices whose synthesis returned `true`. -/
theorem processTTSInParallel_outcomes (w : World) (settleReversed : Nat → Bool)
    (messages : List Message) :
    (batchTTSLaunches (processTTSInParallel w settleReversed messages).steps).map Prod.fst
      = List.range messages.length ∧
    (∀ k, BatchStep.settleTTS k ∈ (processTTSInParallel w settleReversed messages).steps ↔
      k < messages.length) ∧
    (∀ k, (processTTSInParallel w settleReversed messages).results k
      = if k < messages.length then some (conversionOf w k) else none) ∧
    (∀ k, (conversionOf w k).success = true ↔ ttsStage w k = .returned true) ∧
    (processTTSInParallel w settleReversed messages).successfulConversions.Nodup ∧
    (∀ k, k ∈ (processTTSInParallel w settleReversed messages).successfulConversions ↔
      (k < messages.length ∧ ttsStage w k = .returned true)) := by
  obtain ⟨j, hj, hinv⟩ := processTTSInParallel_inv w settleReversed messages
  have htake : messages.take j = messages := List.take_of_length_le hj
  refine ⟨?_, fun k => ?_, fun k => ?_, fun k => ?_, hinv.succ_nodup, fun k => ?_⟩
  · rw [hinv.launches, htake, List.enum_map_fst]
  · rw [hinv.settles k]
    constructor
    · exact fun h => h.2
    · exact fun h => ⟨by omega, h⟩
  · rw [hinv.results_eq k]
    by_cases hk : k < messages.length
    · rw [if_pos ⟨by omega, hk⟩, if_pos hk]
    · rw [if_neg (fun h => hk h.2), if_neg hk]
  · unfold conversionOf
    cases ttsStage w k with
    | threw e => simp
    | returned b => cases b <;> simp
  · rw [hinv.succ_mem k]
    constructor
    · exact fun h => h.2
    · exact fun h => ⟨by omega, h⟩

theorem extractInPlace_length (w : World) (ms : List Message) (x : Nat) :
    (extractInPlace w ms x).length = ms.length := by
  simp [extractInPlace]

theorem extractInPlace_getD_ne (w : World) (ms : List Message) (x i : Nat) (h : i ≠ x) :
    (extractInPlace w ms x).getD i default = ms.getD i default := by
  simp [extractInPlace, List.getD_eq_getElem?_getD, List.getElem?_set_ne (Ne.symm h)]

theorem extractInPlace_getD_self (w : World) (ms : List Message) (x : Nat)
    (h : x < ms.length) :
    (extractInPlace w ms x).getD x default
      = (processMessageComplete (w.extraction x) (ms.getD x default)).1 := by
  simp [extractInPlace, List.getD_eq_getElem?_getD, h]

/-- The extraction callbacks of `lipSync` over a list of distinct indices in
range: the array keeps its length, the message of every listed index is as
`processMessageComplete` leaves it, and every other message is untouched. -/
theorem foldl_extractInPlace (w : World) (l : List Nat) :
    ∀ ms : List Message, l.Nodup → (∀ x, x ∈ l → x < ms.length) →
      (l.foldl (extractInPlace w) ms).length = ms.length ∧
      ∀ i, (l.foldl (extractInPlace w) ms).getD i default
        = if i ∈ l then (processMessageComplete (w.extraction i) (ms.getD i default)).1
          else ms.getD i default := by
  induction l with
  | nil => intro ms _ _; simp
  | cons x rest ih =>
    intro ms hnd hlt
    have hx : x ∉ rest := (List.nodup_cons.1 hnd).1
    obtain ⟨h1, h2⟩ := ih (extractInPlace w ms x) (List.nodup_cons.1 hnd).2
      (fun y hy => by rw [extractInPlace_length]; exact hlt y (List.mem_cons_of_mem _ hy))
    simp only [List.foldl_cons]
    refine ⟨by rw [h1, extractInPlace_length], fun i => ?_⟩
    rw [h2 i]
    by_cases hi : i ∈ rest
    · have hne : i ≠ x := fun h => hx (h ▸ hi)
      rw [if_pos hi, if_pos (List.mem_cons_of_mem _ hi), extractInPlace_getD_ne w ms x i hne]
    · rw [if_neg hi]
      by_cases hix : i = x
      · subst hix
        rw [if_pos (List.mem_cons_self _ _)]
        exact extractInPlace_getD_self w ms i (hlt i (List.mem_cons_self _ _))
      · rw [if_neg (by simp [hi, hix]), extractInPlace_getD_ne w ms x i hix]

theorem batchExtractLaunches_startExtract (l : List Nat) :
    batchExtractLaunches (l.map BatchStep.startExtract) = l := by
  induction l with
  | nil => rfl
  | cons x rest ih =>
    simp only [List.map_cons]
    conv_rhs => rw [← ih]
    rfl

theorem batchExtractLaunches_settleExtract (l : List Nat) :
    batchExtractLaunches (l.map BatchStep.settleExtract) = [] := by
  induction l with
  | nil => rfl
  | cons x rest ih =>
    simp only [List.map_cons]
    rw [← ih]
    rfl

/-- In batch mode the extraction is launched for the members of
`successfulConversions`, in the order of the set. -/
theorem lipSync_extract_launches (w : World) (settleReversed : Nat → Bool)
    (messages : List Message) :
    batchExtractLaunches (lipSync w settleReversed messages).steps
      = (processTTSInParallel w settleReversed messages).successfulConversions := by
  obtain ⟨j, -, hinv⟩ := processTTSInParallel_inv w settleReversed messages
  unfold lipSync
  by_cases h : (processTTSInParallel w settleReversed messages).successfulConversions.length = 0
  · simp only [h, if_true, hinv.no_extract]
    exact (List.length_eq_zero.1 h).symm
  · simp only [h, if_false, batchExtractLaunches_append, hinv.no_extract,
      batchExtractLaunches_startExtract, batchExtractLaunches_settleExtract, List.nil_append,
      List.append_nil]

/-- The array `lipSync` returns: the message of every index whose synthesis
returned `true` is as its extraction leaves it, every other message is as it
was passed in. -/
theorem lipSync_messages (w : World) (settleReversed : Nat → Bool) (messages : List Message) :
    (lipSync w settleReversed messages).messages.length = messages.length ∧
    ∀ i, (lipSync w settleReversed messages).messages.getD i default
      = if i < messages.length ∧ ttsStage w i = .returned true then enriched w messages i
        else messages.getD i default := by
  obtain ⟨j, hj, hinv⟩ := processTTSInParallel_inv w settleReversed messages
  have hmem : ∀ k, k ∈ (processTTSInParallel w settleReversed messages).successfulConversions ↔
      (k < messages.length ∧ ttsStage w k = .returned true) := by
    intro k
    rw [hinv.succ_mem k]
    exact ⟨fun h => h.2, fun h => ⟨by omega, h⟩⟩
  unfold lipSync
  by_cases h : (processTTSInParallel w settleReversed messages).successfulConversions.length = 0
  · simp only [h, if_true]
    refine ⟨trivial, fun i => ?_⟩
    have hnil := List.length_eq_zero.1 h
    have hi : ¬ (i < messages.length ∧ ttsStage w i = .returned true) := by
      intro hc
      have := (hmem i).2 hc
      rw [hnil] at this
      cases this
    rw [if_neg hi]
  · simp only [h, if_false]
    obtain ⟨h1, h2⟩ := foldl_extractInPlace w _ messages hinv.succ_nodup
      (fun x hx => ((hmem x).1 hx).1)
    refine ⟨h1, fun i => ?_⟩
    rw [h2 i]
    by_cases hi : i ∈ (processTTSInParallel w settleReversed messages).successfulConversions
    · rw [if_pos hi, if_pos ((hmem i).1 hi)]
      rfl
    · rw [if_neg hi, if_neg (fun hc => hi ((hmem i).2 hc))]

theorem getElem?_eq_some_getD (l : List Message) (i : Nat) (h : i < l.length) :
    l[i]? = some (l.getD i default) := by
  simp [List.getD_eq_getElem?_getD, h]

/-- C17: in batch mode, whatever the stage outcomes and the order in which the
members of a group settle, `lipSync` launches `processMessageComplete` exactly
once for every index whose synthesis returned `true`, never for an index whose
synthesis failed or that is out of range, and not at all when no synthesis
succeeded. -/
theorem lipSync_extraction_launched_once (w : World) (settleReversed : Nat → Bool)
    (messages : List Message) :
    (∀ i, i < messages.length → ttsStage w i = .returned true →
      (batchExtractLaunches (lipSync w settleReversed messages).steps).count i = 1) ∧
    (∀ i, ttsStage w i ≠ .returned true →
      (batchExtractLaunches (lipSync w settleReversed messages).steps).count i = 0) ∧
    (∀ i, messages.length ≤ i →
      (batchExtractLaunches (lipSync w settleReversed messages).steps).count i = 0) ∧
    ((∀ i, i < messages.length → ttsStage w i ≠ .returned true) →
      batchExtractLaunches (lipSync w settleReversed messages).steps = []) := by
  obtain ⟨j, hj, hinv⟩ := processTTSInParallel_inv w settleReversed messages
  have hmem : ∀ k, k ∈ batchExtractLaunches (lipSync w settleReversed messages).steps ↔
      (k < messages.length ∧ ttsStage w k = .returned true) := by
    intro k
    rw [lipSync_extract_launches, hinv.succ_mem k]
    exact ⟨fun h => h.2, fun h => ⟨by omega, h⟩⟩
  have hnd : (batchExtractLaunches (lipSync w settleReversed messages).steps).Nodup := by
    rw [lipSync_extract_launches]
    exact hinv.succ_nodup
  refine ⟨fun i hi hs => List.count_eq_one_of_mem hnd ((hmem i).2 ⟨hi, hs⟩),
    fun i hs => List.count_eq_zero_of_not_mem (fun h => hs ((hmem i).1 h).2),
    fun i hi => List.count_eq_zero_of_not_mem (fun h => by
      have := ((hmem i).1 h).1
      omega), fun hall => ?_⟩
  apply List.eq_nil_iff_forall_not_mem.2
  intro k hk
  exact hall k ((hmem k).1 hk).1 ((hmem k).1 hk).2

/-- C17, on a sample: three messages, synthesis failing for index 1; extraction
is launched for 0 and 2 only. -/
theorem lipSync_extraction_launched_once_witness :
    ttsStage (sampleWorldSynthesisFails 1) 0 = .returned true ∧
    ttsStage (sampleWorldSynthesisFails 1) 1 ≠ .returned true ∧
    batchExtractLaunches
      (lipSync (sampleWorldSynthesisFails 1) (fun _ => true) (sampleMessages 3)).steps
      = [0, 2] ∧
    (batchExtractLaunches
      (lipSync (sampleWorldSynthesisFails 1) (fun _ => true) (sampleMessages 3)).steps).count 0
      = 1 ∧
    (batchExtractLaunches
      (lipSync (sampleWorldSynthesisFails 1) (fun _ => true) (sampleMessages 3)).steps).count 1
      = 0 :=
  ⟨by decide, by decide, by decide,
    (lipSync_extraction_launched_once (sampleWorldSynthesisFails 1) (fun _ => true)
      (sampleMessages 3)).1 0 (by decide) (by decide),
    (lipSync_extraction_launched_once (sampleWorldSynthesisFails 1) (fun _ => true)
      (sampleMessages 3)).2.1 1 (by decide)⟩

/-- C18: for every list of N messages and every pattern of synthesis and
extraction failures, `lipSync` (a total function: every failure is caught in a
callback) returns an array of N messages, the empty array for N = 0; the
message at every position keeps the text, expression and animation it was
passed in with; a message whose synthesis returned `true` is as its extraction
left it; and a message whose synthesis failed is exactly as it was passed in. -/
theorem lipSync_returns_all (w : World) (settleReversed : Nat → Bool)
    (messages : List Message) :
    (lipSync w settleReversed messages).messages.length = messages.length ∧
    (messages.length = 0 → (lipSync w settleReversed messages).messages = []) ∧
    (∀ i, i < messages.length →
      ((lipSync w settleReversed messages).messages.getD i default).text
          = (messages.getD i default).text ∧
      ((lipSync w settleReversed messages).messages.getD i default).facialExpression
          = (messages.getD i default).facialExpression ∧
      ((lipSync w settleReversed messages).messages.getD i default).animation
          = (messages.getD i default).animation) ∧
    (∀ i, i < messages.length → ttsStage w i = .returned true →
      (lipSync w settleReversed messages).messages[i]? = some (enriched w messages i)) ∧
    (∀ i, i < messages.length → ttsStage w i ≠ .returned true →
      (lipSync w settleReversed messages).messages[i]? = messages[i]?) := by
  obtain ⟨hlen, hget⟩ := lipSync_messages w settleReversed messages
  refine ⟨hlen, fun h0 => List.length_eq_zero.1 (hlen.trans h0), fun i hi => ?_,
    fun i hi hs => ?_, fun i hi hs => ?_⟩
  · rw [hget i]
    by_cases hs : i < messages.length ∧ ttsStage w i = .returned true
    · rw [if_pos hs]
      exact processMessageComplete_keeps_fields _ _
    · rw [if_neg hs]
      exact ⟨rfl, rfl, rfl⟩
  · rw [getElem?_eq_some_getD _ i (by omega), hget i, if_pos ⟨hi, hs⟩]
  · rw [getElem?_eq_some_getD _ i (by omega), hget i, if_neg (fun h => hs h.2),
      getElem?_eq_some_getD _ i hi]

/-- C18, on a sample: three messages, synthesis failing for index 1, which is
returned without `audio` and `lipsync`. -/
theorem lipSync_returns_all_witness :
    ttsStage (sampleWorldSynthesisFails 1) 1 ≠ .returned true ∧
    (lipSync (sampleWorldSynthesisFails 1) (fun _ => false) (sampleMessages 3)).messages.map
        (fun m => (m.text, m.audio, m.lipsync))
      = [("text0", some "wav0", some "visemes0"), ("text1", none, none),
          ("text2", some "wav2", some "visemes2")] ∧
    (lipSync (sampleWorldSynthesisFails 1) (fun _ => false) (sampleMessages 3)).messages[1]?
      = (sampleMessages 3)[1]? :=
  ⟨by decide, by decide,
    (lipSync_returns_all (sampleWorldSynthesisFails 1) (fun _ => false)
      (sampleMessages 3)).2.2.2.2 1 (by decide) (by decide)⟩

/-! ## The server's aggregate and the batch result -/

/-- The synthesis stage never returns `false`. -/
theorem ttsStage_returned_true (w : World) (i : Nat) (b : Bool)
    (h : ttsStage w i = .returned b) : b = true :=
  (loop_returned (w.synthesis i) (wavFileName i) MAX_RETRIES 0 b (by simp) (by decide) h).1

theorem assignSlot_replicate (k : Nat) :
    assignSlot (List.replicate k true) k = List.replicate (k + 1) true := by
  unfold assignSlot
  simp [List.replicate_succ']

theorem enum_replicate_map (n : Nat) (g : Nat → Message) :
    ((List.replicate n true).enum.map fun m => if m.2 then some (g m.1) else none)
      = (List.range n).map fun i => some (g i) := by
  apply List.ext_getElem?
  intro i
  by_cases hi : i < n
  · simp [List.getElem?_enum, List.getElem?_replicate, hi, List.getElem?_range hi]
  · have hr : (List.range n)[i]? = none := List.getElem?_eq_none (by simp; omega)
    simp [List.getElem?_enum, List.getElem?_replicate, hi, hr]

/-- The server loop over events that carry the indices `k, k + 1, ..., N - 1` in
order, `done` on the last only, the slots before `k` being assigned: the final
event holds every message object `0..N-1`, without holes. -/
theorem serverLoop_ordered (final : PipelineState) (length : Nat) (ev : Nat → OrderedEvent)
    (hidx : ∀ i, (ev i).index = i)
    (hdone : ∀ i, (ev i).done = decide (i = length - 1)) :
    ∀ n k written, k + n + 1 = length →
      (serverLoop final ((List.range' k (n + 1)).map ev) (List.replicate k true)
          written).complete
        = some ((List.range length).map fun i => some (messageAt final i)) := by
  intro n
  induction n with
  | zero =>
    intro k written hsum
    have hd : (ev k).done = true := by rw [hdone]; simp; omega
    simp only [List.range'_one, List.map_cons, List.map_nil, serverLoop, hd, if_true, hidx,
      assignSlot_replicate, enum_replicate_map]
    rw [show k + 1 = length by omega]
  | succ n ih =>
    intro k written hsum
    have hd : (ev k).done = false := by rw [hdone]; simp; omega
    rw [List.range'_succ, List.map_cons, serverLoop]
    simp only [hd, hidx, assignSlot_replicate]
    exact ih (k + 1) _ (by omega)

/-- When no stage fails, the array `lipSync` returns is the list of the
messages as their extractions left them. -/
theorem lipSync_messages_no_failure (w : World) (settleReversed : Nat → Bool)
    (messages : List Message)
    (hsyn : ∀ i, i < messages.length → ∃ b, ttsStage w i = .returned b) :
    (lipSync w settleReversed messages).messages
      = (List.range messages.length).map (enriched w messages) := by
  obtain ⟨hlen, hget⟩ := lipSync_messages w settleReversed messages
  apply List.ext_getElem?
  intro i
  by_cases hi : i < messages.length
  · obtain ⟨b, hb⟩ := hsyn i hi
    have hb2 : ttsStage w i = .returned true := by
      rw [hb, ttsStage_returned_true w i b hb]
    rw [getElem?_eq_some_getD _ i (by omega), hget i, if_pos ⟨hi, hb2⟩]
    simp [List.getElem?_range hi]
  · rw [List.getElem?_eq_none (by omega), List.getElem?_eq_none (by simp; omega)]

/-- C14: for a non-empty list of messages and stage outcomes without any
failure, the same in both modes, the array `allMessages` that the server sends
in its `{ messages, complete: true }` event after consuming `lipSyncStream` has
no hole and equals, element for element and field for field, the array that
`lipSync` returns on the same input, whatever the order in which the members
of a batch group settle. -/
theorem server_aggregate_eq_lipSync (w : World) (settleReversed : Nat → Bool)
    (messages : List Message) (hlen : 1 ≤ messages.length)
    (hsyn : ∀ i, i < messages.length → ∃ b, ttsStage w i = .returned b)
    (hext : ∀ i, i < messages.length → extractionOutcome w messages i = .returned ()) :
    (serverStream w messages).complete
      = some ((lipSync w settleReversed messages).messages.map some) := by
  obtain ⟨hev, hfinal⟩ := events_of_synthesis_ok w messages hsyn (fun _ => hext 0 (by omega))
  have hrange : List.range messages.length = List.range' 0 ((messages.length - 1) + 1) := by
    rw [List.range_eq_range']
    congr 1
    omega
  unfold serverStream
  rw [hev, hrange]
  have h := serverLoop_ordered (lipSyncStream w messages).final messages.length
    (fun i => ⟨i, enriched w messages i, decide (i = messages.length - 1),
      errorOf (extractionOutcome w messages i)⟩)
    (fun _ => rfl) (fun _ => rfl) (messages.length - 1) 0 [] (by omega)
  rw [List.replicate_zero] at h
  rw [h, lipSync_messages_no_failure w settleReversed messages hsyn, List.map_map]
  congr 1
  apply List.map_congr_left
  intro i hi
  simp only [Function.comp_apply]
  rw [hfinal i (List.mem_range.1 hi)]

/-- C14, on a sample: three messages, no failure. -/
theorem server_aggregate_eq_lipSync_witness :
    1 ≤ (sampleMessages 3).length ∧
    (∀ i, i < (sampleMessages 3).length → ∃ b, ttsStage sampleWorldOk i = .returned b) ∧
    (∀ i, i < (sampleMessages 3).length →
      extractionOutcome sampleWorldOk (sampleMessages 3) i = .returned ()) ∧
    ((serverStream sampleWorldOk (sampleMessages 3)).complete.map fun l =>
        l.map fun m => m.map fun x => (x.text, x.audio, x.lipsync))
      = some [some ("text0", some "wav0", some "visemes0"),
          some ("text1", some "wav1", some "visemes1"),
          some ("text2", some "wav2", some "visemes2")] ∧
    (serverStream sampleWorldOk (sampleMessages 3)).complete
      = some ((lipSync sampleWorldOk (fun _ => true) (sampleMessages 3)).messages.map some) :=
  ⟨by decide, by decide, by decide, by decide,
    server_aggregate_eq_lipSync sampleWorldOk (fun _ => true) (sampleMessages 3)
      (by decide) (by decide) (by decide)⟩

/-! ## The advance loop, whatever the stage outcomes -/

/-- One turn of the loop from a state satisfying `AdvanceInv`, the extraction of
`index` succeeding and the synthesis of the next index failing: the turn yields
two events for `index`, the second carrying the synthesis error, and leaves a
state satisfying `AdvanceInv` for `index + 1` in which no extraction of
`index + 1` is recorded. -/
theorem advanceStep_synthesis_fails (w : World) (messages : List Message) (index : Nat)
    (s : PipelineState) (hinv : AdvanceInv w messages index s)
    (hnext : index + 1 < messages.length) (error : JsError)
    (hout : extractionOutcome w messages index = .returned ())
    (hsyn : ttsStage w (index + 1) = .threw error) :
    eventsOf (advanceStep w messages.length index s).trace
      = [⟨index, enriched w messages index, decide (index = messages.length - 1), none⟩,
         ⟨index, enriched w messages index, decide (index = messages.length - 1),
          some error.message⟩] ∧
    AdvanceInv w messages (index + 1) (advanceStep w messages.length index s).final := by
  obtain ⟨hev, hres, hself, hne, hlen1, hlip1, htts1⟩ :=
    lookupLipSync_inv w messages index s hinv (by omega)
  obtain ⟨hlen, hearly, hmsgs, hlip, htts, -⟩ := hinv
  unfold advanceStep
  generalize lookupLipSync w index s = found at hev hres hself hne hlen1 hlip1 htts1
  obtain ⟨t1, p, s1⟩ := found
  simp only at hev hres hself hne hlen1 hlip1 htts1 ⊢
  subst hres
  have hearly1 : ∀ j, j < index + 1 → messageAt s1 j = enriched w messages j := by
    intro j hj
    by_cases hji : j = index
    · rw [hji]; exact hself
    · rw [hne j hji]; exact hearly j (by omega)
  have hlook : lookupTTS w (index + 1)
        { s1 with lipSyncPromises := s1.lipSyncPromises.delete index }
      = ([.launchTTS (index + 1), .setTTSPromise (index + 1)], ttsStage w (index + 1),
          { s1 with lipSyncPromises := s1.lipSyncPromises.delete index,
                    ttsPromises := s1.ttsPromises.set (index + 1) (ttsStage w (index + 1)) }) := by
    have : s1.ttsPromises (index + 1) = none := by rw [htts1]; exact htts _ (by omega)
    simp [lookupTTS, this]
  have hlt : index < messages.length - 1 := by omega
  simp only [hout, if_pos hlt, hlook, hsyn]
  have hself2 : messageAt
        { s1 with lipSyncPromises := s1.lipSyncPromises.delete index,
                  ttsPromises := s1.ttsPromises.set (index + 1) (.threw error) } index
      = enriched w messages index := hself
  have hself3 : messageAt { s1 with lipSyncPromises := s1.lipSyncPromises.delete index } index
      = enriched w messages index := hself
  refine ⟨by simp [eventsOf_append, eventsOf_cons, eventsOf_nil, hev, hself2, hself3], ?_⟩
  exact ⟨hlen1, hearly1, fun j hj => (hne j (by omega)).trans (hmsgs j (by omega)),
    fun j hj => by
      have h2 : j ≠ index := by omega
      simp [PromiseMap.delete, h2, hlip1 j (by omega)],
    fun j hj => by
      have h1 : j ≠ index + 1 := by omega
      simp [PromiseMap.set, h1, htts1, htts j (by omega)],
    Or.inl ⟨by simp [PromiseMap.delete, hlip1 (index + 1) (by omega)],
      (hne _ (by omega)).trans (hmsgs _ (by omega))⟩⟩

/-- One turn of the loop from a state satisfying `AdvanceInv`, whatever the
stage outcomes: the state it leaves satisfies `AdvanceInv` for `index + 1`, and
its events are decided by the extraction of `index` and, when that succeeded
and `index` is not the last index, by the synthesis of `index + 1`. -/
theorem advanceStep_any (w : World) (messages : List Message) (index : Nat)
    (s : PipelineState) (hinv : AdvanceInv w messages index s)
    (hlt : index < messages.length) :
    AdvanceInv w messages (index + 1) (advanceStep w messages.length index s).final ∧
    (∀ error, extractionOutcome w messages index = .threw error →
      eventsOf (advanceStep w messages.length index s).trace
        = [⟨index, enriched w messages index, decide (index = messages.length - 1),
            some error.message⟩]) ∧
    (extractionOutcome w messages index = .returned () →
      (∀ error, index + 1 < messages.length → ttsStage w (index + 1) = .threw error →
        eventsOf (advanceStep w messages.length index s).trace
          = [⟨index, enriched w messages index, decide (index = messages.length - 1), none⟩,
             ⟨index, enriched w messages index, decide (index = messages.length - 1),
              some error.message⟩]) ∧
      ((index + 1 < messages.length → ∃ b, ttsStage w (index + 1) = .returned b) →
        eventsOf (advanceStep w messages.length index s).trace
          = [⟨index, enriched w messages index, decide (index = messages.length - 1),
              none⟩])) := by
  cases hout : extractionOutcome w messages index with
  | threw err =>
    refine ⟨?_, ?_, fun h => by cases h⟩
    · obtain ⟨-, hres, -, hne, hlen1, hlip1, htts1⟩ :=
        lookupLipSync_inv w messages index s hinv hlt
      have hself := (lookupLipSync_inv w messages index s hinv hlt).2.2.1
      obtain ⟨hlen, hearly, hmsgs, hlip, htts, -⟩ := hinv
      unfold advanceStep
      generalize lookupLipSync w index s = found at hres hself hne hlen1 hlip1 htts1
      obtain ⟨t1, p, s1⟩ := found
      simp only at hres hself hne hlen1 hlip1 htts1 ⊢
      rw [hout] at hres
      subst hres
      simp only []
      refine ⟨hlen1, ?_, fun j hj => (hne j (by omega)).trans (hmsgs j (by omega)),
        fun j hj => hlip1 j (by omega), fun j hj => by rw [htts1]; exact htts j (by omega),
        Or.inl ⟨hlip1 _ (by omega), (hne _ (by omega)).trans (hmsgs _ (by omega))⟩⟩
      intro j hj
      by_cases hji : j = index
      · rw [hji]; exact hself
      · rw [hne j hji]; exact hearly j (by omega)
    · intro error herr
      cases herr
      obtain ⟨hev, hres, hself, -⟩ := lookupLipSync_inv w messages index s hinv hlt
      unfold advanceStep
      generalize lookupLipSync w index s = found at hev hres hself
      obtain ⟨t1, p, s1⟩ := found
      simp only at hev hres hself ⊢
      rw [hout] at hres
      subst hres
      simp [eventsOf_append, eventsOf_cons, eventsOf_nil, hev, hself]
  | returned u =>
    cases u
    by_cases hsyn : index + 1 < messages.length → ∃ b, ttsStage w (index + 1) = .returned b
    · obtain ⟨hev, hinv2⟩ := advanceStep_synthesis_ok w messages index s hinv hlt hsyn
      refine ⟨hinv2, (fun error h => by cases h), fun _ => ⟨?_, fun _ => ?_⟩⟩
      · intro error hnext herr
        obtain ⟨b, hb⟩ := hsyn hnext
        rw [hb] at herr
        cases herr
      · rw [hev, hout]
        rfl
    · have hnext : index + 1 < messages.length := by
        by_contra hc
        exact hsyn (fun h => absurd h hc)
      cases herr : ttsStage w (index + 1) with
      | returned b => exact absurd (fun _ => ⟨b, herr⟩) hsyn
      | threw err =>
        obtain ⟨hev, hinv2⟩ :=
          advanceStep_synthesis_fails w messages index s hinv hnext err hout herr
        refine ⟨hinv2, (fun error h => by cases h), fun _ => ⟨?_, fun h => ?_⟩⟩
        · intro error _ h
          cases h
          exact hev
        · obtain ⟨b, hb⟩ := h hnext
          cases hb

/-- What one turn of the loop yields, read off an event: it is an event of
`index` carrying the message as its extraction left it, and its `error` is the
failure of the extraction of `index` (`null` when it succeeded) or, that
extraction having succeeded, the failure of the synthesis of `index + 1`. -/
theorem advanceStep_any_event (w : World) (messages : List Message) (index : Nat)
    (s : PipelineState) (hinv : AdvanceInv w messages index s)
    (hlt : index < messages.length) (e : OrderedEvent)
    (he : e ∈ eventsOf (advanceStep w messages.length index s).trace) :
    e.index = index ∧ e.message = enriched w messages index ∧
    e.done = decide (index = messages.length - 1) ∧
    (e.error = errorOf (extractionOutcome w messages index) ∨
      (extractionOutcome w messages index = .returned () ∧ index + 1 < messages.length ∧
        e.error.isSome = true ∧ e.error = errorOf (ttsStage w (index + 1)))) := by
  obtain ⟨-, hthrew, hret⟩ := advanceStep_any w messages index s hinv hlt
  cases hout : extractionOutcome w messages index with
  | threw err =>
    rw [hthrew err hout, List.mem_singleton] at he
    subst he
    exact ⟨rfl, rfl, rfl, Or.inl rfl⟩
  | returned u =>
    cases u
    obtain ⟨hfail, hok⟩ := hret hout
    by_cases hsyn : index + 1 < messages.length → ∃ b, ttsStage w (index + 1) = .returned b
    · rw [hok hsyn, List.mem_singleton] at he
      subst he
      exact ⟨rfl, rfl, rfl, Or.inl rfl⟩
    · have hnext : index + 1 < messages.length := by
        by_contra hc
        exact hsyn (fun h => absurd h hc)
      cases herr : ttsStage w (index + 1) with
      | returned b => exact absurd (fun _ => ⟨b, herr⟩) hsyn
      | threw err =>
        rw [hfail err hnext herr] at he
        simp only [List.mem_cons, List.mem_singleton, List.not_mem_nil, or_false] at he
        rcases he with he | he
        · subst he
          exact ⟨rfl, rfl, rfl, Or.inl rfl⟩
        · subst he
          exact ⟨rfl, rfl, rfl, Or.inr ⟨rfl, hnext, rfl, rfl⟩⟩

/-- The loop from a state satisfying `AdvanceInv`, whatever the stage outcomes:
it runs to the last index and leaves every message as its extraction left it;
every event it yields is an event of a remaining index, carrying that message
and the failure of that index's extraction or of the next index's synthesis;
and every failure met in the turn of an index is reported in an event of that
index. -/
theorem advanceLoop_any (w : World) (messages : List Message) :
    ∀ fuel index s, index + fuel = messages.length → AdvanceInv w messages index s →
      AdvanceInv w messages messages.length (advanceLoop w messages.length fuel index s).final ∧
      (∀ e, e ∈ eventsOf (advanceLoop w messages.length fuel index s).trace →
        index ≤ e.index ∧ e.index < messages.length ∧
        e.message = enriched w messages e.index ∧
        e.done = decide (e.index = messages.length - 1) ∧
        (e.error = errorOf (extractionOutcome w messages e.index) ∨
          (extractionOutcome w messages e.index = .returned () ∧
            e.index + 1 < messages.length ∧ e.error.isSome = true ∧
            e.error = errorOf (ttsStage w (e.index + 1))))) ∧
      (∀ i, index ≤ i → i < messages.length →
        (∀ error, extractionOutcome w messages i = .threw error →
          (⟨i, enriched w messages i, decide (i = messages.length - 1), some error.message⟩ :
            OrderedEvent) ∈ eventsOf (advanceLoop w messages.length fuel index s).trace) ∧
        (extractionOutcome w messages i = .returned () →
          (⟨i, enriched w messages i, decide (i = messages.length - 1), none⟩ :
            OrderedEvent) ∈ eventsOf (advanceLoop w messages.length fuel index s).trace ∧
          ∀ error, i + 1 < messages.length → ttsStage w (i + 1) = .threw error →
            (⟨i, enriched w messages i, decide (i = messages.length - 1), some error.message⟩ :
              OrderedEvent) ∈ eventsOf (advanceLoop w messages.length fuel index s).trace)) := by
  intro fuel
  induction fuel with
  | zero =>
    intro index s hsum hinv
    have hidx : index = messages.length := by omega
    subst hidx
    refine ⟨hinv, ?_, fun i h1 h2 => absurd h1 (by omega)⟩
    intro e he
    simp [advanceLoop, eventsOf_nil] at he
  | succ fuel ih =>
    intro index s hsum hinv
    have hlt : index < messages.length := by omega
    obtain ⟨hinv2, hthrew, hret⟩ := advanceStep_any w messages index s hinv hlt
    obtain ⟨hfin, hevs, hrep⟩ := ih (index + 1) _ (by omega) hinv2
    have htrace : eventsOf (advanceLoop w messages.length (fuel + 1) index s).trace
        = eventsOf (advanceStep w messages.length index s).trace ++
          eventsOf (advanceLoop w messages.length fuel (index + 1)
            (advanceStep w messages.length index s).final).trace := by
      rw [advanceLoop, eventsOf_append]
    rw [htrace]
    refine ⟨hfin, ?_, ?_⟩
    · intro e he
      rcases List.mem_append.1 he with he | he
      · obtain ⟨h1, h2, h3, h4⟩ := advanceStep_any_event w messages index s hinv hlt e he
        rw [h1]
        exact ⟨le_refl _, hlt, h2, h3, h4⟩
      · obtain ⟨h1, h2⟩ := hevs e he
        exact ⟨by omega, h2⟩
    · intro i hi hiN
      by_cases hcur : i = index
      · subst hcur
        refine ⟨fun error herr => ?_, fun hout => ⟨?_, fun error hnext herr => ?_⟩⟩
        · rw [hthrew error herr]
          simp
        · by_cases hsyn : i + 1 < messages.length → ∃ b, ttsStage w (i + 1) = .returned b
          · rw [(hret hout).2 hsyn]
            simp
          · have hnext : i + 1 < messages.length := by
              by_contra hc
              exact hsyn (fun h => absurd h hc)
            cases herr : ttsStage w (i + 1) with
            | returned b => exact absurd (fun _ => ⟨b, herr⟩) hsyn
            | threw err =>
              rw [(hret hout).1 err hnext herr]
              simp
        · rw [(hret hout).1 error hnext herr]
          simp
      · obtain ⟨h1, h2⟩ := hrep i (by omega) hiN
        exact ⟨fun error herr => List.mem_append_right _ (h1 error herr),
          fun hout => ⟨List.mem_append_right _ (h2 hout).1,
            fun error hnext herr => List.mem_append_right _ ((h2 hout).2 error hnext herr)⟩⟩

/-! ## The paths of a run, whatever the stage outcomes -/

/-- With two or more messages, synthesis of index 0 succeeding and extraction
of index 0 failing, the run is the bootstrap up to the await of that
extraction, followed by the terminal event. -/
theorem lipSyncStream_trace_of_extraction0_failure (w : World) (messages : List Message)
    (err : JsError) (hlen : 2 ≤ messages.length) (hsyn0 : ∃ b, ttsStage w 0 = .returned b)
    (hfail : extractionOutcome w messages 0 = .threw err) :
    (lipSyncStream w messages).trace
      = [.launchTTS 0, .awaitTTS 0, .launchExtract 0, .launchTTS 1, .setTTSPromise 1,
          .awaitExtract 0, .emit ⟨0, enriched w messages 0, true, some err.message⟩] ∧
    messageAt (lipSyncStream w messages).final 0 = enriched w messages 0 := by
  obtain ⟨b0, hb0⟩ := hsyn0
  have h0 : ¬ messages.length = 0 := by omega
  have h1 : messages.length > 1 := by omega
  have hout0 : (extractStage w 0 ⟨messages, PromiseMap.empty, PromiseMap.empty⟩).1
      = extractionOutcome w messages 0 := rfl
  have hself0 : messageAt (extractStage w 0 ⟨messages, PromiseMap.empty, PromiseMap.empty⟩).2 0
      = enriched w messages 0 :=
    extractStage_messageAt_self w 0 _ (by simp only []; omega)
  have hselfA : ∀ p : PromiseMap Bool,
      messageAt { (extractStage w 0 ⟨messages, PromiseMap.empty, PromiseMap.empty⟩).2 with
        ttsPromises := p } 0 = enriched w messages 0 := fun _ => hself0
  unfold lipSyncStream
  simp only [h0, if_false, hb0, if_pos h1, hout0, hfail]
  refine ⟨?_, hself0⟩
  simp only [List.cons_append, List.nil_append, hselfA]

/-- With two or more messages, synthesis and extraction of index 0 succeeding
and synthesis of index 1 failing, the run is the bootstrap up to the first
event, the await of synthesis 1 and the terminal event, again of index 0. -/
theorem lipSyncStream_trace_of_synthesis1_failure (w : World) (messages : List Message)
    (err : JsError) (hlen : 2 ≤ messages.length) (hsyn0 : ∃ b, ttsStage w 0 = .returned b)
    (hext0 : extractionOutcome w messages 0 = .returned ())
    (hfail : ttsStage w 1 = .threw err) :
    (lipSyncStream w messages).trace
      = [.launchTTS 0, .awaitTTS 0, .launchExtract 0, .launchTTS 1, .setTTSPromise 1,
          .awaitExtract 0, .emit ⟨0, enriched w messages 0, false, none⟩, .awaitTTS 1,
          .emit ⟨0, enriched w messages 0, true, some err.message⟩] ∧
    messageAt (lipSyncStream w messages).final 0 = enriched w messages 0 := by
  obtain ⟨b0, hb0⟩ := hsyn0
  have h0 : ¬ messages.length = 0 := by omega
  have h1 : messages.length > 1 := by omega
  have hout0 : (extractStage w 0 ⟨messages, PromiseMap.empty, PromiseMap.empty⟩).1
      = extractionOutcome w messages 0 := rfl
  have hself0 : messageAt (extractStage w 0 ⟨messages, PromiseMap.empty, PromiseMap.empty⟩).2 0
      = enriched w messages 0 :=
    extractStage_messageAt_self w 0 _ (by simp only []; omega)
  have hselfA : ∀ p : PromiseMap Bool,
      messageAt { (extractStage w 0 ⟨messages, PromiseMap.empty, PromiseMap.empty⟩).2 with
        ttsPromises := p } 0 = enriched w messages 0 := fun _ => hself0
  unfold lipSyncStream
  simp only [h0, if_false, hb0, if_pos h1, hout0, hext0, hfail]
  refine ⟨?_, hself0⟩
  simp only [List.cons_append, List.nil_append, hselfA]

/-- With two or more messages and synthesis 0, extraction 0 and synthesis 1
succeeding, the run is the bootstrap followed by the loop, entered at index 1
in a state satisfying `AdvanceInv` in which the extraction of index 1 is
recorded. -/
theorem lipSyncStream_trace_of_loop (w : World) (messages : List Message)
    (hlen : 2 ≤ messages.length) (hsyn0 : ∃ b, ttsStage w 0 = .returned b)
    (hext0 : extractionOutcome w messages 0 = .returned ())
    (hsyn1 : ∃ b, ttsStage w 1 = .returned b) :
    ∃ s, AdvanceInv w messages 1 s ∧ (s.lipSyncPromises 1).isSome = true ∧
      (lipSyncStream w messages).trace
        = [.launchTTS 0, .awaitTTS 0, .launchExtract 0, .launchTTS 1, .setTTSPromise 1,
            .awaitExtract 0, .emit ⟨0, enriched w messages 0, false, none⟩, .awaitTTS 1,
            .deleteTTSPromise 1, .launchExtract 1, .setLipSyncPromise 1] ++
          (advanceLoop w messages.length (messages.length - 1) 1 s).trace ∧
      (lipSyncStream w messages).final
        = (advanceLoop w messages.length (messages.length - 1) 1 s).final := by
  obtain ⟨b0, hb0⟩ := hsyn0
  obtain ⟨b1, hb1⟩ := hsyn1
  have h0 : ¬ messages.length = 0 := by omega
  have h1 : messages.length > 1 := by omega
  have hout0 : (extractStage w 0 ⟨messages, PromiseMap.empty, PromiseMap.empty⟩).1
      = extractionOutcome w messages 0 := rfl
  have hself0 : messageAt (extractStage w 0 ⟨messages, PromiseMap.empty, PromiseMap.empty⟩).2 0
      = enriched w messages 0 :=
    extractStage_messageAt_self w 0 _ (by simp only []; omega)
  have hselfA : ∀ p : PromiseMap Bool,
      messageAt { (extractStage w 0 ⟨messages, PromiseMap.empty, PromiseMap.empty⟩).2 with
        ttsPromises := p } 0 = enriched w messages 0 := fun _ => hself0
  have hinv := bootstrap_inv w messages b1 h1
  simp only [] at hinv
  refine ⟨_, hinv, by simp [PromiseMap.set], ?_, ?_⟩
  · unfold lipSyncStream
    simp only [h0, if_false, hb0, if_pos h1, hout0, hext0, hb1, List.cons_append,
      List.nil_append, hselfA]
  · unfold lipSyncStream
    simp only [h0, if_false, hb0, if_pos h1, hout0, hext0, hb1]

/-- C21: for two or more messages, once synthesis 0, extraction 0 and
synthesis 1 have succeeded (the loop is entered), no stage failure aborts the
run.  Every index 1..N-1 is yielded at least once.  A failure of the extraction
of `i` is reported in an event of index `i` whose `error` is that failure, and
so is, the extraction of `i` having succeeded, a failure of the synthesis of
`i + 1`, which is awaited in the turn of `i`.  Every `error` that an event
carries is one of these two failures of its own index.  The run ends with an
event of index N-1, the one with `done = true`. -/
theorem lipSyncStream_loop_isolates_failures (w : World) (messages : List Message)
    (hlen : 2 ≤ messages.length) (hsyn0 : ∃ b, ttsStage w 0 = .returned b)
    (hext0 : extractionOutcome w messages 0 = .returned ())
    (hsyn1 : ∃ b, ttsStage w 1 = .returned b) :
    (∀ i, 1 ≤ i → i < messages.length →
      (∃ e, e ∈ events (lipSyncStream w messages) ∧ e.index = i) ∧
      (∀ error, extractionOutcome w messages i = .threw error →
        (⟨i, enriched w messages i, decide (i = messages.length - 1), some error.message⟩ :
          OrderedEvent) ∈ events (lipSyncStream w messages)) ∧
      (∀ error, extractionOutcome w messages i = .returned () → i + 1 < messages.length →
        ttsStage w (i + 1) = .threw error →
        (⟨i, enriched w messages i, false, some error.message⟩ : OrderedEvent)
          ∈ events (lipSyncStream w messages))) ∧
    (∀ e, e ∈ events (lipSyncStream w messages) →
      e.index < messages.length ∧
      (e.error = errorOf (extractionOutcome w messages e.index) ∨
        (extractionOutcome w messages e.index = .returned () ∧
          e.error = errorOf (ttsStage w (e.index + 1))))) ∧
    ∃ last, (lipSyncStream w messages).trace.getLast? = some (.emit last) ∧
      (events (lipSyncStream w messages)).getLast? = some last ∧
      last.index = messages.length - 1 ∧ last.done = true := by
  obtain ⟨s, hinv, -, htrace, -⟩ := lipSyncStream_trace_of_loop w messages hlen hsyn0 hext0 hsyn1
  obtain ⟨-, hevs, hrep⟩ := advanceLoop_any w messages (messages.length - 1) 1 s (by omega) hinv
  have hfuel : messages.length - 1 = (messages.length - 2) + 1 := by omega
  obtain ⟨t, last, ht, -, hd, hi⟩ :=
    advanceLoop_done_last w messages.length (messages.length - 2) 1 s (by omega)
  rw [← hfuel] at ht
  have hev : events (lipSyncStream w messages)
      = ⟨0, enriched w messages 0, false, none⟩ ::
          eventsOf (advanceLoop w messages.length (messages.length - 1) 1 s).trace := by
    rw [events, htrace, eventsOf_append]
    rfl
  refine ⟨fun i hi1 hiN => ?_, fun e he => ?_, last, ?_, ?_, hi, hd⟩
  · obtain ⟨h1, h2⟩ := hrep i hi1 hiN
    rw [hev]
    refine ⟨?_, fun error herr => List.mem_cons_of_mem _ (h1 error herr),
      fun error hout hnext herr => ?_⟩
    · cases hout : extractionOutcome w messages i with
      | threw error => exact ⟨_, List.mem_cons_of_mem _ (h1 error hout), rfl⟩
      | returned u =>
        cases u
        exact ⟨_, List.mem_cons_of_mem _ (h2 hout).1, rfl⟩
    · have hmem := (h2 hout).2 error hnext herr
      have hd : decide (i = messages.length - 1) = false := by
        simp only [decide_eq_false_iff_not]; omega
      rw [hd] at hmem
      exact List.mem_cons_of_mem _ hmem
  · rw [hev, List.mem_cons] at he
    rcases he with he | he
    · subst he
      exact ⟨by simp only []; omega, Or.inl (by rw [hext0]; rfl)⟩
    · obtain ⟨-, h2, -, -, h5⟩ := hevs e he
      refine ⟨h2, ?_⟩
      rcases h5 with h5 | ⟨h5, -, -, h6⟩
      · exact Or.inl h5
      · exact Or.inr ⟨h5, h6⟩
  · rw [htrace, ht, ← List.append_assoc, List.getLast?_append]
    rfl
  · rw [hev, ht, eventsOf_append, eventsOf_cons, eventsOf_nil, ← List.cons_append,
      List.getLast?_append]
    rfl

/-- C21, on a sample: four messages, extraction failing for index 1 and
synthesis failing for index 3; both failures are reported and the run still
yields every index up to the last. -/
theorem lipSyncStream_loop_isolates_failures_witness :
    2 ≤ (sampleMessages 4).length ∧
    ttsStage sampleWorldMixedFailures 0 = .returned true ∧
    extractionOutcome sampleWorldMixedFailures (sampleMessages 4) 0 = .returned () ∧
    ttsStage sampleWorldMixedFailures 1 = .returned true ∧
    extractionOutcome sampleWorldMixedFailures (sampleMessages 4) 1
      = .threw (JsError.plain "Process exited with code 1") ∧
    ttsStage sampleWorldMixedFailures 3 = .threw (JsError.plain "fetch failed") ∧
    (events (lipSyncStream sampleWorldMixedFailures (sampleMessages 4))).map
        (fun e => (e.index, e.done, e.error))
      = [(0, false, none), (1, false, some "Process exited with code 1"), (2, false, none),
          (2, false, some "fetch failed"), (3, true, none)] ∧
    ∃ last, (lipSyncStream sampleWorldMixedFailures (sampleMessages 4)).trace.getLast?
        = some (.emit last) ∧
      (events (lipSyncStream sampleWorldMixedFailures (sampleMessages 4))).getLast? = some last ∧
      last.index = (sampleMessages 4).length - 1 ∧ last.done = true :=
  ⟨by decide, by decide, by decide, by decide, by decide, by decide, by decide,
    (lipSyncStream_loop_isolates_failures sampleWorldMixedFailures (sampleMessages 4)
      (by decide) ⟨true, by decide⟩ (by decide) ⟨true, by decide⟩).2.2⟩

/-! ## The order of the yielded indices -/

theorem GroupedFrom.lower {start : Nat} {evs : List OrderedEvent} (h : GroupedFrom start evs) :
    ∀ e, e ∈ evs → start ≤ e.index := by
  induction h with
  | nil start => intro e he; cases he
  | one start e rest hi _ ih =>
    intro x hx
    rcases List.mem_cons.1 hx with hx | hx
    · rw [hx, hi]
    · exact Nat.le_of_succ_le (ih x hx)
  | two start e1 e2 rest h1 _ h2 _ _ ih =>
    intro x hx
    rcases List.mem_cons.1 hx with hx | hx
    · rw [hx, h1]
    · rcases List.mem_cons.1 hx with hx | hx
      · rw [hx, h2]
      · exact Nat.le_of_succ_le (ih x hx)

theorem GroupedFrom.head {start : Nat} {evs : List OrderedEvent} (h : GroupedFrom start evs) :
    ∀ e, e ∈ evs.head? → e.index = start := by
  cases h with
  | nil => intro e he; cases he
  | one _ e rest hi _ =>
    intro x hx
    simp only [List.head?_cons, Option.mem_def, Option.some.injEq] at hx
    rw [← hx, hi]
  | two _ e1 e2 rest h1 _ _ _ _ =>
    intro x hx
    simp only [List.head?_cons, Option.mem_def, Option.some.injEq] at hx
    rw [← hx, h1]

/-- In a grouped sequence the index never goes down and goes up by at most one
from an event to the next. -/
theorem GroupedFrom.chain {start : Nat} {evs : List OrderedEvent} (h : GroupedFrom start evs) :
    List.Chain' (fun a b : OrderedEvent => a.index ≤ b.index ∧ b.index ≤ a.index + 1) evs := by
  induction h with
  | nil start => exact List.chain'_nil
  | one start e rest hi hrest ih =>
    refine List.Chain'.cons' ih ?_
    intro y hy
    rw [hrest.head y hy, hi]
    omega
  | two start e1 e2 rest h1 _ h2 _ hrest ih =>
    refine List.Chain'.cons' (List.Chain'.cons' ih ?_) ?_
    · intro y hy
      rw [hrest.head y hy, h2]
      omega
    · intro y hy
      simp only [List.head?_cons, Option.mem_def, Option.some.injEq] at hy
      rw [← hy, h1, h2]
      omega

/-- In a grouped sequence no index occurs more than twice. -/
theorem GroupedFrom.count_le {start : Nat} {evs : List OrderedEvent}
    (h : GroupedFrom start evs) (i : Nat) :
    (evs.map fun e => e.index).count i ≤ 2 := by
  induction h with
  | nil start => simp
  | one start e rest hi hrest ih =>
    rw [List.map_cons, List.count_cons]
    by_cases hc : e.index = i
    · have hzero : (rest.map fun e => e.index).count i = 0 := by
        apply List.count_eq_zero_of_not_mem
        intro hmem
        obtain ⟨x, hx, hxi⟩ := List.mem_map.1 hmem
        have := hrest.lower x hx
        omega
      rw [hzero]
      split <;> omega
    · have : (e.index == i) = false := by simpa using hc
      rw [this]
      simp only [Bool.false_eq_true, if_false]
      omega
  | two start e1 e2 rest h1 _ h2 _ hrest ih =>
    rw [List.map_cons, List.map_cons, List.count_cons, List.count_cons]
    by_cases hc : start = i
    · have hzero : (rest.map fun e => e.index).count i = 0 := by
        apply List.count_eq_zero_of_not_mem
        intro hmem
        obtain ⟨x, hx, hxi⟩ := List.mem_map.1 hmem
        have := hrest.lower x hx
        omega
      rw [hzero]
      split <;> split <;> omega
    · have hn1 : (e1.index == i) = false := by rw [h1]; simpa using hc
      have hn2 : (e2.index == i) = false := by rw [h2]; simpa using hc
      rw [hn1, hn2]
      simp only [Bool.false_eq_true, if_false]
      omega

/-- In a grouped sequence, of two events of one index the earlier has
`error = null` and the later has `error` set. -/
theorem GroupedFrom.pairs {start : Nat} {evs : List OrderedEvent} (h : GroupedFrom start evs) :
    evs.Pairwise fun a b => a.index = b.index → a.error = none ∧ b.error.isSome = true := by
  induction h with
  | nil start => exact List.Pairwise.nil
  | one start e rest hi hrest ih =>
    refine List.Pairwise.cons ?_ ih
    intro b hb heq
    have := hrest.lower b hb
    omega
  | two start e1 e2 rest h1 hn h2 hs hrest ih =>
    refine List.Pairwise.cons ?_ (List.Pairwise.cons ?_ ih)
    · intro b hb heq
      rcases List.mem_cons.1 hb with hb | hb
      · rw [hb]
        exact ⟨hn, hs⟩
      · have := hrest.lower b hb
        omega
    · intro b hb heq
      have := hrest.lower b hb
      omega

/-- The events of the loop are grouped from its first index, whatever the stage
outcomes. -/
theorem advanceLoop_grouped (w : World) (length : Nat) :
    ∀ fuel index s, GroupedFrom index (eventsOf (advanceLoop w length fuel index s).trace) := by
  intro fuel
  induction fuel with
  | zero =>
    intro index s
    exact GroupedFrom.nil index
  | succ fuel ih =>
    intro index s
    have hrest := ih (index + 1) (advanceStep w length index s).final
    obtain ⟨e1, hi1, -, hshape⟩ := advanceStep_events_shape w length index s
    rw [advanceLoop]
    simp only [eventsOf_append]
    rcases hshape with h | ⟨-, hn, e2, hi2, -, hs, h⟩
    · rw [h]
      exact GroupedFrom.one index e1 _ hi1 hrest
    · rw [h]
      exact GroupedFrom.two index e1 e2 _ hi1 hn hi2 hs hrest

/-- The events of a run are grouped from index 0, whatever the stage
outcomes. -/
theorem lipSyncStream_grouped (w : World) (messages : List Message) :
    GroupedFrom 0 (events (lipSyncStream w messages)) := by
  unfold lipSyncStream events
  by_cases h0 : messages.length = 0
  · simp only [h0, if_true, eventsOf_nil]
    exact GroupedFrom.nil 0
  · simp only [h0, if_false]
    cases ttsStage w 0 with
    | threw error =>
      simp only [eventsOf_cons, eventsOf_nil, List.nil_append, List.append_nil]
      exact GroupedFrom.one 0 _ _ rfl (GroupedFrom.nil 1)
    | returned b0 =>
      simp only []
      by_cases h1 : messages.length > 1
      · rw [if_pos h1]
        cases (extractStage w 0 ⟨messages, PromiseMap.empty, PromiseMap.empty⟩).1 with
        | threw error =>
          simp only [eventsOf_append, eventsOf_cons, eventsOf_nil, List.nil_append,
            List.append_nil]
          exact GroupedFrom.one 0 _ _ rfl (GroupedFrom.nil 1)
        | returned u =>
          simp only []
          cases ttsStage w 1 with
          | threw error =>
            simp only [eventsOf_append, eventsOf_cons, eventsOf_nil, List.nil_append,
              List.append_nil, List.singleton_append]
            exact GroupedFrom.two 0 _ _ _ rfl rfl rfl rfl (GroupedFrom.nil 1)
          | returned b1 =>
            simp only [eventsOf_append, eventsOf_cons, eventsOf_nil, List.nil_append,
              List.append_nil, List.singleton_append]
            exact GroupedFrom.one 0 _ _ rfl (advanceLoop_grouped w _ _ 1 _)
      · rw [if_neg h1]
        cases (extractStage w 0 ⟨messages, PromiseMap.empty, PromiseMap.empty⟩).1 <;>
          simp only [eventsOf_cons, eventsOf_nil, List.nil_append, List.append_nil] <;>
          exact GroupedFrom.one 0 _ _ rfl (GroupedFrom.nil 1)

/-- C23: for one or more messages and any stage outcomes, the indices of the
events `lipSyncStream` yields start at 0, never go down, go up by at most one
from an event to the next, and hold no index more than twice; of two events of
one index the earlier has `error = null` and the later has `error` set. -/
theorem lipSyncStream_index_sequence (w : World) (messages : List Message)
    (hlen : 1 ≤ messages.length) :
    (∃ first rest, events (lipSyncStream w messages) = first :: rest ∧ first.index = 0) ∧
    List.Chain' (fun a b : Nat => a ≤ b ∧ b ≤ a + 1)
      ((events (lipSyncStream w messages)).map fun e => e.index) ∧
    List.Pairwise (fun a b : Nat => a ≤ b)
      ((events (lipSyncStream w messages)).map fun e => e.index) ∧
    (∀ i, ((events (lipSyncStream w messages)).map fun e => e.index).count i ≤ 2) ∧
    (events (lipSyncStream w messages)).Pairwise
      (fun a b => a.index = b.index → a.error = none ∧ b.error.isSome = true) := by
  have hg := lipSyncStream_grouped w messages
  have hchain : List.Chain' (fun a b : Nat => a ≤ b ∧ b ≤ a + 1)
      ((events (lipSyncStream w messages)).map fun e => e.index) :=
    (List.chain'_map _).2 hg.chain
  refine ⟨?_, hchain, ?_, hg.count_le, hg.pairs⟩
  · obtain ⟨t, last, ht, -⟩ := lipSyncStream_done_last w messages hlen
    cases hev : events (lipSyncStream w messages) with
    | nil =>
      have : events (lipSyncStream w messages) = eventsOf t ++ [last] := by
        rw [events, ht, eventsOf_append, eventsOf_cons, eventsOf_nil]
        rfl
      rw [hev] at this
      simp at this
    | cons first rest =>
      refine ⟨first, rest, rfl, ?_⟩
      rw [hev] at hg
      exact hg.head first (by simp)
  · have hle : List.Chain' (fun a b : Nat => a ≤ b)
        ((events (lipSyncStream w messages)).map fun e => e.index) :=
      hchain.imp fun _ _ h => h.1
    exact List.chain'_iff_pairwise.1 hle

/-- C23, on a sample: four messages, extraction failing for index 1 and
synthesis failing for index 3; index 2 is yielded twice, first without and
then with an error. -/
theorem lipSyncStream_index_sequence_witness :
    1 ≤ (sampleMessages 4).length ∧
    (events (lipSyncStream sampleWorldMixedFailures (sampleMessages 4))).map
        (fun e => (e.index, e.error))
      = [(0, none), (1, some "Process exited with code 1"), (2, none),
          (2, some "fetch failed"), (3, none)] ∧
    (∀ i, ((events (lipSyncStream sampleWorldMixedFailures (sampleMessages 4))).map
      fun e => e.index).count i ≤ 2) ∧
    (events (lipSyncStream sampleWorldMixedFailures (sampleMessages 4))).Pairwise
      (fun a b => a.index = b.index → a.error = none ∧ b.error.isSome = true) :=
  ⟨by decide, by decide,
    (lipSyncStream_index_sequence sampleWorldMixedFailures (sampleMessages 4)
      (by decide)).2.2.2⟩

/-! ## Extraction launches and awaits around an event -/

/-- Where an element of `t ++ g` sits: in `t`, or in `g`. -/
theorem split_cons_append {α : Type} (t g pre post : List α) (x : α)
    (h : t ++ g = pre ++ x :: post) :
    (∃ c, t = pre ++ x :: c ∧ post = c ++ g) ∨ (∃ p, pre = t ++ p ∧ g = p ++ x :: post) := by
  rcases List.append_eq_append_iff.1 h with ⟨a, ha, hg⟩ | ⟨c, hc, hx⟩
  · exact Or.inr ⟨a, ha, hg⟩
  · cases c with
    | nil =>
      right
      refine ⟨[], by simpa using hc.symm, by simpa using hx.symm⟩
    | cons y c =>
      left
      simp only [List.cons_append, List.cons.injEq] at hx
      exact ⟨c, by rw [hc, hx.1], hx.2⟩

/-- If `a` occurs in a list with no `b` after it, then `a` comes after every
occurrence of `b`. -/
theorem mem_after_of_split {α : Type} (l q1 q2 p1 p2 : List α) (a b : α)
    (h1 : l = q1 ++ a :: q2) (hb : b ∉ q2) (hab : a ≠ b) (h2 : l = p1 ++ b :: p2) :
    a ∈ p2 := by
  rw [h1] at h2
  rcases split_cons_append q1 (a :: q2) p1 p2 b h2 with ⟨c, hc, hp⟩ | ⟨p, -, hp⟩
  · rw [hp]
    simp
  · cases p with
    | nil =>
      simp only [List.nil_append, List.cons.injEq] at hp
      exact absurd hp.1 hab
    | cons y p =>
      simp only [List.cons_append, List.cons.injEq] at hp
      exact absurd (by rw [hp.2]; simp) hb

theorem mem_extractLaunchesOf (t : List Action) (j : Nat) :
    j ∈ extractLaunchesOf t ↔ Action.launchExtract j ∈ t := by
  unfold extractLaunchesOf
  rw [List.mem_filterMap]
  constructor
  · rintro ⟨a, ha, h⟩
    cases a <;> simp at h
    rw [← h]
    exact ha
  · intro h
    exact ⟨_, h, rfl⟩

theorem mem_eventsOf (t : List Action) (e : OrderedEvent) :
    e ∈ eventsOf t ↔ Action.emit e ∈ t := by
  unfold eventsOf
  rw [List.mem_filterMap]
  constructor
  · rintro ⟨a, ha, h⟩
    cases a <;> simp at h
    rw [← h]
    exact ha
  · intro h
    exact ⟨_, h, rfl⟩

theorem lookupLipSync_steps (w : World) (index : Nat) (s : PipelineState) (a : Action)
    (ha : a ∈ (lookupLipSync w index s).1) : a = .launchExtract index := by
  unfold lookupLipSync at ha
  cases h : s.lipSyncPromises index with
  | none => simpa [h] using ha
  | some p => simp [h] at ha

theorem lookupTTS_steps (w : World) (nextIndex : Nat) (s : PipelineState) (a : Action)
    (ha : a ∈ (lookupTTS w nextIndex s).1) :
    a = .launchTTS nextIndex ∨ a = .setTTSPromise nextIndex := by
  unfold lookupTTS at ha
  cases h : s.ttsPromises nextIndex with
  | none => simpa [h] using ha
  | some p => simp [h] at ha

/-- The steps of one turn of the loop: the extraction of `index` is awaited
before anything is yielded; what follows the await yields events of `index`
only and launches no extraction but that of `index + 1`. -/
theorem advanceStep_trace_shape (w : World) (length index : Nat) (s : PipelineState) :
    ∃ L R, (advanceStep w length index s).trace = L ++ .awaitExtract index :: R ∧
      (∀ e, Action.emit e ∉ L) ∧ (∀ e, Action.emit e ∈ R → e.index = index) ∧
      (∀ j, Action.launchExtract j ∈ R → j = index + 1) := by
  have hf := lookupLipSync_steps w index s
  unfold advanceStep
  generalize lookupLipSync w index s = found at hf
  obtain ⟨t1, p, s1⟩ := found
  simp only at hf ⊢
  have hL : ∀ e, Action.emit e ∉ t1 := by
    intro e he
    cases hf _ he
  cases p with
  | threw error =>
    refine ⟨t1, [.emit ⟨index, messageAt s1 index, decide (index = length - 1),
      some error.message⟩], rfl, hL, ?_, ?_⟩
    · intro e he
      simp only [List.mem_singleton, Action.emit.injEq] at he
      rw [he]
    · intro j hj
      simp at hj
  | returned u =>
    simp only []
    by_cases hnext : index < length - 1
    · rw [if_pos hnext]
      have hn := lookupTTS_steps w (index + 1)
        { s1 with lipSyncPromises := s1.lipSyncPromises.delete index }
      generalize lookupTTS w (index + 1)
        { s1 with lipSyncPromises := s1.lipSyncPromises.delete index } = next at hn
      obtain ⟨t2, q, s3⟩ := next
      simp only at hn ⊢
      cases q with
      | threw error =>
        refine ⟨t1, [.deleteLipSyncPromise index,
          .emit ⟨index, messageAt { s1 with lipSyncPromises := s1.lipSyncPromises.delete index }
            index, decide (index = length - 1), none⟩] ++ t2 ++
          [.awaitTTS (index + 1),
            .emit ⟨index, messageAt s3 index, decide (index = length - 1),
              some error.message⟩], by simp, hL, ?_, ?_⟩
        · intro e he
          simp only [List.mem_append, List.mem_cons, List.mem_singleton, List.not_mem_nil,
            or_false, Action.emit.injEq] at he
          rcases he with (he | he) | he
          · rcases he with he | he
            · cases he
            · rw [he]
          · rcases hn _ he with h | h <;> cases h
          · rcases he with he | he
            · cases he
            · rw [he]
        · intro j hj
          simp only [List.mem_append, List.mem_cons, List.mem_singleton, List.not_mem_nil,
            or_false] at hj
          rcases hj with (hj | hj) | hj
          · rcases hj with hj | hj <;> cases hj
          · rcases hn _ hj with h | h <;> cases h
          · rcases hj with hj | hj <;> cases hj
      | returned b =>
        refine ⟨t1, [.deleteLipSyncPromise index,
          .emit ⟨index, messageAt { s1 with lipSyncPromises := s1.lipSyncPromises.delete index }
            index, decide (index = length - 1), none⟩] ++ t2 ++
          [.awaitTTS (index + 1), .deleteTTSPromise (index + 1), .launchExtract (index + 1),
            .setLipSyncPromise (index + 1)], by simp, hL, ?_, ?_⟩
        · intro e he
          simp only [List.mem_append, List.mem_cons, List.mem_singleton, List.not_mem_nil,
            or_false, Action.emit.injEq] at he
          rcases he with (he | he) | he
          · rcases he with he | he
            · cases he
            · rw [he]
          · rcases hn _ he with h | h <;> cases h
          · rcases he with he | he | he | he <;> cases he
        · intro j hj
          simp only [List.mem_append, List.mem_cons, List.mem_singleton, List.not_mem_nil,
            or_false] at hj
          rcases hj with (hj | hj) | hj
          · rcases hj with hj | hj <;> cases hj
          · rcases hn _ hj with h | h <;> cases h
          · rcases hj with hj | hj | hj | hj <;> cases hj
            rfl
    · rw [if_neg hnext]
      refine ⟨t1, [.deleteLipSyncPromise index,
        .emit ⟨index, messageAt { s1 with lipSyncPromises := s1.lipSyncPromises.delete index }
          index, decide (index = length - 1), none⟩], by simp, hL, ?_, ?_⟩
      · intro e he
        simp only [List.mem_cons, List.mem_singleton, List.not_mem_nil, or_false,
          Action.emit.injEq] at he
        rcases he with he | he
        · cases he
        · rw [he]
      · intro j hj
        simp at hj

/-- Around any event the loop yields: the extraction of the event's index was
awaited before it with no launch of that extraction in between, and that
extraction is not launched after it. -/
theorem advanceLoop_emit_split (w : World) (length : Nat) :
    ∀ fuel index s pre e post,
      (advanceLoop w length fuel index s).trace = pre ++ Action.emit e :: post →
      index ≤ e.index ∧
      (∃ p1 p2, pre = p1 ++ Action.awaitExtract e.index :: p2 ∧
        Action.launchExtract e.index ∉ p2) ∧
      Action.launchExtract e.index ∉ post := by
  intro fuel
  induction fuel with
  | zero =>
    intro index s pre e post h
    simp [advanceLoop] at h
  | succ fuel ih =>
    intro index s pre e post h
    rw [advanceLoop] at h
    simp only at h
    rcases split_cons_append _ _ pre post _ h with ⟨c, hc, hpost⟩ | ⟨p, hp, hrest⟩
    · obtain ⟨L, R, hshape, hL, hRe, hRl⟩ := advanceStep_trace_shape w length index s
      rw [hshape] at hc
      rcases split_cons_append L (Action.awaitExtract index :: R) pre c _ hc with
        ⟨c2, hc2, -⟩ | ⟨p, hp, hR⟩
      · exact absurd (by rw [hc2]; simp) (hL e)
      · cases p with
        | nil => simp at hR
        | cons y p =>
          simp only [List.cons_append, List.cons.injEq] at hR
          obtain ⟨hy, hR⟩ := hR
          have hidx : e.index = index := hRe e (by rw [hR]; simp)
          rw [hidx]
          refine ⟨le_refl _, ⟨L, p, by rw [hp, ← hy], ?_⟩, ?_⟩
          · intro hmem
            have := hRl index (by rw [hR]; simp [hmem])
            omega
          · intro hmem
            rw [hpost, List.mem_append] at hmem
            rcases hmem with hmem | hmem
            · have := hRl index (by rw [hR]; simp [hmem])
              omega
            · have hsub := (advanceLoop_launches w length fuel (index + 1)
                (advanceStep w length index s).final).2.1
              have := hsub.subset ((mem_extractLaunchesOf _ _).2 hmem)
              rw [List.mem_range'_1] at this
              omega
    · obtain ⟨h1, ⟨p1, p2, hp12, hno⟩, h3⟩ := ih (index + 1) _ p e post hrest
      refine ⟨by omega, ⟨(advanceStep w length index s).trace ++ p1, p2, ?_, hno⟩, h3⟩
      rw [hp, hp12, List.append_assoc]

/-- Where an event sits in `t ++ emit e0 :: u` when `t` yields nothing: it is
`e0`, or it is in `u`. -/
theorem emit_split_head (t u pre post : List Action) (e0 e : OrderedEvent)
    (ht : ∀ x, Action.emit x ∉ t)
    (h : t ++ Action.emit e0 :: u = pre ++ Action.emit e :: post) :
    (pre = t ∧ e = e0 ∧ post = u) ∨
    (∃ p, pre = t ++ Action.emit e0 :: p ∧ u = p ++ Action.emit e :: post) := by
  rcases split_cons_append t _ pre post _ h with ⟨c, hc, -⟩ | ⟨p, hp, hu⟩
  · exact absurd (by rw [hc]; simp) (ht e)
  · cases p with
    | nil =>
      simp only [List.nil_append, List.cons.injEq, Action.emit.injEq] at hu
      exact Or.inl ⟨by simpa using hp, hu.1.symm, hu.2.symm⟩
    | cons y p =>
      simp only [List.cons_append, List.cons.injEq] at hu
      exact Or.inr ⟨p, by rw [hp, hu.1], hu.2⟩

/-- Around any event of a run, whatever the stage outcomes: the extraction of
the event's index was not launched before it, or it was awaited before it with
no launch of that extraction in between; and it is not launched after it. -/
theorem lipSyncStream_emit_split (w : World) (messages : List Message)
    (pre post : List Action) (e : OrderedEvent)
    (h : (lipSyncStream w messages).trace = pre ++ Action.emit e :: post) :
    (Action.launchExtract e.index ∉ pre ∨
      ∃ p1 p2, pre = p1 ++ Action.awaitExtract e.index :: p2 ∧
        Action.launchExtract e.index ∉ p2) ∧
    Action.launchExtract e.index ∉ post := by
  by_cases h0 : messages.length = 0
  · have : (lipSyncStream w messages).trace = [] := by
      unfold lipSyncStream
      simp [h0]
    rw [this] at h
    simp at h
  cases hs0 : ttsStage w 0 with
  | threw err =>
    rw [lipSyncStream_trace_of_synthesis0_failure w messages err (by omega) hs0] at h
    rcases emit_split_head [.launchTTS 0, .awaitTTS 0] [] pre post _ e (by simp) h with
      ⟨hp, he, hpost⟩ | ⟨p, -, hu⟩
    · subst hp he hpost
      exact ⟨Or.inl (by simp), by simp⟩
    · simp at hu
  | returned b0 =>
    by_cases h1 : messages.length = 1
    · rw [lipSyncStream_trace_of_single w messages h1 ⟨b0, hs0⟩] at h
      rcases emit_split_head [.launchTTS 0, .awaitTTS 0, .launchExtract 0, .awaitExtract 0] []
        pre post _ e (by simp) h with ⟨hp, he, hpost⟩ | ⟨p, -, hu⟩
      · subst hp he hpost
        exact ⟨Or.inr ⟨[.launchTTS 0, .awaitTTS 0, .launchExtract 0], [], rfl, by simp⟩,
          by simp⟩
      · simp at hu
    · have hlen : 2 ≤ messages.length := by omega
      cases he0 : extractionOutcome w messages 0 with
      | threw err =>
        rw [(lipSyncStream_trace_of_extraction0_failure w messages err hlen ⟨b0, hs0⟩ he0).1] at h
        rcases emit_split_head [.launchTTS 0, .awaitTTS 0, .launchExtract 0, .launchTTS 1,
          .setTTSPromise 1, .awaitExtract 0] [] pre post _ e (by simp) h with
          ⟨hp, he, hpost⟩ | ⟨p, -, hu⟩
        · subst hp he hpost
          exact ⟨Or.inr ⟨[.launchTTS 0, .awaitTTS 0, .launchExtract 0, .launchTTS 1,
            .setTTSPromise 1], [], rfl, by simp⟩, by simp⟩
        · simp at hu
      | returned u =>
        cases u
        cases hs1 : ttsStage w 1 with
        | threw err =>
          rw [(lipSyncStream_trace_of_synthesis1_failure w messages err hlen ⟨b0, hs0⟩ he0
            hs1).1] at h
          rcases emit_split_head [.launchTTS 0, .awaitTTS 0, .launchExtract 0, .launchTTS 1,
            .setTTSPromise 1, .awaitExtract 0]
            [.awaitTTS 1, .emit ⟨0, enriched w messages 0, true, some err.message⟩]
            pre post _ e (by simp) h with ⟨hp, he, hpost⟩ | ⟨p, hp, hu⟩
          · subst hp he hpost
            exact ⟨Or.inr ⟨[.launchTTS 0, .awaitTTS 0, .launchExtract 0, .launchTTS 1,
              .setTTSPromise 1], [], rfl, by simp⟩, by simp⟩
          · rcases emit_split_head [.awaitTTS 1] [] p post _ e (by simp) hu with
              ⟨hp2, he, hpost⟩ | ⟨p3, -, hu2⟩
            · subst hp2 he hpost hp
              exact ⟨Or.inr ⟨[.launchTTS 0, .awaitTTS 0, .launchExtract 0, .launchTTS 1,
                .setTTSPromise 1],
                  [.emit ⟨0, enriched w messages 0, false, none⟩, .awaitTTS 1], rfl, by simp⟩,
                by simp⟩
            · simp at hu2
        | returned b1 =>
          obtain ⟨s, -, hsome, htrace, -⟩ :=
            lipSyncStream_trace_of_loop w messages hlen ⟨b0, hs0⟩ he0 ⟨b1, hs1⟩
          rw [htrace] at h
          have hloop : ∀ j, Action.launchExtract j ∈
              (advanceLoop w messages.length (messages.length - 1) 1 s).trace → 2 ≤ j := by
            intro j hj
            have hsub := (advanceLoop_launches w messages.length (messages.length - 1) 1 s).2.2
              hsome
            have := hsub.subset ((mem_extractLaunchesOf _ _).2 hj)
            rw [List.mem_range'_1] at this
            omega
          have h2 : [Action.launchTTS 0, .awaitTTS 0, .launchExtract 0, .launchTTS 1,
              .setTTSPromise 1, .awaitExtract 0] ++
              Action.emit ⟨0, enriched w messages 0, false, none⟩ ::
                ([Action.awaitTTS 1, .deleteTTSPromise 1, .launchExtract 1,
                  .setLipSyncPromise 1] ++
                  (advanceLoop w messages.length (messages.length - 1) 1 s).trace)
              = pre ++ Action.emit e :: post := h
          rcases emit_split_head _ _ pre post _ e (by simp) h2 with
            ⟨hp, he, hpost⟩ | ⟨p, hp, hu⟩
          · subst hp he hpost
            refine ⟨Or.inr ⟨[.launchTTS 0, .awaitTTS 0, .launchExtract 0, .launchTTS 1,
              .setTTSPromise 1], [], rfl, by simp⟩, ?_⟩
            intro hmem
            simp only [List.mem_append, List.mem_cons, List.mem_singleton, List.not_mem_nil,
              or_false] at hmem
            rcases hmem with hmem | hmem
            · rcases hmem with hmem | hmem | hmem | hmem <;> cases hmem
            · have := hloop _ hmem
              simp at this
          · rcases split_cons_append _ _ p post _ hu with ⟨c, hc, -⟩ | ⟨p3, hp3, hrest⟩
            · have : Action.emit e ∈ [Action.awaitTTS 1, Action.deleteTTSPromise 1,
                  Action.launchExtract 1, Action.setLipSyncPromise 1] := by
                rw [hc]; simp
              simp at this
            · obtain ⟨-, ⟨p1, p2, hp12, hno⟩, hpost⟩ :=
                advanceLoop_emit_split w messages.length _ 1 s p3 e post hrest
              refine ⟨Or.inr ⟨[.launchTTS 0, .awaitTTS 0, .launchExtract 0, .launchTTS 1,
                .setTTSPromise 1, .awaitExtract 0] ++
                  .emit ⟨0, enriched w messages 0, false, none⟩ ::
                    ([.awaitTTS 1, .deleteTTSPromise 1, .launchExtract 1,
                      .setLipSyncPromise 1] ++ p1), p2, ?_, hno⟩, hpost⟩
              rw [hp, hp3, hp12]
              simp

/-- Every event of a run carries its message as the message is when the run
ends, whatever the stage outcomes. -/
theorem lipSyncStream_event_message (w : World) (messages : List Message) (e : OrderedEvent)
    (he : e ∈ events (lipSyncStream w messages)) :
    e.message = messageAt (lipSyncStream w messages).final e.index := by
  by_cases h0 : messages.length = 0
  · have : (lipSyncStream w messages).trace = [] := by
      unfold lipSyncStream
      simp [h0]
    rw [events, this] at he
    simp [eventsOf_nil] at he
  cases hs0 : ttsStage w 0 with
  | threw err =>
    rw [lipSyncStream_trace_of_synthesis0_failure w messages err (by omega) hs0] at he ⊢
    simp only [events, eventsOf_cons, eventsOf_nil, List.nil_append, List.append_nil,
      List.mem_singleton] at he
    subst he
    rfl
  | returned b0 =>
    by_cases h1 : messages.length = 1
    · rw [lipSyncStream_trace_of_single w messages h1 ⟨b0, hs0⟩] at he ⊢
      simp only [events, eventsOf_cons, eventsOf_nil, List.nil_append, List.append_nil,
        List.mem_singleton] at he
      subst he
      simp [messageAt, List.getD_eq_getElem?_getD, h1]
    · have hlen : 2 ≤ messages.length := by omega
      cases he0 : extractionOutcome w messages 0 with
      | threw err =>
        obtain ⟨ht, hm⟩ :=
          lipSyncStream_trace_of_extraction0_failure w messages err hlen ⟨b0, hs0⟩ he0
        rw [events, ht] at he
        simp only [eventsOf_cons, eventsOf_nil, List.nil_append, List.append_nil,
          List.mem_singleton] at he
        subst he
        exact hm.symm
      | returned u =>
        cases u
        cases hs1 : ttsStage w 1 with
        | threw err =>
          obtain ⟨ht, hm⟩ :=
            lipSyncStream_trace_of_synthesis1_failure w messages err hlen ⟨b0, hs0⟩ he0 hs1
          rw [events, ht] at he
          simp only [eventsOf_cons, eventsOf_nil, List.nil_append, List.append_nil,
            List.singleton_append, List.mem_cons, List.mem_singleton, List.not_mem_nil,
            or_false] at he
          rcases he with he | he <;> subst he <;> exact hm.symm
        | returned b1 =>
          obtain ⟨s, hinv, -, htrace, hfinal⟩ :=
            lipSyncStream_trace_of_loop w messages hlen ⟨b0, hs0⟩ he0 ⟨b1, hs1⟩
          obtain ⟨hfin, hevs, -⟩ :=
            advanceLoop_any w messages (messages.length - 1) 1 s (by omega) hinv
          rw [hfinal]
          rw [events, htrace, eventsOf_append] at he
          rcases List.mem_append.1 he with he | he
          · simp only [eventsOf_cons, eventsOf_nil, List.nil_append, List.append_nil,
              List.mem_singleton] at he
            subst he
            exact (hfin.earlier_messages 0 (by omega)).symm
          · obtain ⟨-, h2, h3, -⟩ := hevs e he
            rw [h3]
            exact (hfin.earlier_messages e.index h2).symm

/-- C22: in every run of `lipSyncStream`, at every event of an index `i`
(the first one included): no extraction of `i` is launched after the event;
every extraction of `i` launched before the event has been awaited before it;
the extraction of another index leaves `messages[i]` as it is; and the message
the event carries is `messages[i]` as it is when the run ends. -/
theorem lipSyncStream_frozen_after_emit (w : World) (messages : List Message)
    (pre post : List Action) (e : OrderedEvent)
    (h : (lipSyncStream w messages).trace = pre ++ Action.emit e :: post) :
    Action.launchExtract e.index ∉ post ∧
    (∀ p1 p2, pre = p1 ++ Action.launchExtract e.index :: p2 →
      Action.awaitExtract e.index ∈ p2) ∧
    (∀ j s, j ≠ e.index → messageAt (extractStage w j s).2 e.index = messageAt s e.index) ∧
    e.message = messageAt (lipSyncStream w messages).final e.index := by
  obtain ⟨hpre, hpost⟩ := lipSyncStream_emit_split w messages pre post e h
  refine ⟨hpost, ?_, fun j s hj => extractStage_messageAt_ne w j e.index s (Ne.symm hj), ?_⟩
  · intro p1 p2 hp
    rcases hpre with hno | ⟨q1, q2, hq, hno⟩
    · exact absurd (by rw [hp]; simp) hno
    · exact mem_after_of_split pre q1 q2 p1 p2 _ _ hq hno (by simp) hp
  · apply lipSyncStream_event_message
    rw [events, h, mem_eventsOf]
    simp

/-- C22, on a sample: three messages, synthesis failing for index 2; at the
first event of index 1 the extraction of index 1 has been launched and awaited,
and what follows launches the extraction of index 2 only. -/
theorem lipSyncStream_frozen_after_emit_witness :
    (lipSyncStream (sampleWorldSynthesisFails 2) (sampleMessages 3)).trace
      = [.launchTTS 0, .awaitTTS 0, .launchExtract 0, .launchTTS 1, .setTTSPromise 1,
          .awaitExtract 0,
          .emit ⟨0, ⟨"text0", "smile", "TalkingOne", some "wav0", some "visemes0"⟩, false, none⟩,
          .awaitTTS 1, .deleteTTSPromise 1, .launchExtract 1, .setLipSyncPromise 1,
          .awaitExtract 1, .deleteLipSyncPromise 1] ++
        Action.emit ⟨1, ⟨"text1", "smile", "TalkingOne", some "wav1", some "visemes1"⟩,
            false, none⟩ ::
          [.launchTTS 2, .setTTSPromise 2, .awaitTTS 2,
            .emit ⟨1, ⟨"text1", "smile", "TalkingOne", some "wav1", some "visemes1"⟩, false,
              some "fetch failed"⟩,
            .launchExtract 2, .awaitExtract 2, .deleteLipSyncPromise 2,
            .emit ⟨2, ⟨"text2", "smile", "TalkingOne", some "wav2", some "visemes2"⟩, true,
              none⟩] ∧
    (⟨"text1", "smile", "TalkingOne", some "wav1", some "visemes1"⟩ : Message)
      = messageAt (lipSyncStream (sampleWorldSynthesisFails 2) (sampleMessages 3)).final 1 :=
  Iff.mpr (and_iff_left_of_imp fun h =>
    (lipSyncStream_frozen_after_emit (sampleWorldSynthesisFails 2) (sampleMessages 3) _ _
      ⟨1, ⟨"text1", "smile", "TalkingOne", some "wav1", some "visemes1"⟩, false, none⟩
      h).2.2.2) (by decide)

end Hologram
